import Mathlib

set_option maxRecDepth 8000

/-!
Shallow embedding of the `exact-cover-rs` repository (queuedq/exact-cover-rs).

The embedding follows the source files:
* `src/dlx/dlx_m.rs` — the multiplicity dancing-links matrix and the
  recursive solver `Matrix::_recursive_solve` (the one `Matrix::solve` calls);
* `src/problem.rs` — the `Problem` model (an insertion-ordered map);
* `src/solver.rs` — the solver driver pieces relevant to the claims
  (`generate_multi_matrix`, `ThreadCallback::pause`).

Rust `usize` counters that are only incremented/decremented
(`col_size`, `min`, `max`, `weight`) are modelled as `Int`, matching
release-mode wrapping arithmetic for all reachable values; every indexed
read or write of those vectors is bounds-checked (`vGet` / `vSet`) and a
failed check models the Rust index-out-of-bounds panic by returning `none`.
Reads and writes of the node pool use `getD` / `List.set`; loops that Rust
runs without a bound are given fuel and return `none` when the fuel runs
out, which models divergence (a run that never returns).

Renamings forced by Lean: `Node` is `DNode`, `Matrix` is `Dlx`,
the field `partial_sol` is `cur_sol`, fields `min`/`max` are `mins`/`maxs`.
-/

/-- Node of the dancing-links matrix (`Node` in dlx_m.rs). -/
structure DNode where
  row : Nat
  col : Nat
  left : Nat
  right : Nat
  up : Nat
  down : Nat
deriving Repr, DecidableEq

instance : Inhabited DNode := ⟨⟨0, 0, 0, 0, 0, 0⟩⟩

/-- The dancing-links matrix (`Matrix` in dlx_m.rs). `cur_sol` is `partial_sol`. -/
structure Dlx where
  row_cnt : Nat
  col_cnt : Nat
  pool : List DNode
  col_size : List Int
  mins : List Int
  maxs : List Int
  weight : List Int
  cur_sol : List Nat
  abort_requested : Bool
deriving Repr, DecidableEq

/-- Bounds-checked vector read (Rust `v[i]`, panicking = `none`). -/
def vGet (v : List Int) (i : Nat) : Option Int :=
  if i < v.length then some (v.getD i 0) else none

/-- Bounds-checked vector write (Rust `v[i] = x`, panicking = `none`). -/
def vSet (v : List Int) (i : Nat) (x : Int) : Option (List Int) :=
  if i < v.length then some (v.set i x) else none

/-- Read a pool node (`self.pool[i]`). -/
def Dlx.nd (m : Dlx) (i : Nat) : DNode :=
  m.pool.getD i default

/-- Write one field of one pool node. -/
def Dlx.setNd (m : Dlx) (i : Nat) (n : DNode) : Dlx :=
  { m with pool := m.pool.set i n }

/-- Rust `self.pool[i].left = v`. -/
def Dlx.setLeft (m : Dlx) (i v : Nat) : Dlx :=
  m.setNd i { m.nd i with left := v }

/-- Rust `self.pool[i].right = v`. -/
def Dlx.setRight (m : Dlx) (i v : Nat) : Dlx :=
  m.setNd i { m.nd i with right := v }

/-- Rust `self.pool[i].up = v`. -/
def Dlx.setUp (m : Dlx) (i v : Nat) : Dlx :=
  m.setNd i { m.nd i with up := v }

/-- Rust `self.pool[i].down = v`. -/
def Dlx.setDown (m : Dlx) (i v : Nat) : Dlx :=
  m.setNd i { m.nd i with down := v }

/-- `Matrix::default()` (dlx_m.rs line 48). -/
def Dlx.default0 : Dlx :=
  ⟨0, 0, [default], [0], [0], [0], [0], [], false⟩

/-- `Matrix::create_node` (dlx_m.rs line 310): push a self-linked node,
returning the new state and the node's index. -/
def Dlx.create_node (m : Dlx) (row col : Nat) : Dlx × Nat :=
  let idx := m.pool.length
  ({ m with pool := m.pool ++ [⟨row, col, idx, idx, idx, idx⟩] }, idx)

/-- `Matrix::insert_right` (dlx_m.rs line 323). -/
def Dlx.insert_right (m : Dlx) (at_ node : Nat) : Dlx :=
  let right := (m.nd at_).right
  ((((m.setRight node right).setLeft right node).setLeft node at_).setRight at_ node)

/-- `Matrix::insert_down` (dlx_m.rs line 331). -/
def Dlx.insert_down (m : Dlx) (at_ node : Nat) : Dlx :=
  let down := (m.nd at_).down
  ((((m.setDown node down).setUp down node).setUp node at_).setDown at_ node)

/-- One iteration of the header-creation loop in `Matrix::new`:
`let col = mat.create_node(0, col_num); mat.insert_right(col - 1, col);`. -/
def Dlx.newStep (m : Dlx) (col_num : Nat) : Dlx :=
  let p := m.create_node 0 col_num
  p.1.insert_right (p.2 - 1) p.2

/-- The header-creation loop of `Matrix::new`, columns `colNum, colNum+1, …`
for `n` steps. -/
def Dlx.addColsAux : Nat → Nat → Dlx → Dlx
  | _, 0, m => m
  | colNum, Nat.succ n, m => Dlx.addColsAux (colNum + 1) n (m.newStep colNum)

/-- `Matrix::new` (dlx_m.rs line 72): default multiplicity `[1,1]` per column
(and `[0,0]` at index 0), then create and link the column headers. -/
def Dlx.new (col_cnt : Nat) : Dlx :=
  let m := { Dlx.default0 with
    col_cnt := col_cnt
    col_size := List.replicate (col_cnt + 1) 0
    mins := 0 :: List.replicate col_cnt 1
    maxs := 0 :: List.replicate col_cnt 1
    weight := List.replicate (col_cnt + 1) 0 }
  Dlx.addColsAux 1 col_cnt m

/-- The body of the `for &col_num in row` loop of `Matrix::add_row`
(dlx_m.rs line 103); `none` models the `assert!` panic on an out-of-range
column. -/
def Dlx.addRowLoop (row_num : Nat) : List Nat → Nat → Dlx → Option Dlx
  | [], _, m => some m
  | c :: rest, left_node, m =>
    if 1 ≤ c ∧ c ≤ m.col_cnt then
      let p := m.create_node row_num c
      let m1 := p.1
      let node := p.2
      let m2 := m1.insert_down ((m1.nd c).up) node
      let m3 := if left_node ≠ 0 then m2.insert_right left_node node else m2
      match vSet m3.col_size c (m3.col_size.getD c 0 + 1) with
      | some cs => Dlx.addRowLoop row_num rest node { m3 with col_size := cs }
      | none => none
    else none

/-- `Matrix::add_row` (dlx_m.rs line 98). -/
def Dlx.add_row (m : Dlx) (row : List Nat) : Option Dlx :=
  Dlx.addRowLoop (m.row_cnt + 1) row 0 { m with row_cnt := m.row_cnt + 1 }

/-- `Matrix::with_rows` (dlx_m.rs line 92). -/
def Dlx.with_rows (col_cnt : Nat) (rows : List (List Nat)) : Option Dlx :=
  rows.foldlM Dlx.add_row (Dlx.new col_cnt)

/-- `Matrix::set_multiplicity` (dlx_m.rs line 115). -/
def Dlx.set_multiplicity (m : Dlx) (col : Nat) (mn mx : Int) :
    Option Dlx := do
  let mns ← vSet m.mins col mn
  let mxs ← vSet m.maxs col mx
  pure { m with mins := mns, maxs := mxs }

/-- `Matrix::abort` (dlx_m.rs line 306): set the flag, touch nothing else. -/
def Dlx.abort (m : Dlx) : Dlx :=
  { m with abort_requested := true }

/-- `Matrix::col_fulfilled` (dlx_m.rs line 514). -/
def Dlx.col_fulfilled? (m : Dlx) (c : Nat) : Option Bool := do
  let w ← vGet m.weight c
  let mn ← vGet m.mins c
  let mx ← vGet m.maxs c
  pure (decide (mn ≤ w ∧ w ≤ mx))

/-- `Matrix::col_full` (dlx_m.rs line 521). -/
def Dlx.col_full? (m : Dlx) (c : Nat) : Option Bool := do
  let w ← vGet m.weight c
  let mx ← vGet m.maxs c
  pure (decide (w = mx))

/-- `Matrix::col_fulfillable` (dlx_m.rs line 527). -/
def Dlx.col_fulfillable? (m : Dlx) (c : Nat) : Option Bool := do
  let w ← vGet m.weight c
  let mx ← vGet m.maxs c
  if w > mx then pure false
  else do
    let sz ← vGet m.col_size c
    let mn ← vGet m.mins c
    if w + sz < mn then pure false else pure true

/-- The `while c != HEAD` loop of `Matrix::choose_best_col`
(dlx_m.rs line 497), with fuel. -/
def Dlx.chooseLoop (m : Dlx) : Nat → Nat → Int → Nat → Option Nat
  | 0, _, _, _ => none
  | Nat.succ f, c, best_size, best_col =>
    if c = 0 then some best_col
    else do
      let sz ← vGet m.col_size c
      if sz < best_size then m.chooseLoop f ((m.nd c).right) sz c
      else m.chooseLoop f ((m.nd c).right) best_size best_col

/-- `Matrix::choose_best_col` (dlx_m.rs line 497): MRV heuristic over the
header list; on an empty header list it returns the root index 0. -/
def Dlx.choose_best_col (m : Dlx) : Option Nat := do
  let best_col := (m.nd 0).right
  let best_size ← vGet m.col_size best_col
  m.chooseLoop (m.pool.length + 1) best_col best_size best_col

/-- `Matrix::hide_node` (dlx_m.rs line 477): unlink `j` vertically and
decrement its column's size. -/
def Dlx.hide_node (m : Dlx) (j : Nat) : Option Dlx :=
  let n := m.nd j
  let m1 := (m.setDown n.up n.down).setUp n.down n.up
  match vSet m1.col_size n.col (m1.col_size.getD n.col 0 - 1) with
  | some cs => some { m1 with col_size := cs }
  | none => none

/-- `Matrix::unhide_node` (dlx_m.rs line 486). -/
def Dlx.unhide_node (m : Dlx) (j : Nat) : Option Dlx :=
  let n := m.nd j
  let m1 := (m.setDown n.up j).setUp n.down j
  match vSet m1.col_size n.col (m1.col_size.getD n.col 0 + 1) with
  | some cs => some { m1 with col_size := cs }
  | none => none

/-- The `while j != r` loop of `Matrix::hide_row` (dlx_m.rs line 455),
walking right with fuel. -/
def Dlx.hideRowLoop : Nat → Nat → Nat → Dlx → Option Dlx
  | 0, _, _, _ => none
  | Nat.succ f, j, r, m =>
    if j = r then some m
    else
      match m.hide_node j with
      | some m1 => Dlx.hideRowLoop f ((m1.nd j).right) r m1
      | none => none

/-- `Matrix::hide_row` (dlx_m.rs line 455). -/
def Dlx.hide_row (m : Dlx) (r : Nat) : Option Dlx :=
  Dlx.hideRowLoop (m.pool.length + 1) ((m.nd r).right) r m

/-- The `while j != r` loop of `Matrix::unhide_row` (dlx_m.rs line 465),
walking left with fuel. -/
def Dlx.unhideRowLoop : Nat → Nat → Nat → Dlx → Option Dlx
  | 0, _, _, _ => none
  | Nat.succ f, j, r, m =>
    if j = r then some m
    else
      match m.unhide_node j with
      | some m1 => Dlx.unhideRowLoop f ((m1.nd j).left) r m1
      | none => none

/-- `Matrix::unhide_row` (dlx_m.rs line 465). -/
def Dlx.unhide_row (m : Dlx) (r : Nat) : Option Dlx :=
  Dlx.unhideRowLoop (m.pool.length + 1) ((m.nd r).left) r m

/-- The row-hiding loop of `Matrix::cover_col` (dlx_m.rs line 402). -/
def Dlx.coverLoop : Nat → Nat → Nat → Dlx → Option Dlx
  | 0, _, _, _ => none
  | Nat.succ f, r, c, m =>
    if r = c then some m
    else
      match m.hide_row r with
      | some m1 => Dlx.coverLoop f ((m1.nd r).down) c m1
      | none => none

/-- `Matrix::cover_col` (dlx_m.rs line 395): unlink the header from the
header list, then hide every row of the column. -/
def Dlx.cover_col (m : Dlx) (c : Nat) : Option Dlx :=
  let n := m.nd c
  let m1 := (m.setRight n.left n.right).setLeft n.right n.left
  Dlx.coverLoop (m1.pool.length + 1) ((m1.nd c).down) c m1

/-- The row-unhiding loop of `Matrix::uncover_col` (dlx_m.rs line 412),
walking up. -/
def Dlx.uncoverLoop : Nat → Nat → Nat → Dlx → Option Dlx
  | 0, _, _, _ => none
  | Nat.succ f, r, c, m =>
    if r = c then some m
    else
      match m.unhide_row r with
      | some m1 => Dlx.uncoverLoop f ((m1.nd r).up) c m1
      | none => none

/-- `Matrix::uncover_col` (dlx_m.rs line 411): unhide every row walking up,
then relink the header. -/
def Dlx.uncover_col (m : Dlx) (c : Nat) : Option Dlx :=
  match Dlx.uncoverLoop (m.pool.length + 1) ((m.nd c).up) c m with
  | some m1 =>
    let n := m1.nd c
    some ((m1.setRight n.left c).setLeft n.right c)
  | none => none

/-- `Matrix::tweak_row` (dlx_m.rs line 427), verbatim, including the write
`self.pool[d].down = c` on its last line. -/
def Dlx.tweak_row (m : Dlx) (r : Nat) : Option Dlx :=
  match m.hide_row r with
  | some m1 =>
    let n := m1.nd r
    some ((m1.setDown n.col n.down).setDown n.down n.col)
  | none => none

/-- The loop of `Matrix::untweak_rows` (dlx_m.rs line 438), verbatim,
including the write `self.pool[d].down = r`. -/
def Dlx.untweakLoop : Nat → Nat → Nat → Dlx → Option Dlx
  | 0, _, _, _ => none
  | Nat.succ f, r, c, m =>
    if r = c then some m
    else
      match m.unhide_row r with
      | some m1 =>
        let n := m1.nd r
        Dlx.untweakLoop f n.down c ((m1.setDown n.up r).setDown n.down r)
      | none => none

/-- `Matrix::untweak_rows` (dlx_m.rs line 438). -/
def Dlx.untweak_rows (m : Dlx) (r : Nat) : Option Dlx :=
  Dlx.untweakLoop (m.pool.length + 1) r ((m.nd r).col) m

/-- `Matrix::select_node` (dlx_m.rs line 371). -/
def Dlx.select_node (m : Dlx) (j : Nat) : Option Dlx := do
  let c := (m.nd j).col
  let w ← vGet m.weight c
  let ws ← vSet m.weight c (w + 1)
  let m1 := { m with weight := ws }
  match m1.col_full? c with
  | some true => m1.cover_col c
  | some false => some m1
  | none => none

/-- `Matrix::unselect_node` (dlx_m.rs line 382). -/
def Dlx.unselect_node (m : Dlx) (j : Nat) : Option Dlx := do
  let c := (m.nd j).col
  let m1 ←
    match m.col_full? c with
    | some true => m.uncover_col c
    | some false => some m
    | none => none
  let w ← vGet m1.weight c
  let ws ← vSet m1.weight c (w - 1)
  pure { m1 with weight := ws }

/-- The loop of `Matrix::select_row` (dlx_m.rs line 350), walking right. -/
def Dlx.selectRowLoop : Nat → Nat → Nat → Dlx → Option Dlx
  | 0, _, _, _ => none
  | Nat.succ f, j, r, m =>
    if j = r then some m
    else
      match m.select_node j with
      | some m1 => Dlx.selectRowLoop f ((m1.nd j).right) r m1
      | none => none

/-- `Matrix::select_row` (dlx_m.rs line 350). -/
def Dlx.select_row (m : Dlx) (r : Nat) : Option Dlx :=
  Dlx.selectRowLoop (m.pool.length + 1) ((m.nd r).right) r m

/-- The loop of `Matrix::unselect_row` (dlx_m.rs line 360), walking left;
note the argument of `unselect_node` is `self.pool[j].col`, verbatim. -/
def Dlx.unselectRowLoop : Nat → Nat → Nat → Dlx → Option Dlx
  | 0, _, _, _ => none
  | Nat.succ f, j, r, m =>
    if j = r then some m
    else
      match m.unselect_node ((m.nd j).col) with
      | some m1 => Dlx.unselectRowLoop f ((m1.nd j).left) r m1
      | none => none

/-- `Matrix::unselect_row` (dlx_m.rs line 360). -/
def Dlx.unselect_row (m : Dlx) (r : Nat) : Option Dlx :=
  Dlx.unselectRowLoop (m.pool.length + 1) ((m.nd r).left) r m

/-- Actions a `Callback` implementation can perform on the `&mut Matrix` it
receives: the public mutating API of `Matrix` visible to callback code
(`abort`, `add_row`, `set_multiplicity`). -/
inductive CbAct where
  | abortA : CbAct
  | addRowA : List Nat → CbAct
  | setMulA : Nat → Int → Int → CbAct
deriving Repr, DecidableEq

/-- Callback invocations that `_recursive_solve` performs, recorded as a
trace: `on_solution` (with the passed clone of `partial_sol`),
`on_iteration`, `on_abort`, `on_finish`. -/
inductive DEvent where
  | solE : List Nat → DEvent
  | iterE : DEvent
  | abortE : DEvent
  | finishE : DEvent
deriving Repr, DecidableEq

/-- A model of a `Callback` trait object: a state machine that, at each hook,
updates its private state and performs a list of actions on the matrix. -/
structure SimCb (σ : Type) where
  onSol : σ → List Nat → σ × List CbAct
  onIter : σ → σ × List CbAct

/-- Apply one callback action to the matrix (`none` models a panic inside
the callback's use of the public API). -/
def applyAct (m : Dlx) : CbAct → Option Dlx
  | CbAct.abortA => some m.abort
  | CbAct.addRowA r => m.add_row r
  | CbAct.setMulA c mn mx => m.set_multiplicity c mn mx

/-- Apply a list of callback actions in order. -/
def applyActs (m : Dlx) : List CbAct → Option Dlx
  | [] => some m
  | a :: rest =>
    match applyAct m a with
    | some m1 => applyActs m1 rest
    | none => none

mutual

/-- `Matrix::_recursive_solve` (dlx_m.rs lines 135–230), with fuel.
Returns the trace of callback invocations together with `some` final
(callback state, matrix) when the call returns, or `none` when it panics
(Rust index out of bounds) or diverges (fuel exhausted / unbounded loop).
Note, verbatim from the source: no abort check, no `on_abort`, no
`on_finish`; the guard before the inner recursion is
`self.col_fulfillable(r)` with the node index `r`. -/
def solveRec {σ : Type} : Nat → SimCb σ → σ → Dlx → List DEvent × Option (σ × Dlx)
  | 0, _, _, _ => ([], none)
  | Nat.succ f, cb, s0, m0 =>
    let emit := (m0.nd 0).right = 0
    let p1 := if emit then
        let q := cb.onSol s0 m0.cur_sol
        ([DEvent.solE m0.cur_sol], q.1, applyActs m0 q.2)
      else ([], s0, some m0)
    match p1.2.2 with
    | none => (p1.1, none)
    | some m1 =>
      let q2 := cb.onIter p1.2.1
      let evs := p1.1 ++ [DEvent.iterE]
      match applyActs m1 q2.2 with
      | none => (evs, none)
      | some m2 =>
        match m2.choose_best_col with
        | none => (evs, none)
        | some c =>
          match m2.col_fulfillable? c with
          | none => (evs, none)
          | some false => (evs, some (q2.1, m2))
          | some true =>
            match vGet m2.weight c, vSet m2.weight c (m2.weight.getD c 0 + 1) with
            | some _, some w1 =>
              let m3 := { m2 with weight := w1 }
              match m3.col_full? c with
              | none => (evs, none)
              | some covered =>
                match (if covered then m3.cover_col c else some m3) with
                | none => (evs, none)
                | some m4 =>
                  let first := (m4.nd c).down
                  match tryRows f cb q2.1 c covered first m4 with
                  | (evL, none) => (evs ++ evL, none)
                  | (evL, some (s3, m5)) =>
                    match vGet m5.weight c, vSet m5.weight c (m5.weight.getD c 0 - 1) with
                    | some _, some w2 =>
                      let m6 := { m5 with weight := w2 }
                      match m6.col_fulfilled? c with
                      | none => (evs ++ evL, none)
                      | some fl =>
                        let afterNS :=
                          if fl then
                            let l := (m6.nd c).left
                            let r := (m6.nd c).right
                            let m7 := (m6.setRight l r).setLeft r l
                            match solveRec f cb s3 m7 with
                            | (e, none) => (e, none)
                            | (e, some (s4, m8)) =>
                              (e, some (s4, (m8.setRight l c).setLeft r c))
                          else ([], some (s3, m6))
                        match afterNS with
                        | (e, none) => (evs ++ evL ++ e, none)
                        | (e, some (s5, m9)) =>
                          let fin :=
                            if covered then m9.uncover_col c
                            else m9.untweak_rows first
                          match fin with
                          | some m10 => (evs ++ evL ++ e, some (s5, m10))
                          | none => (evs ++ evL ++ e, none)
                    | _, _ => (evs ++ evL, none)
            | _, _ => (evs, none)

/-- The `while r != c` row loop of `_recursive_solve` (dlx_m.rs lines
182–206), with fuel. -/
def tryRows {σ : Type} : Nat → SimCb σ → σ → Nat → Bool → Nat → Dlx →
    List DEvent × Option (σ × Dlx)
  | 0, _, _, _, _, _, _ => ([], none)
  | Nat.succ f, cb, s, c, covered, r, m =>
    if r = c then ([], some (s, m))
    else
      match (if ¬covered then m.tweak_row r else some m) with
      | none => ([], none)
      | some m1 =>
        match m1.select_row r with
        | none => ([], none)
        | some m2 =>
          let m3 := { m2 with cur_sol := m2.cur_sol ++ [(m2.nd r).row] }
          match m3.col_fulfillable? r with
          | none => ([], none)
          | some cond =>
            match (if cond then solveRec f cb s m3 else ([], some (s, m3))) with
            | (e, none) => (e, none)
            | (e, some (s2, m4)) =>
              match m4.unselect_row r with
              | none => (e, none)
              | some m5 =>
                let m6 := { m5 with cur_sol := m5.cur_sol.dropLast }
                match tryRows f cb s2 c covered ((m6.nd r).down) m6 with
                | (e2, res) => (e ++ e2, res)

end

/-- `Matrix::solve` (dlx_m.rs line 123): reset the abort flag, then run the
recursive solver. -/
def Dlx.solve {σ : Type} (fuel : Nat) (cb : SimCb σ) (s : σ) (m : Dlx) :
    List DEvent × Option (σ × Dlx) :=
  solveRec fuel cb s { m with abort_requested := false }

/-- `Problem` (problem.rs): two insertion-ordered maps, modelled as
association lists with `IndexMap` insertion semantics. -/
structure Problem (N E : Type) where
  constraints : List (E × Nat × Nat)
  subsets : List (N × List E)

/-- `Problem::default()`. -/
def Problem.empty {N E : Type} : Problem N E := ⟨[], []⟩

/-- `IndexMap::insert`: replace the value in place if the key exists,
otherwise append, preserving insertion order. -/
def idxInsert {K V : Type} [DecidableEq K] (l : List (K × V)) (k : K) (v : V) :
    List (K × V) :=
  if (l.map Prod.fst).contains k then
    l.map (fun p => if p.1 = k then (k, v) else p)
  else l ++ [(k, v)]

/-- `Problem::add_constraint` (problem.rs line 57): an unconditional map
insertion — no validation of the multiplicity range. -/
def Problem.add_constraint {N E : Type} [DecidableEq E] (p : Problem N E)
    (e : E) (mn mx : Nat) : Problem N E :=
  { p with constraints := idxInsert p.constraints e (mn, mx) }

/-- `Problem::add_subset` (problem.rs line 51). -/
def Problem.add_subset {N E : Type} [DecidableEq N] (p : Problem N E)
    (n : N) (s : List E) : Problem N E :=
  { p with subsets := idxInsert p.subsets n s }

/-- `Problem::add_exact_constraint` (problem.rs line 62). -/
def Problem.add_exact_constraint {N E : Type} [DecidableEq E]
    (p : Problem N E) (e : E) : Problem N E :=
  p.add_constraint e 1 1

/-- `Problem::add_exact_constraints` (problem.rs line 67). -/
def Problem.add_exact_constraints {N E : Type} [DecidableEq E]
    (p : Problem N E) (es : List E) : Problem N E :=
  es.foldl Problem.add_exact_constraint p

/-- `IndexMap::get_index_of` on the constraints map. -/
def getIdx {E : Type} [DecidableEq E] (l : List (E × Nat × Nat)) (e : E) :
    Option Nat :=
  l.findIdx? (fun q => q.1 = e)

/-- `Solver::generate_multi_matrix` (solver.rs lines 72–88); `none` models
the `unwrap()` panic when an option references an unregistered item. -/
def generateMultiMatrix {N E : Type} [DecidableEq E] (p : Problem N E) :
    Option Dlx := do
  let m0 := Dlx.new p.constraints.length
  let m1 ← p.constraints.foldlM (fun (m : Dlx) q => do
      let i ← getIdx p.constraints q.1
      m.set_multiplicity (i + 1) (q.2.1 : Int) (q.2.2 : Int)) m0
  p.subsets.foldlM (fun (m : Dlx) q => do
      let row ← q.2.mapM (fun e => (getIdx p.constraints e).map (· + 1))
      m.add_row row) m1

/-- Signals on the solver thread's signal channel (solver.rs
`SolverThreadSignal`). -/
inductive TSignal where
  | run : TSignal
  | requestProgress : TSignal
  | pauseS : TSignal
  | abortS : TSignal
deriving Repr, DecidableEq

/-- Events on the solver thread's event channel (solver.rs
`SolverThreadEvent`), restricted to the variants the pause path can send. -/
inductive TEvent where
  | progressUpdated : TEvent
  | pausedEv : TEvent
deriving Repr, DecidableEq

/-- The receive loop of `ThreadCallback::pause` (solver.rs lines 210–218):
the incoming signal channel is a list, the empty list standing for a
disconnected channel (`Err(RecvError)`). Returns the break signal and the
unconsumed rest of the channel. Verbatim from the source,
`Ok(RequestProgress) => ()` skips the signal with no event. -/
def pauseLoop : List TSignal → TSignal × List TSignal
  | [] => (TSignal.abortS, [])
  | TSignal.run :: rest => (TSignal.run, rest)
  | TSignal.requestProgress :: rest => pauseLoop rest
  | TSignal.pauseS :: rest => pauseLoop rest
  | TSignal.abortS :: rest => (TSignal.abortS, rest)

/-- `ThreadCallback::pause` (solver.rs lines 208–219): send `Paused`, then
run the receive loop; the first component lists every event the call sends
to the event channel. -/
def pauseFn (sigs : List TSignal) : List TEvent × TSignal × List TSignal :=
  ([TEvent.pausedEv], pauseLoop sigs)

/-- The solution payloads inside a trace, in order. -/
def traceSols : List DEvent → List (List Nat)
  | [] => []
  | DEvent.solE s :: rest => s :: traceSols rest
  | _ :: rest => traceSols rest

/-- A callback with no private state that performs no matrix action: the
behaviour of `ThreadCallback` when no signal ever arrives. -/
def noopCb : SimCb Unit := ⟨fun s _ => (s, []), fun s => (s, [])⟩

/-- A callback that calls `mat.abort()` at the first `on_iteration` (the
behaviour of `ThreadCallback` when an `Abort` signal is already queued). -/
def abortCb : SimCb Bool :=
  ⟨fun s _ => (s, []), fun s => (true, if s then [] else [CbAct.abortA])⟩

/-- A callback that calls the public `mat.add_row(&[2])` at the first
`on_iteration` — legal for any `Callback` implementation, since the hooks
receive `&mut Matrix`. -/
def addRowCb : SimCb Bool :=
  ⟨fun s _ => (s, []), fun s => (true, if s then [] else [CbAct.addRowA [2]])⟩

/-- Scenario S2 as a `Problem` (solver.rs test `solver_can_solve_problem`,
lib.rs doc example): items `1..=3` exact, options `A..F`. -/
def s2prob : Problem String Nat :=
  ((((((Problem.empty.add_exact_constraints [1, 2, 3]).add_subset "A"
    [1, 2, 3]).add_subset "B" [1]).add_subset "C" [2]).add_subset "D"
    [3]).add_subset "E" [1, 2]).add_subset "F" [2, 3]

/-- The matrix generated from S2. -/
def s2mat : Option Dlx := generateMultiMatrix s2prob

/-- The two-column matrix with both columns given multiplicity `[0, 1]`
(every search level then picks an empty column, so the run never selects a
row and never panics). -/
def m2zero : Option Dlx := do
  let m1 ← (Dlx.new 2).set_multiplicity 1 0 1
  m1.set_multiplicity 2 0 1

/-- Run a sequence of `cover_col` (`true`) / `uncover_col` (`false`)
operations on the given columns, left to right. -/
def runCU : List (Bool × Nat) → Dlx → Option Dlx
  | [], m => some m
  | (true, c) :: ops, m => (m.cover_col c).bind (runCU ops)
  | (false, c) :: ops, m => (m.uncover_col c).bind (runCU ops)

/-- Stack check that every cover in the sequence is matched by exactly one
uncover of the same column in LIFO order (innermost cover uncovered
first), with no unmatched operation left over. -/
def lifoOk : List (Bool × Nat) → List Nat → Bool
  | [], st => st.isEmpty
  | (true, c) :: ops, st => lifoOk ops (c :: st)
  | (false, c) :: ops, st =>
      match st with
      | [] => false
      | d :: st' => d = c && lifoOk ops st'

/-- The balanced sequence `cover 1; cover 1; uncover 1; uncover 1`. -/
def cuSeq : List (Bool × Nat) :=
  [(true, 1), (true, 1), (false, 1), (false, 1)]

/-! List toolkit: `getD` / `set` interaction lemmas. -/

theorem getD_set_self {α : Type} (l : List α) (i : Nat) (a d : α)
    (h : i < l.length) : (l.set i a).getD i d = a := by
  induction l generalizing i with
  | nil => simp at h
  | cons x xs ih =>
    cases i with
    | zero => rfl
    | succ n => simpa using ih n (by simpa using h)

theorem getD_set_ne {α : Type} (l : List α) (i j : Nat) (a d : α)
    (h : i ≠ j) : (l.set i a).getD j d = l.getD j d := by
  induction l generalizing i j with
  | nil => rfl
  | cons x xs ih =>
    cases i with
    | zero =>
      cases j with
      | zero => exact absurd rfl h
      | succ n => rfl
    | succ n =>
      cases j with
      | zero => rfl
      | succ k => simpa using ih n k (by omega)

theorem set_getD_self {α : Type} (l : List α) (i : Nat) (d : α)
    (h : i < l.length) : l.set i (l.getD i d) = l := by
  induction l generalizing i with
  | nil => rfl
  | cons x xs ih =>
    cases i with
    | zero => rfl
    | succ n => simpa using ih n (by simpa using h)

theorem set_set_self {α : Type} (l : List α) (i : Nat) (a b : α) :
    (l.set i a).set i b = l.set i b := by
  induction l generalizing i with
  | nil => rfl
  | cons x xs ih =>
    cases i with
    | zero => rfl
    | succ n => simpa using ih n

theorem length_vSet {v : List Int} {i : Nat} {x : Int} {w : List Int}
    (h : vSet v i x = some w) : w.length = v.length := by
  unfold vSet at h
  split at h
  · cases h; simp
  · cases h

theorem vSet_lt {v : List Int} {i : Nat} {x : Int} {w : List Int}
    (h : vSet v i x = some w) : i < v.length := by
  unfold vSet at h
  split at h
  · assumption
  · cases h

theorem vSet_eq {v : List Int} {i : Nat} {x : Int} {w : List Int}
    (h : vSet v i x = some w) : w = v.set i x := by
  unfold vSet at h
  split at h
  · cases h; rfl
  · cases h

theorem vGet_lt {v : List Int} {i : Nat} {x : Int}
    (h : vGet v i = some x) : i < v.length := by
  unfold vGet at h
  split at h
  · assumption
  · cases h

theorem vGet_eq {v : List Int} {i : Nat} {x : Int}
    (h : vGet v i = some x) : x = v.getD i 0 := by
  unfold vGet at h
  split at h
  · cases h; rfl
  · cases h

theorem vGet_none {v : List Int} {i : Nat}
    (h : v.length ≤ i) : vGet v i = none := by
  unfold vGet
  split
  · omega
  · rfl

/-! Frame lemmas: which fields each pool-writing helper touches. -/

theorem setNd_frame (m : Dlx) (i : Nat) (n : DNode) :
    (m.setNd i n).row_cnt = m.row_cnt ∧ (m.setNd i n).col_cnt = m.col_cnt ∧
    (m.setNd i n).col_size = m.col_size ∧ (m.setNd i n).mins = m.mins ∧
    (m.setNd i n).maxs = m.maxs ∧ (m.setNd i n).weight = m.weight ∧
    (m.setNd i n).cur_sol = m.cur_sol ∧
    (m.setNd i n).abort_requested = m.abort_requested ∧
    (m.setNd i n).pool.length = m.pool.length := by
  refine ⟨rfl, rfl, rfl, rfl, rfl, rfl, rfl, rfl, by simp [Dlx.setNd]⟩

theorem nd_setNd (m : Dlx) (i : Nat) (n : DNode) (j : Nat) :
    (m.setNd i n).nd j =
      if i = j ∧ i < m.pool.length then n else m.nd j := by
  unfold Dlx.setNd Dlx.nd
  by_cases hij : i = j
  · subst hij
    by_cases hi : i < m.pool.length
    · simp only [hi, and_true, if_pos rfl]
      exact getD_set_self _ _ _ _ hi
    · simp only [hi, and_false, if_false]
      rw [List.set_eq_of_length_le (le_of_not_lt hi)]
  · simp only [hij, false_and, if_false]
    exact getD_set_ne _ _ _ _ _ hij

theorem nd_setNd_ne (m : Dlx) (i : Nat) (n : DNode) (j : Nat) (h : i ≠ j) :
    (m.setNd i n).nd j = m.nd j := by
  rw [nd_setNd]; simp [h]

/-- The `col` and `row` fields of every node are never modified by the four
directional setters. -/
theorem colrow_setters (m : Dlx) (i v j : Nat) :
    ((m.setLeft i v).nd j).col = (m.nd j).col ∧
    ((m.setLeft i v).nd j).row = (m.nd j).row ∧
    ((m.setRight i v).nd j).col = (m.nd j).col ∧
    ((m.setRight i v).nd j).row = (m.nd j).row ∧
    ((m.setUp i v).nd j).col = (m.nd j).col ∧
    ((m.setUp i v).nd j).row = (m.nd j).row ∧
    ((m.setDown i v).nd j).col = (m.nd j).col ∧
    ((m.setDown i v).nd j).row = (m.nd j).row := by
  unfold Dlx.setLeft Dlx.setRight Dlx.setUp Dlx.setDown
  refine ⟨?_, ?_, ?_, ?_, ?_, ?_, ?_, ?_⟩ <;>
    (rw [nd_setNd]; split <;> simp_all)

set_option linter.unnecessarySimpa false

/-! Invariants of well-formed matrices used by the solver proofs. -/

/-- Header identity: the root has `col = row = 0` and the header of column
`c` (stored at pool index `c`) has `col = c`, `row = 0`. -/
def headOK (m : Dlx) : Prop :=
  (m.nd 0).col = 0 ∧ (m.nd 0).row = 0 ∧
  ∀ c, 1 ≤ c → c ≤ m.col_cnt → (m.nd c).col = c ∧ (m.nd c).row = 0

/-- Every node's `col` field is at most `col_cnt`. -/
def colsBounded (m : Dlx) : Prop :=
  ∀ j, j < m.pool.length → (m.nd j).col ≤ m.col_cnt

/-- Vector lengths as established by `Matrix::new`. -/
def lensOK (m : Dlx) : Prop :=
  m.col_cnt + 1 ≤ m.pool.length ∧ m.weight.length = m.col_cnt + 1 ∧
  m.mins.length = m.col_cnt + 1 ∧ m.maxs.length = m.col_cnt + 1 ∧
  m.col_size.length = m.col_cnt + 1

/-- Vertical links are in bounds and column-homogeneous: a node's `up` and
`down` neighbours carry the same `col` field. -/
def homog (m : Dlx) : Prop :=
  ∀ j, j < m.pool.length →
    (m.nd j).down < m.pool.length ∧ (m.nd j).up < m.pool.length ∧
    (m.nd ((m.nd j).down)).col = (m.nd j).col ∧
    (m.nd ((m.nd j).up)).col = (m.nd j).col

/-- The static part of the invariant bundle. -/
def statics (m : Dlx) : Prop := headOK m ∧ colsBounded m ∧ lensOK m


/-- Horizontal links are in bounds. -/
def lrOK (m : Dlx) : Prop :=
  ∀ j, j < m.pool.length →
    (m.nd j).left < m.pool.length ∧ (m.nd j).right < m.pool.length

/-- All links in bounds, vertical ones column-homogeneous. -/
def linksOK (m : Dlx) : Prop := homog m ∧ lrOK m

/-- Scalar-field frame of one internal matrix operation: everything except
the `weight`/`col_size` values and the link fields is unchanged. -/
def frameStep (m m' : Dlx) : Prop :=
  m'.row_cnt = m.row_cnt ∧ m'.col_cnt = m.col_cnt ∧ m'.mins = m.mins ∧
  m'.maxs = m.maxs ∧ m'.cur_sol = m.cur_sol ∧
  m'.abort_requested = m.abort_requested ∧
  m'.pool.length = m.pool.length ∧
  m'.col_size.length = m.col_size.length ∧
  m'.weight.length = m.weight.length ∧
  ∀ j, (m'.nd j).col = (m.nd j).col ∧ (m'.nd j).row = (m.nd j).row

theorem frameStep_refl (m : Dlx) : frameStep m m :=
  ⟨rfl, rfl, rfl, rfl, rfl, rfl, rfl, rfl, rfl, fun _ => ⟨rfl, rfl⟩⟩

theorem frameStep_trans {m1 m2 m3 : Dlx} (h : frameStep m1 m2)
    (h' : frameStep m2 m3) : frameStep m1 m3 := by
  obtain ⟨a1, a2, a3, a4, a5, a6, a7, a8, a9, a10⟩ := h
  obtain ⟨b1, b2, b3, b4, b5, b6, b7, b8, b9, b10⟩ := h'
  exact ⟨by omega, by omega, by rw [b3, a3], by rw [b4, a4], by rw [b5, a5],
    by rw [b6, a6], by omega, by omega, by omega,
    fun j => ⟨by rw [(b10 j).1, (a10 j).1], by rw [(b10 j).2, (a10 j).2]⟩⟩

theorem statics_of_frameStep {m m' : Dlx} (h : frameStep m m')
    (hs : statics m) : statics m' := by
  obtain ⟨a1, a2, a3, a4, a5, a6, a7, a8, a9, a10⟩ := h
  obtain ⟨⟨h1, h2, h3⟩, hb, ⟨c1, c2, c3, c4, c5⟩⟩ := hs
  refine ⟨⟨?_, ?_, ?_⟩, ?_, ?_⟩
  · rw [(a10 0).1]; exact h1
  · rw [(a10 0).2]; exact h2
  · intro c hc1 hc2
    rw [a2] at hc2
    exact ⟨by rw [(a10 c).1]; exact (h3 c hc1 hc2).1,
           by rw [(a10 c).2]; exact (h3 c hc1 hc2).2⟩
  · intro j hj
    rw [(a10 j).1, a2]
    exact hb j (by omega)
  · exact ⟨by omega, by rw [a9, c2, a2], by rw [a3, c3, a2],
      by rw [a4, c4, a2], by rw [a8, c5, a2]⟩

/-- Frame of the four directional setters. -/
theorem frame_set (m : Dlx) (i v : Nat) :
    frameStep m (m.setLeft i v) ∧ frameStep m (m.setRight i v) ∧
    frameStep m (m.setUp i v) ∧ frameStep m (m.setDown i v) := by
  refine ⟨⟨rfl, rfl, rfl, rfl, rfl, rfl, (setNd_frame m i _).2.2.2.2.2.2.2.2,
      rfl, rfl, fun j => ⟨(colrow_setters m i v j).1, (colrow_setters m i v j).2.1⟩⟩,
    ⟨rfl, rfl, rfl, rfl, rfl, rfl, (setNd_frame m i _).2.2.2.2.2.2.2.2,
      rfl, rfl, fun j => ⟨(colrow_setters m i v j).2.2.1, (colrow_setters m i v j).2.2.2.1⟩⟩,
    ⟨rfl, rfl, rfl, rfl, rfl, rfl, (setNd_frame m i _).2.2.2.2.2.2.2.2,
      rfl, rfl, fun j => ⟨(colrow_setters m i v j).2.2.2.2.1, (colrow_setters m i v j).2.2.2.2.2.1⟩⟩,
    ⟨rfl, rfl, rfl, rfl, rfl, rfl, (setNd_frame m i _).2.2.2.2.2.2.2.2,
      rfl, rfl, fun j => ⟨(colrow_setters m i v j).2.2.2.2.2.2.1, (colrow_setters m i v j).2.2.2.2.2.2.2⟩⟩⟩

/-- Field characterisation of `setDown`. -/
theorem nd_setDown_fields (m : Dlx) (x v k : Nat) :
    ((m.setDown x v).nd k).down =
      (if x = k ∧ x < m.pool.length then v else (m.nd k).down) ∧
    ((m.setDown x v).nd k).up = (m.nd k).up ∧
    ((m.setDown x v).nd k).left = (m.nd k).left ∧
    ((m.setDown x v).nd k).right = (m.nd k).right := by
  unfold Dlx.setDown
  rw [nd_setNd]
  split
  · next hcase => exact ⟨by simp [hcase.1], by rw [← hcase.1], by rw [← hcase.1],
      by rw [← hcase.1]⟩
  · next hcase => simp

/-- Field characterisation of `setUp`. -/
theorem nd_setUp_fields (m : Dlx) (x v k : Nat) :
    ((m.setUp x v).nd k).up =
      (if x = k ∧ x < m.pool.length then v else (m.nd k).up) ∧
    ((m.setUp x v).nd k).down = (m.nd k).down ∧
    ((m.setUp x v).nd k).left = (m.nd k).left ∧
    ((m.setUp x v).nd k).right = (m.nd k).right := by
  unfold Dlx.setUp
  rw [nd_setNd]
  split
  · next hcase => exact ⟨by simp [hcase.1], by rw [← hcase.1], by rw [← hcase.1],
      by rw [← hcase.1]⟩
  · next hcase => simp

/-- Field characterisation of `setLeft`. -/
theorem nd_setLeft_fields (m : Dlx) (x v k : Nat) :
    ((m.setLeft x v).nd k).left =
      (if x = k ∧ x < m.pool.length then v else (m.nd k).left) ∧
    ((m.setLeft x v).nd k).up = (m.nd k).up ∧
    ((m.setLeft x v).nd k).down = (m.nd k).down ∧
    ((m.setLeft x v).nd k).right = (m.nd k).right := by
  unfold Dlx.setLeft
  rw [nd_setNd]
  split
  · next hcase => exact ⟨by simp [hcase.1], by rw [← hcase.1], by rw [← hcase.1],
      by rw [← hcase.1]⟩
  · next hcase => simp

/-- Field characterisation of `setRight`. -/
theorem nd_setRight_fields (m : Dlx) (x v k : Nat) :
    ((m.setRight x v).nd k).right =
      (if x = k ∧ x < m.pool.length then v else (m.nd k).right) ∧
    ((m.setRight x v).nd k).up = (m.nd k).up ∧
    ((m.setRight x v).nd k).down = (m.nd k).down ∧
    ((m.setRight x v).nd k).left = (m.nd k).left := by
  unfold Dlx.setRight
  rw [nd_setNd]
  split
  · next hcase => exact ⟨by simp [hcase.1], by rw [← hcase.1], by rw [← hcase.1],
      by rw [← hcase.1]⟩
  · next hcase => simp

/-- `setDown` with an in-bounds, column-matching value keeps `linksOK`. -/
theorem links_setDown {m : Dlx} (x v : Nat) (hl : linksOK m)
    (hv : v < m.pool.length) (hcol : (m.nd v).col = (m.nd x).col) :
    linksOK (m.setDown x v) := by
  obtain ⟨hh, hr⟩ := hl
  have hlen : (m.setDown x v).pool.length = m.pool.length :=
    (setNd_frame m x _).2.2.2.2.2.2.2.2
  have hcolstat : ∀ k, ((m.setDown x v).nd k).col = (m.nd k).col :=
    fun k => (colrow_setters m x v k).2.2.2.2.2.2.1
  constructor
  · intro j hj
    rw [hlen] at hj
    have base := hh j hj
    have hf := nd_setDown_fields m x v j
    refine ⟨?_, ?_, ?_, ?_⟩
    · rw [hf.1, hlen]
      split
      · exact hv
      · exact base.1
    · rw [hf.2.1, hlen]; exact base.2.1
    · rw [hf.1, hcolstat, hcolstat]
      split
      · next hc => rw [← hc.1]; exact hcol
      · exact base.2.2.1
    · rw [hf.2.1, hcolstat, hcolstat]; exact base.2.2.2
  · intro j hj
    rw [hlen] at hj
    have base := hr j hj
    have hf := nd_setDown_fields m x v j
    exact ⟨by rw [hf.2.2.1, hlen]; exact base.1,
           by rw [hf.2.2.2, hlen]; exact base.2⟩

/-- `setUp` with an in-bounds, column-matching value keeps `linksOK`. -/
theorem links_setUp {m : Dlx} (x v : Nat) (hl : linksOK m)
    (hv : v < m.pool.length) (hcol : (m.nd v).col = (m.nd x).col) :
    linksOK (m.setUp x v) := by
  obtain ⟨hh, hr⟩ := hl
  have hlen : (m.setUp x v).pool.length = m.pool.length :=
    (setNd_frame m x _).2.2.2.2.2.2.2.2
  have hcolstat : ∀ k, ((m.setUp x v).nd k).col = (m.nd k).col :=
    fun k => (colrow_setters m x v k).2.2.2.2.1
  constructor
  · intro j hj
    rw [hlen] at hj
    have base := hh j hj
    have hf := nd_setUp_fields m x v j
    refine ⟨?_, ?_, ?_, ?_⟩
    · rw [hf.2.1, hlen]; exact base.1
    · rw [hf.1, hlen]
      split
      · exact hv
      · exact base.2.1
    · rw [hf.2.1, hcolstat, hcolstat]; exact base.2.2.1
    · rw [hf.1, hcolstat, hcolstat]
      split
      · next hc => rw [← hc.1]; exact hcol
      · exact base.2.2.2
  · intro j hj
    rw [hlen] at hj
    have base := hr j hj
    have hf := nd_setUp_fields m x v j
    exact ⟨by rw [hf.2.2.1, hlen]; exact base.1,
           by rw [hf.2.2.2, hlen]; exact base.2⟩

/-- `setLeft` with an in-bounds value keeps `linksOK`. -/
theorem links_setLeft {m : Dlx} (x v : Nat) (hl : linksOK m)
    (hv : v < m.pool.length) : linksOK (m.setLeft x v) := by
  obtain ⟨hh, hr⟩ := hl
  have hlen : (m.setLeft x v).pool.length = m.pool.length :=
    (setNd_frame m x _).2.2.2.2.2.2.2.2
  have hcolstat : ∀ k, ((m.setLeft x v).nd k).col = (m.nd k).col :=
    fun k => (colrow_setters m x v k).1
  constructor
  · intro j hj
    rw [hlen] at hj
    have base := hh j hj
    have hf := nd_setLeft_fields m x v j
    exact ⟨by rw [hf.2.2.1, hlen]; exact base.1,
           by rw [hf.2.1, hlen]; exact base.2.1,
           by rw [hf.2.2.1, hcolstat, hcolstat]; exact base.2.2.1,
           by rw [hf.2.1, hcolstat, hcolstat]; exact base.2.2.2⟩
  · intro j hj
    rw [hlen] at hj
    have base := hr j hj
    have hf := nd_setLeft_fields m x v j
    constructor
    · rw [hf.1, hlen]
      split
      · exact hv
      · exact base.1
    · rw [hf.2.2.2, hlen]; exact base.2

/-- `setRight` with an in-bounds value keeps `linksOK`. -/
theorem links_setRight {m : Dlx} (x v : Nat) (hl : linksOK m)
    (hv : v < m.pool.length) : linksOK (m.setRight x v) := by
  obtain ⟨hh, hr⟩ := hl
  have hlen : (m.setRight x v).pool.length = m.pool.length :=
    (setNd_frame m x _).2.2.2.2.2.2.2.2
  have hcolstat : ∀ k, ((m.setRight x v).nd k).col = (m.nd k).col :=
    fun k => (colrow_setters m x v k).2.2.1
  constructor
  · intro j hj
    rw [hlen] at hj
    have base := hh j hj
    have hf := nd_setRight_fields m x v j
    exact ⟨by rw [hf.2.2.1, hlen]; exact base.1,
           by rw [hf.2.1, hlen]; exact base.2.1,
           by rw [hf.2.2.1, hcolstat, hcolstat]; exact base.2.2.1,
           by rw [hf.2.1, hcolstat, hcolstat]; exact base.2.2.2⟩
  · intro j hj
    rw [hlen] at hj
    have base := hr j hj
    have hf := nd_setRight_fields m x v j
    constructor
    · rw [hf.2.2.2, hlen]; exact base.1
    · rw [hf.1, hlen]
      split
      · exact hv
      · exact base.2

theorem nd_oob {m : Dlx} {j : Nat} (h : m.pool.length ≤ j) :
    m.nd j = default := by
  unfold Dlx.nd
  exact List.getD_eq_default _ _ h

/-- `hide_node` frame: everything except links and `col_size` values is
unchanged, and `weight` is unchanged. -/
theorem hide_node_frame {m : Dlx} {j : Nat} {m' : Dlx}
    (h : m.hide_node j = some m') :
    frameStep m m' ∧ m'.weight = m.weight := by
  simp only [Dlx.hide_node] at h
  split at h
  · next cs hcs =>
    cases h
    have f1 : frameStep m (m.setDown (m.nd j).up (m.nd j).down) :=
      (frame_set m (m.nd j).up (m.nd j).down).2.2.2
    have f2 : frameStep (m.setDown (m.nd j).up (m.nd j).down)
        ((m.setDown (m.nd j).up (m.nd j).down).setUp (m.nd j).down (m.nd j).up) :=
      (frame_set (m.setDown (m.nd j).up (m.nd j).down) (m.nd j).down (m.nd j).up).2.2.1
    refine ⟨frameStep_trans (frameStep_trans f1 f2) ?_, rfl⟩
    exact ⟨rfl, rfl, rfl, rfl, rfl, rfl, rfl, length_vSet hcs, rfl,
      fun _ => ⟨rfl, rfl⟩⟩
  · cases h

/-- `hide_node` keeps `linksOK` (given the statics for the degenerate
out-of-range case). -/
theorem hide_node_links {m : Dlx} {j : Nat} {m' : Dlx}
    (h : m.hide_node j = some m') (hst : statics m) (hl : linksOK m) :
    linksOK m' := by
  simp only [Dlx.hide_node] at h
  split at h
  · next cs hcs =>
    cases h
    have hlen0 : 0 < m.pool.length := by have := hst.2.2.1; omega
    have hkey : (m.nd j).down < m.pool.length ∧ (m.nd j).up < m.pool.length ∧
        (m.nd ((m.nd j).down)).col = (m.nd ((m.nd j).up)).col := by
      by_cases hj : j < m.pool.length
      · exact ⟨(hl.1 j hj).1, (hl.1 j hj).2.1,
          by rw [(hl.1 j hj).2.2.1, (hl.1 j hj).2.2.2]⟩
      · rw [nd_oob (le_of_not_lt hj)]
        exact ⟨hlen0, hlen0, rfl⟩
    have h1 : linksOK (m.setDown (m.nd j).up (m.nd j).down) :=
      links_setDown _ _ hl hkey.1 hkey.2.2
    have hlen1 : (m.setDown (m.nd j).up (m.nd j).down).pool.length =
        m.pool.length := (setNd_frame _ _ _).2.2.2.2.2.2.2.2
    have h2 : linksOK ((m.setDown (m.nd j).up (m.nd j).down).setUp
        (m.nd j).down (m.nd j).up) := by
      refine links_setUp _ _ h1 (by rw [hlen1]; exact hkey.2.1) ?_
      rw [(colrow_setters _ _ _ _).2.2.2.2.2.2.1,
          (colrow_setters _ _ _ _).2.2.2.2.2.2.1]
      exact hkey.2.2.symm
    exact h2
  · cases h

/-- `unhide_node` frame. -/
theorem unhide_node_frame {m : Dlx} {j : Nat} {m' : Dlx}
    (h : m.unhide_node j = some m') :
    frameStep m m' ∧ m'.weight = m.weight := by
  simp only [Dlx.unhide_node] at h
  split at h
  · next cs hcs =>
    cases h
    have f1 : frameStep m (m.setDown (m.nd j).up j) :=
      (frame_set m (m.nd j).up j).2.2.2
    have f2 : frameStep (m.setDown (m.nd j).up j)
        ((m.setDown (m.nd j).up j).setUp (m.nd j).down j) :=
      (frame_set (m.setDown (m.nd j).up j) (m.nd j).down j).2.2.1
    refine ⟨frameStep_trans (frameStep_trans f1 f2) ?_, rfl⟩
    exact ⟨rfl, rfl, rfl, rfl, rfl, rfl, rfl, length_vSet hcs, rfl,
      fun _ => ⟨rfl, rfl⟩⟩
  · cases h

/-- `unhide_node` keeps `linksOK` when `j` is in bounds. -/
theorem unhide_node_links {m : Dlx} {j : Nat} {m' : Dlx}
    (h : m.unhide_node j = some m') (hj : j < m.pool.length)
    (hl : linksOK m) : linksOK m' := by
  simp only [Dlx.unhide_node] at h
  split at h
  · next cs hcs =>
    cases h
    have h1 : linksOK (m.setDown (m.nd j).up j) :=
      links_setDown _ _ hl hj (hl.1 j hj).2.2.2.symm
    have hlen1 : (m.setDown (m.nd j).up j).pool.length = m.pool.length :=
      (setNd_frame _ _ _).2.2.2.2.2.2.2.2
    refine links_setUp _ _ h1 (by rw [hlen1]; exact hj) ?_
    rw [(colrow_setters _ _ _ _).2.2.2.2.2.2.1,
        (colrow_setters _ _ _ _).2.2.2.2.2.2.1]
    exact (hl.1 j hj).2.2.1.symm
  · cases h

/-- Frame of the `hide_row` loop. -/
theorem hideRowLoop_frame : ∀ (f j r : Nat) (m m' : Dlx),
    Dlx.hideRowLoop f j r m = some m' →
    frameStep m m' ∧ m'.weight = m.weight := by
  intro f
  induction f with
  | zero => intro j r m m' h; cases h
  | succ f ih =>
    intro j r m m' h
    unfold Dlx.hideRowLoop at h
    split at h
    · cases h; exact ⟨frameStep_refl m, rfl⟩
    · split at h
      · next m1 hm1 =>
        have h1 := hide_node_frame hm1
        have h2 := ih _ _ _ _ h
        exact ⟨frameStep_trans h1.1 h2.1, by rw [h2.2, h1.2]⟩
      · cases h

/-- The `hide_row` loop keeps `linksOK`. -/
theorem hideRowLoop_links : ∀ (f j r : Nat) (m m' : Dlx),
    Dlx.hideRowLoop f j r m = some m' → statics m → linksOK m → linksOK m' := by
  intro f
  induction f with
  | zero => intro j r m m' h; cases h
  | succ f ih =>
    intro j r m m' h hst hl
    unfold Dlx.hideRowLoop at h
    split at h
    · cases h; exact hl
    · split at h
      · next m1 hm1 =>
        exact ih _ _ _ _ h
          (statics_of_frameStep (hide_node_frame hm1).1 hst)
          (hide_node_links hm1 hst hl)
      · cases h

/-- Frame of `hide_row`. -/
theorem hide_row_frame {m : Dlx} {r : Nat} {m' : Dlx}
    (h : m.hide_row r = some m') : frameStep m m' ∧ m'.weight = m.weight :=
  hideRowLoop_frame _ _ _ _ _ h

/-- `hide_row` keeps `linksOK`. -/
theorem hide_row_links {m : Dlx} {r : Nat} {m' : Dlx}
    (h : m.hide_row r = some m') (hst : statics m) (hl : linksOK m) :
    linksOK m' :=
  hideRowLoop_links _ _ _ _ _ h hst hl

/-- Frame of the `unhide_row` loop. -/
theorem unhideRowLoop_frame : ∀ (f j r : Nat) (m m' : Dlx),
    Dlx.unhideRowLoop f j r m = some m' →
    frameStep m m' ∧ m'.weight = m.weight := by
  intro f
  induction f with
  | zero => intro j r m m' h; cases h
  | succ f ih =>
    intro j r m m' h
    unfold Dlx.unhideRowLoop at h
    split at h
    · cases h; exact ⟨frameStep_refl m, rfl⟩
    · split at h
      · next m1 hm1 =>
        have h1 := unhide_node_frame hm1
        have h2 := ih _ _ _ _ h
        exact ⟨frameStep_trans h1.1 h2.1, by rw [h2.2, h1.2]⟩
      · cases h

/-- The `unhide_row` loop keeps `linksOK` when its cursor starts in
bounds. -/
theorem unhideRowLoop_links : ∀ (f j r : Nat) (m m' : Dlx),
    Dlx.unhideRowLoop f j r m = some m' → j < m.pool.length →
    statics m → linksOK m → linksOK m' := by
  intro f
  induction f with
  | zero => intro j r m m' h; cases h
  | succ f ih =>
    intro j r m m' h hj hst hl
    unfold Dlx.unhideRowLoop at h
    split at h
    · cases h; exact hl
    · split at h
      · next m1 hm1 =>
        have hfr := (unhide_node_frame hm1).1
        have hl1 := unhide_node_links hm1 hj hl
        refine ih _ _ _ _ h ?_ (statics_of_frameStep hfr hst) hl1
        have hlen : m1.pool.length = m.pool.length := hfr.2.2.2.2.2.2.1
        have : j < m1.pool.length := by omega
        exact (hl1.2 j this).1
      · cases h

/-- Frame of `unhide_row`. -/
theorem unhide_row_frame {m : Dlx} {r : Nat} {m' : Dlx}
    (h : m.unhide_row r = some m') : frameStep m m' ∧ m'.weight = m.weight :=
  unhideRowLoop_frame _ _ _ _ _ h

/-- `unhide_row` keeps `linksOK` (the initial cursor `pool[r].left` is
always in bounds: by `lrOK` when `r` is, and it is the root otherwise). -/
theorem unhide_row_links {m : Dlx} {r : Nat} {m' : Dlx}
    (h : m.unhide_row r = some m') (hst : statics m) (hl : linksOK m) :
    linksOK m' := by
  refine unhideRowLoop_links _ _ _ _ _ h ?_ hst hl
  by_cases hr : r < m.pool.length
  · exact (hl.2 r hr).1
  · rw [nd_oob (le_of_not_lt hr)]
    have := hst.2.2.1
    show 0 < m.pool.length
    omega

/-- Frame of the `cover_col` row loop. -/
theorem coverLoop_frame : ∀ (f r c : Nat) (m m' : Dlx),
    Dlx.coverLoop f r c m = some m' →
    frameStep m m' ∧ m'.weight = m.weight := by
  intro f
  induction f with
  | zero => intro r c m m' h; cases h
  | succ f ih =>
    intro r c m m' h
    unfold Dlx.coverLoop at h
    split at h
    · cases h; exact ⟨frameStep_refl m, rfl⟩
    · split at h
      · next m1 hm1 =>
        have h1 := hide_row_frame hm1
        have h2 := ih _ _ _ _ h
        exact ⟨frameStep_trans h1.1 h2.1, by rw [h2.2, h1.2]⟩
      · cases h

/-- The `cover_col` row loop keeps `linksOK`. -/
theorem coverLoop_links : ∀ (f r c : Nat) (m m' : Dlx),
    Dlx.coverLoop f r c m = some m' → statics m → linksOK m → linksOK m' := by
  intro f
  induction f with
  | zero => intro r c m m' h; cases h
  | succ f ih =>
    intro r c m m' h hst hl
    unfold Dlx.coverLoop at h
    split at h
    · cases h; exact hl
    · split at h
      · next m1 hm1 =>
        exact ih _ _ _ _ h (statics_of_frameStep (hide_row_frame hm1).1 hst)
          (hide_row_links hm1 hst hl)
      · cases h

/-- Frame of `cover_col`. -/
theorem cover_col_frame {m : Dlx} {c : Nat} {m' : Dlx}
    (h : m.cover_col c = some m') : frameStep m m' ∧ m'.weight = m.weight := by
  unfold Dlx.cover_col at h
  have h1 : frameStep m ((m.setRight (m.nd c).left (m.nd c).right).setLeft
      (m.nd c).right (m.nd c).left) :=
    frameStep_trans (frame_set m (m.nd c).left (m.nd c).right).2.1
      (frame_set _ (m.nd c).right (m.nd c).left).1
  have h2 := coverLoop_frame _ _ _ _ _ h
  exact ⟨frameStep_trans h1 h2.1, h2.2⟩

/-- `cover_col` keeps `linksOK` when `c` is in bounds. -/
theorem cover_col_links {m : Dlx} {c : Nat} {m' : Dlx}
    (h : m.cover_col c = some m') (hc : c < m.pool.length)
    (hst : statics m) (hl : linksOK m) : linksOK m' := by
  unfold Dlx.cover_col at h
  have hl1 : linksOK (m.setRight (m.nd c).left (m.nd c).right) :=
    links_setRight _ _ hl (hl.2 c hc).2
  have hlen1 : (m.setRight (m.nd c).left (m.nd c).right).pool.length =
      m.pool.length := (setNd_frame _ _ _).2.2.2.2.2.2.2.2
  have hl2 : linksOK ((m.setRight (m.nd c).left (m.nd c).right).setLeft
      (m.nd c).right (m.nd c).left) := by
    refine links_setLeft _ _ hl1 ?_
    rw [hlen1]
    exact (hl.2 c hc).1
  have hst2 : statics ((m.setRight (m.nd c).left (m.nd c).right).setLeft
      (m.nd c).right (m.nd c).left) :=
    statics_of_frameStep (frameStep_trans (frame_set m (m.nd c).left (m.nd c).right).2.1
      (frame_set _ (m.nd c).right (m.nd c).left).1) hst
  exact coverLoop_links _ _ _ _ _ h hst2 hl2

/-- Frame of the `uncover_col` row loop. -/
theorem uncoverLoop_frame : ∀ (f r c : Nat) (m m' : Dlx),
    Dlx.uncoverLoop f r c m = some m' →
    frameStep m m' ∧ m'.weight = m.weight := by
  intro f
  induction f with
  | zero => intro r c m m' h; cases h
  | succ f ih =>
    intro r c m m' h
    unfold Dlx.uncoverLoop at h
    split at h
    · cases h; exact ⟨frameStep_refl m, rfl⟩
    · split at h
      · next m1 hm1 =>
        have h1 := unhide_row_frame hm1
        have h2 := ih _ _ _ _ h
        exact ⟨frameStep_trans h1.1 h2.1, by rw [h2.2, h1.2]⟩
      · cases h

/-- The `uncover_col` row loop keeps `linksOK`. -/
theorem uncoverLoop_links : ∀ (f r c : Nat) (m m' : Dlx),
    Dlx.uncoverLoop f r c m = some m' → statics m → linksOK m → linksOK m' := by
  intro f
  induction f with
  | zero => intro r c m m' h; cases h
  | succ f ih =>
    intro r c m m' h hst hl
    unfold Dlx.uncoverLoop at h
    split at h
    · cases h; exact hl
    · split at h
      · next m1 hm1 =>
        exact ih _ _ _ _ h (statics_of_frameStep (unhide_row_frame hm1).1 hst)
          (unhide_row_links hm1 hst hl)
      · cases h

/-- Frame of `uncover_col`. -/
theorem uncover_col_frame {m : Dlx} {c : Nat} {m' : Dlx}
    (h : m.uncover_col c = some m') : frameStep m m' ∧ m'.weight = m.weight := by
  unfold Dlx.uncover_col at h
  split at h
  · next m1 hm1 =>
    cases h
    have h1 := uncoverLoop_frame _ _ _ _ _ hm1
    have h2 : frameStep m1 ((m1.setRight (m1.nd c).left c).setLeft
        (m1.nd c).right c) :=
      frameStep_trans (frame_set m1 (m1.nd c).left c).2.1
        (frame_set _ (m1.nd c).right c).1
    exact ⟨frameStep_trans h1.1 h2, h1.2⟩
  · cases h

/-- `uncover_col` keeps `linksOK` when `c` is in bounds. -/
theorem uncover_col_links {m : Dlx} {c : Nat} {m' : Dlx}
    (h : m.uncover_col c = some m') (hc : c < m.pool.length)
    (hst : statics m) (hl : linksOK m) : linksOK m' := by
  unfold Dlx.uncover_col at h
  split at h
  · next m1 hm1 =>
    cases h
    have hl1 := uncoverLoop_links _ _ _ _ _ hm1 hst hl
    have hlen1 : m1.pool.length = m.pool.length :=
      (uncoverLoop_frame _ _ _ _ _ hm1).1.2.2.2.2.2.2.1
    have hc1 : c < m1.pool.length := by omega
    have hl2 : linksOK (m1.setRight (m1.nd c).left c) :=
      links_setRight _ _ hl1 hc1
    refine links_setLeft _ _ hl2 ?_
    have hlen2 : (m1.setRight (m1.nd c).left c).pool.length = m1.pool.length :=
      (setNd_frame m1 (m1.nd c).left _).2.2.2.2.2.2.2.2
    omega
  · cases h

/-- Frame of `select_node`. -/
theorem select_node_frame {m : Dlx} {j : Nat} {m' : Dlx}
    (h : m.select_node j = some m') : frameStep m m' := by
  unfold Dlx.select_node at h
  simp only [bind, Option.bind_eq_some] at h
  obtain ⟨w, hw, ws, hws, h⟩ := h
  have f1 : frameStep m { m with weight := ws } :=
    ⟨rfl, rfl, rfl, rfl, rfl, rfl, rfl, rfl, length_vSet hws,
      fun _ => ⟨rfl, rfl⟩⟩
  split at h
  · exact frameStep_trans f1 (cover_col_frame h).1
  · cases h; exact f1
  · cases h

/-- Frame of the `select_row` loop. -/
theorem selectRowLoop_frame : ∀ (f j r : Nat) (m m' : Dlx),
    Dlx.selectRowLoop f j r m = some m' → frameStep m m' := by
  intro f
  induction f with
  | zero => intro j r m m' h; cases h
  | succ f ih =>
    intro j r m m' h
    unfold Dlx.selectRowLoop at h
    split at h
    · cases h; exact frameStep_refl m
    · split at h
      · next m1 hm1 =>
        exact frameStep_trans (select_node_frame hm1) (ih _ _ _ _ h)
      · cases h

/-- Frame of `select_row`. -/
theorem select_row_frame {m : Dlx} {r : Nat} {m' : Dlx}
    (h : m.select_row r = some m') : frameStep m m' :=
  selectRowLoop_frame _ _ _ _ _ h

/-- Frame of `tweak_row` (weight untouched). -/
theorem tweak_row_frame {m : Dlx} {r : Nat} {m' : Dlx}
    (h : m.tweak_row r = some m') : frameStep m m' ∧ m'.weight = m.weight := by
  unfold Dlx.tweak_row at h
  split at h
  · next m1 hm1 =>
    cases h
    have h1 := hide_row_frame hm1
    have h2 : frameStep m1 ((m1.setDown (m1.nd r).col (m1.nd r).down).setDown
        (m1.nd r).down (m1.nd r).col) :=
      frameStep_trans (frame_set m1 (m1.nd r).col (m1.nd r).down).2.2.2
        (frame_set _ (m1.nd r).down (m1.nd r).col).2.2.2
    exact ⟨frameStep_trans h1.1 h2, h1.2⟩
  · cases h

/-- `untweak_rows` at the header of the chosen column is a no-op: the loop
target `pool[r].col` equals `r` itself. -/
theorem untweak_trivial {m : Dlx} {c : Nat} (hcol : (m.nd c).col = c) :
    m.untweak_rows c = some m := by
  unfold Dlx.untweak_rows Dlx.untweakLoop
  rw [hcol]
  simp

/-- Reading an old pool index after appending a node. -/
theorem nd_append_lt {m : Dlx} {x : DNode} {j : Nat} (hj : j < m.pool.length) :
    ({ m with pool := m.pool ++ [x] } : Dlx).nd j = m.nd j := by
  unfold Dlx.nd
  exact List.getD_append _ _ _ _ hj

/-- Reading the appended node. -/
theorem nd_append_self {m : Dlx} {x : DNode} :
    ({ m with pool := m.pool ++ [x] } : Dlx).nd m.pool.length = x := by
  unfold Dlx.nd
  rw [List.getD_eq_getElem?_getD, List.getElem?_append_right (le_refl _)]
  simp

/-- `create_node` keeps the statics (if the new column index is in range)
and the links. -/
theorem create_node_inv {m : Dlx} (row col : Nat)
    (hcol : col ≤ m.col_cnt) :
    (m.create_node row col).1.weight = m.weight ∧
    (m.create_node row col).1.col_cnt = m.col_cnt ∧
    (m.create_node row col).1.cur_sol = m.cur_sol ∧
    (m.create_node row col).1.mins = m.mins ∧
    (m.create_node row col).1.maxs = m.maxs ∧
    (m.create_node row col).1.col_size = m.col_size ∧
    (m.create_node row col).1.pool.length = m.pool.length + 1 ∧
    (∀ j, j < m.pool.length → (m.create_node row col).1.nd j = m.nd j) ∧
    (statics m → statics (m.create_node row col).1) ∧
    (linksOK m → linksOK (m.create_node row col).1) := by
  have hM : (m.create_node row col).1 =
      { m with pool := m.pool ++ [⟨row, col, m.pool.length, m.pool.length,
        m.pool.length, m.pool.length⟩] } := rfl
  rw [hM]
  have hlen : ({ m with pool := m.pool ++ [⟨row, col, m.pool.length,
      m.pool.length, m.pool.length, m.pool.length⟩] } : Dlx).pool.length =
      m.pool.length + 1 := by simp
  refine ⟨rfl, rfl, rfl, rfl, rfl, rfl, hlen, fun j hj => nd_append_lt hj,
    ?_, ?_⟩
  · intro hst
    obtain ⟨⟨h1, h2, h3⟩, hb, ⟨c1, c2, c3, c4, c5⟩⟩ := hst
    refine ⟨⟨?_, ?_, ?_⟩, ?_, ?_⟩
    · rw [nd_append_lt (by omega)]; exact h1
    · rw [nd_append_lt (by omega)]; exact h2
    · intro c hc1 hc2
      have hcm : c < m.pool.length := by
        have : c ≤ m.col_cnt := hc2
        omega
      rw [nd_append_lt hcm]
      exact h3 c hc1 hc2
    · intro j hj
      rw [hlen] at hj
      by_cases hjl : j < m.pool.length
      · rw [nd_append_lt hjl]; exact hb j hjl
      · have hje : j = m.pool.length := by omega
        subst hje
        rw [nd_append_self]
        exact hcol
    · exact ⟨by rw [hlen]; exact Nat.le_succ_of_le c1, c2, c3, c4, c5⟩
  · intro hl
    constructor
    · intro j hj
      rw [hlen] at hj
      by_cases hjl : j < m.pool.length
      · have base := hl.1 j hjl
        rw [nd_append_lt hjl, nd_append_lt (by omega : (m.nd j).down < m.pool.length),
          nd_append_lt (by omega : (m.nd j).up < m.pool.length), hlen]
        exact ⟨by omega, by omega, base.2.2.1, base.2.2.2⟩
      · have hje : j = m.pool.length := by omega
        subst hje
        rw [nd_append_self, hlen]
        simp only []
        rw [nd_append_self]
        exact ⟨by omega, by omega, rfl, rfl⟩
    · intro j hj
      rw [hlen] at hj
      by_cases hjl : j < m.pool.length
      · have base := hl.2 j hjl
        rw [nd_append_lt hjl, hlen]
        exact ⟨by omega, by omega⟩
      · have hje : j = m.pool.length := by omega
        subst hje
        rw [nd_append_self, hlen]
        exact ⟨Nat.lt_succ_self m.pool.length, Nat.lt_succ_self m.pool.length⟩

/-- Pool length is unchanged by the four setters. -/
theorem poolLen_setLeft (m : Dlx) (i v : Nat) :
    (m.setLeft i v).pool.length = m.pool.length :=
  (setNd_frame m i _).2.2.2.2.2.2.2.2

theorem poolLen_setRight (m : Dlx) (i v : Nat) :
    (m.setRight i v).pool.length = m.pool.length :=
  (setNd_frame m i _).2.2.2.2.2.2.2.2

theorem poolLen_setUp (m : Dlx) (i v : Nat) :
    (m.setUp i v).pool.length = m.pool.length :=
  (setNd_frame m i _).2.2.2.2.2.2.2.2

theorem poolLen_setDown (m : Dlx) (i v : Nat) :
    (m.setDown i v).pool.length = m.pool.length :=
  (setNd_frame m i _).2.2.2.2.2.2.2.2

/-- Frame of `insert_down` (four directional writes). -/
theorem insert_down_frame (m : Dlx) (at_ node : Nat) :
    frameStep m (m.insert_down at_ node) := by
  unfold Dlx.insert_down
  exact frameStep_trans (frame_set _ _ _).2.2.2
    (frameStep_trans (frame_set _ _ _).2.2.1
      (frameStep_trans (frame_set _ _ _).2.2.1 (frame_set _ _ _).2.2.2))

/-- Frame of `insert_right`. -/
theorem insert_right_frame (m : Dlx) (at_ node : Nat) :
    frameStep m (m.insert_right at_ node) := by
  unfold Dlx.insert_right
  exact frameStep_trans (frame_set _ _ _).2.1
    (frameStep_trans (frame_set _ _ _).1
      (frameStep_trans (frame_set _ _ _).1 (frame_set _ _ _).2.1))

/-- `insert_down` keeps the links when target and node are in bounds and in
the same column. -/
theorem insert_down_links {m : Dlx} (at_ node : Nat) (hl : linksOK m)
    (hat : at_ < m.pool.length) (hnode : node < m.pool.length)
    (hcol : (m.nd node).col = (m.nd at_).col) :
    linksOK (m.insert_down at_ node) := by
  unfold Dlx.insert_down
  have hd0 : (m.nd at_).down < m.pool.length := (hl.1 at_ hat).1
  have hcold0 : (m.nd ((m.nd at_).down)).col = (m.nd at_).col :=
    (hl.1 at_ hat).2.2.1
  have l1 : linksOK (m.setDown node ((m.nd at_).down)) :=
    links_setDown _ _ hl hd0 (by rw [hcold0, hcol])
  have e1 : ∀ k, ((m.setDown node ((m.nd at_).down)).nd k).col = (m.nd k).col :=
    fun k => (colrow_setters _ _ _ _).2.2.2.2.2.2.1
  have q1 : (m.setDown node ((m.nd at_).down)).pool.length = m.pool.length :=
    (setNd_frame _ _ _).2.2.2.2.2.2.2.2
  have l2 : linksOK ((m.setDown node ((m.nd at_).down)).setUp
      ((m.nd at_).down) node) := by
    refine links_setUp _ _ l1 (by omega) ?_
    rw [e1, e1, hcol, hcold0]
  have e2 : ∀ k, (((m.setDown node ((m.nd at_).down)).setUp
      ((m.nd at_).down) node).nd k).col = (m.nd k).col := by
    intro k
    rw [(colrow_setters _ _ _ _).2.2.2.2.1, e1]
  have q2 : ((m.setDown node ((m.nd at_).down)).setUp
      ((m.nd at_).down) node).pool.length = m.pool.length := by
    rw [poolLen_setUp, q1]
  have l3 : linksOK (((m.setDown node ((m.nd at_).down)).setUp
      ((m.nd at_).down) node).setUp node at_) := by
    refine links_setUp _ _ l2 (by omega) ?_
    rw [e2, e2, hcol]
  have e3 : ∀ k, ((((m.setDown node ((m.nd at_).down)).setUp
      ((m.nd at_).down) node).setUp node at_).nd k).col = (m.nd k).col := by
    intro k
    rw [(colrow_setters _ _ _ _).2.2.2.2.1, e2]
  have q3 : (((m.setDown node ((m.nd at_).down)).setUp
      ((m.nd at_).down) node).setUp node at_).pool.length = m.pool.length := by
    rw [poolLen_setUp, q2]
  refine links_setDown _ _ l3 (by omega) ?_
  rw [e3, e3, hcol]

/-- `insert_right` keeps the links when target and node are in bounds. -/
theorem insert_right_links {m : Dlx} (at_ node : Nat) (hl : linksOK m)
    (hat : at_ < m.pool.length) (hnode : node < m.pool.length) :
    linksOK (m.insert_right at_ node) := by
  unfold Dlx.insert_right
  have hr0 : (m.nd at_).right < m.pool.length := (hl.2 at_ hat).2
  have l1 : linksOK (m.setRight node ((m.nd at_).right)) :=
    links_setRight _ _ hl hr0
  have q1 : (m.setRight node ((m.nd at_).right)).pool.length = m.pool.length :=
    (setNd_frame _ _ _).2.2.2.2.2.2.2.2
  have l2 : linksOK ((m.setRight node ((m.nd at_).right)).setLeft
      ((m.nd at_).right) node) :=
    links_setLeft _ _ l1 (by omega)
  have q2 : ((m.setRight node ((m.nd at_).right)).setLeft
      ((m.nd at_).right) node).pool.length = m.pool.length := by
    rw [poolLen_setLeft, q1]
  have l3 : linksOK (((m.setRight node ((m.nd at_).right)).setLeft
      ((m.nd at_).right) node).setLeft node at_) :=
    links_setLeft _ _ l2 (by omega)
  have q3 : (((m.setRight node ((m.nd at_).right)).setLeft
      ((m.nd at_).right) node).setLeft node at_).pool.length = m.pool.length := by
    rw [poolLen_setLeft, q2]
  exact links_setRight _ _ l3 (by omega)

/-- Invariants through the `add_row` column loop. -/
theorem addRowLoop_inv : ∀ (row : List Nat) (row_num left_node : Nat)
    (m m' : Dlx), Dlx.addRowLoop row_num row left_node m = some m' →
    (left_node = 0 ∨ left_node < m.pool.length) →
    statics m → linksOK m →
    m'.weight = m.weight ∧ m'.col_cnt = m.col_cnt ∧ m'.cur_sol = m.cur_sol ∧
    m'.mins = m.mins ∧ m'.maxs = m.maxs ∧
    m'.col_size.length = m.col_size.length ∧
    m.pool.length ≤ m'.pool.length ∧
    (∀ j, j < m.pool.length → (m'.nd j).col = (m.nd j).col ∧
      (m'.nd j).row = (m.nd j).row) ∧
    m'.abort_requested = m.abort_requested ∧ statics m' ∧ linksOK m' := by
  intro row
  induction row with
  | nil =>
    intro row_num left_node m m' h _ hst hl
    cases h
    exact ⟨rfl, rfl, rfl, rfl, rfl, rfl, le_refl _,
      fun j _ => ⟨rfl, rfl⟩, rfl, hst, hl⟩
  | cons c rest ih =>
    intro row_num left_node m m' h hln hst hl
    simp only [Dlx.addRowLoop] at h
    split at h
    · next hguard =>
      split at h
      · next cs hcs =>
        -- names for the intermediate states
        have hc1 : 1 ≤ c := hguard.1
        have hc2 : c ≤ m.col_cnt := hguard.2
        have hcrea := create_node_inv (m := m) row_num c hc2
        set M1 : Dlx := (m.create_node row_num c).1 with hM1
        have hM1len : M1.pool.length = m.pool.length + 1 := hcrea.2.2.2.2.2.2.1
        have hst1 : statics M1 := hcrea.2.2.2.2.2.2.2.2.1 hst
        have hl1 : linksOK M1 := hcrea.2.2.2.2.2.2.2.2.2 hl
        have hclen1 : c < M1.pool.length := by
          have := hst1.2.2.1
          have hcc : M1.col_cnt = m.col_cnt := hcrea.2.1
          omega
        have hnode : m.pool.length < M1.pool.length := by omega
        -- insert_down hypotheses
        have hat : (M1.nd c).up < M1.pool.length := (hl1.1 c hclen1).2.1
        have hcolc : (M1.nd c).col = c := by
          have := hst1.1.2.2 c hc1 (by rw [hcrea.2.1]; exact hc2)
          exact this.1
        have hcolat : (M1.nd ((M1.nd c).up)).col = c := by
          rw [(hl1.1 c hclen1).2.2.2, hcolc]
        have hcolnode : (M1.nd m.pool.length).col = c := by
          show ((m.create_node row_num c).1.nd m.pool.length).col = c
          have : (m.create_node row_num c).1 = { m with pool := m.pool ++
            [⟨row_num, c, m.pool.length, m.pool.length, m.pool.length,
              m.pool.length⟩] } := rfl
          rw [this, nd_append_self]
        set M2 : Dlx := M1.insert_down ((M1.nd c).up) m.pool.length with hM2
        have hfr2 : frameStep M1 M2 := insert_down_frame M1 _ _
        have hl2 : linksOK M2 :=
          insert_down_links _ _ hl1 hat hnode (by rw [hcolnode, hcolat])
        have hst2 : statics M2 := statics_of_frameStep hfr2 hst1
        have hM2len : M2.pool.length = M1.pool.length := hfr2.2.2.2.2.2.2.1
        have hM2w : M2.weight = M1.weight := rfl
        have hM2scal : M2.col_cnt = M1.col_cnt ∧ M2.cur_sol = M1.cur_sol ∧
            M2.mins = M1.mins ∧ M2.maxs = M1.maxs ∧
            M2.col_size = M1.col_size ∧
            M2.abort_requested = M1.abort_requested :=
          ⟨rfl, rfl, rfl, rfl, rfl, rfl⟩
        set M3 : Dlx := if left_node ≠ 0 then
            M2.insert_right left_node m.pool.length else M2 with hM3
        have hfr3 : frameStep M2 M3 := by
          rw [hM3]
          split
          · exact insert_right_frame M2 _ _
          · exact frameStep_refl M2
        have hl3 : linksOK M3 := by
          rw [hM3]
          split
          · next hne =>
            refine insert_right_links _ _ hl2 ?_ (by omega)
            rcases hln with h0 | hlt
            · exact absurd h0 hne
            · omega
          · exact hl2
        have hst3 : statics M3 := statics_of_frameStep hfr3 hst2
        have hM3len : M3.pool.length = M2.pool.length := hfr3.2.2.2.2.2.2.1
        have hM3w : M3.weight = M2.weight := by
          rw [hM3]; split <;> rfl
        have hM3scal : M3.col_cnt = M2.col_cnt ∧ M3.cur_sol = M2.cur_sol ∧
            M3.mins = M2.mins ∧ M3.maxs = M2.maxs ∧
            M3.col_size = M2.col_size ∧
            M3.abort_requested = M2.abort_requested := by
          rw [hM3]; split <;> exact ⟨rfl, rfl, rfl, rfl, rfl, rfl⟩
        set M4 : Dlx := { M3 with col_size := cs } with hM4
        have hst4 : statics M4 := by
          obtain ⟨hh, hb, ⟨l1, l2, l3, l4, l5⟩⟩ := hst3
          exact ⟨hh, hb, ⟨l1, l2, l3, l4, by
            show cs.length = M3.col_cnt + 1
            rw [length_vSet hcs]
            show M3.col_size.length = M3.col_cnt + 1
            exact l5⟩⟩
        have hl4 : linksOK M4 := hl3
        have ihres := ih row_num m.pool.length M4 m' h
          (Or.inr (by
            show m.pool.length < M4.pool.length
            have : M4.pool.length = M3.pool.length := rfl
            omega)) hst4 hl4
        -- compose the conclusions
        have colrow23 : ∀ j, (M3.nd j).col = (M1.nd j).col ∧
            (M3.nd j).row = (M1.nd j).row := by
          intro j
          have a := hfr2.2.2.2.2.2.2.2.2.2 j
          have b := hfr3.2.2.2.2.2.2.2.2.2 j
          exact ⟨by rw [b.1, a.1], by rw [b.2, a.2]⟩
        refine ⟨?_, ?_, ?_, ?_, ?_, ?_, ?_, ?_, ?_, ihres.2.2.2.2.2.2.2.2.2.1,
          ihres.2.2.2.2.2.2.2.2.2.2⟩
        · rw [ihres.1]; show M3.weight = m.weight
          rw [hM3w, hM2w, hcrea.1]
        · rw [ihres.2.1]; show M3.col_cnt = m.col_cnt
          rw [hM3scal.1, hM2scal.1, hcrea.2.1]
        · rw [ihres.2.2.1]; show M3.cur_sol = m.cur_sol
          rw [hM3scal.2.1, hM2scal.2.1, hcrea.2.2.1]
        · rw [ihres.2.2.2.1]; show M3.mins = m.mins
          rw [hM3scal.2.2.1, hM2scal.2.2.1, hcrea.2.2.2.1]
        · rw [ihres.2.2.2.2.1]; show M3.maxs = m.maxs
          rw [hM3scal.2.2.2.1, hM2scal.2.2.2.1, hcrea.2.2.2.2.1]
        · rw [ihres.2.2.2.2.2.1]
          show cs.length = m.col_size.length
          rw [length_vSet hcs]
          show M3.col_size.length = m.col_size.length
          rw [hM3scal.2.2.2.2.1, hM2scal.2.2.2.2.1, hcrea.2.2.2.2.2.1]
        · have h4 : m.pool.length ≤ M4.pool.length := by
            have e : M4.pool.length = M3.pool.length := rfl
            omega
          exact le_trans h4 ihres.2.2.2.2.2.2.1
        · intro j hj
          have hj4 : j < M4.pool.length := by
            have e : M4.pool.length = M3.pool.length := rfl
            omega
          have a := ihres.2.2.2.2.2.2.2.1 j hj4
          have b := colrow23 j
          have cni := hcrea.2.2.2.2.2.2.2.1 j hj
          constructor
          · rw [a.1]; show (M3.nd j).col = (m.nd j).col
            rw [b.1, cni]
          · rw [a.2]; show (M3.nd j).row = (m.nd j).row
            rw [b.2, cni]
        · rw [ihres.2.2.2.2.2.2.2.2.1]
          show M3.abort_requested = m.abort_requested
          rw [hM3scal.2.2.2.2.2, hM2scal.2.2.2.2.2]
          rfl
      · cases h
    · cases h

/-- Frame of one callback action: `weight`, `col_cnt`, `cur_sol` and the
lengths of the multiplicity vectors are unchanged, the pool only grows,
and existing nodes keep their `col`/`row` fields. -/
def cbFrame (m m' : Dlx) : Prop :=
  m'.weight = m.weight ∧ m'.col_cnt = m.col_cnt ∧ m'.cur_sol = m.cur_sol ∧
  m'.mins.length = m.mins.length ∧ m'.maxs.length = m.maxs.length ∧
  m'.col_size.length = m.col_size.length ∧
  m.pool.length ≤ m'.pool.length ∧
  ∀ j, j < m.pool.length → (m'.nd j).col = (m.nd j).col ∧
    (m'.nd j).row = (m.nd j).row

theorem cbFrame_refl (m : Dlx) : cbFrame m m :=
  ⟨rfl, rfl, rfl, rfl, rfl, rfl, le_refl _, fun _ _ => ⟨rfl, rfl⟩⟩

theorem cbFrame_trans {m1 m2 m3 : Dlx} (h : cbFrame m1 m2)
    (h' : cbFrame m2 m3) : cbFrame m1 m3 := by
  obtain ⟨a1, a2, a3, a4, a5, a6, a7, a8⟩ := h
  obtain ⟨b1, b2, b3, b4, b5, b6, b7, b8⟩ := h'
  refine ⟨b1.trans a1, b2.trans a2, b3.trans a3, b4.trans a4, b5.trans a5,
    b6.trans a6, le_trans a7 b7, fun j hj => ?_⟩
  have hj2 : j < m2.pool.length := lt_of_lt_of_le hj a7
  exact ⟨((b8 j hj2).1).trans (a8 j hj).1, ((b8 j hj2).2).trans (a8 j hj).2⟩

/-- Invariants through `Matrix::add_row`. -/
theorem add_row_inv {m m' : Dlx} {row : List Nat}
    (h : m.add_row row = some m') (hst : statics m) (hl : linksOK m) :
    m'.weight = m.weight ∧ m'.col_cnt = m.col_cnt ∧ m'.cur_sol = m.cur_sol ∧
    m'.mins = m.mins ∧ m'.maxs = m.maxs ∧
    m'.col_size.length = m.col_size.length ∧
    m.pool.length ≤ m'.pool.length ∧
    (∀ j, j < m.pool.length → (m'.nd j).col = (m.nd j).col ∧
      (m'.nd j).row = (m.nd j).row) ∧
    m'.abort_requested = m.abort_requested ∧ statics m' ∧ linksOK m' := by
  have h' : Dlx.addRowLoop (m.row_cnt + 1) row 0
      { m with row_cnt := m.row_cnt + 1 } = some m' := h
  exact addRowLoop_inv row (m.row_cnt + 1) 0
    { m with row_cnt := m.row_cnt + 1 } m' h' (Or.inl rfl) hst hl

/-- Invariants through `Matrix::set_multiplicity`. -/
theorem set_multiplicity_inv {m m' : Dlx} {c : Nat} {mn mx : Int}
    (h : m.set_multiplicity c mn mx = some m') (hst : statics m)
    (hl : linksOK m) : cbFrame m m' ∧ statics m' ∧ linksOK m' := by
  unfold Dlx.set_multiplicity at h
  simp only [bind, Option.bind_eq_some] at h
  obtain ⟨mns, hmns, mxs, hmxs, h⟩ := h
  cases h
  obtain ⟨hh, hb, ⟨l1, l2, l3, l4, l5⟩⟩ := hst
  refine ⟨⟨rfl, rfl, rfl, length_vSet hmns, length_vSet hmxs, rfl,
    le_refl _, fun _ _ => ⟨rfl, rfl⟩⟩, ⟨hh, hb, ⟨l1, l2, ?_, ?_, l5⟩⟩, hl⟩
  · show mns.length = m.col_cnt + 1
    rw [length_vSet hmns]; exact l3
  · show mxs.length = m.col_cnt + 1
    rw [length_vSet hmxs]; exact l4

/-- Invariants through one callback action. -/
theorem applyAct_inv {m m' : Dlx} {a : CbAct} (h : applyAct m a = some m')
    (hst : statics m) (hl : linksOK m) :
    cbFrame m m' ∧ statics m' ∧ linksOK m' := by
  cases a with
  | abortA => cases h; exact ⟨cbFrame_refl m, hst, hl⟩
  | addRowA r =>
    have res := add_row_inv h hst hl
    exact ⟨⟨res.1, res.2.1, res.2.2.1, by rw [res.2.2.2.1],
      by rw [res.2.2.2.2.1], res.2.2.2.2.2.1, res.2.2.2.2.2.2.1,
      res.2.2.2.2.2.2.2.1⟩, res.2.2.2.2.2.2.2.2.2.1,
      res.2.2.2.2.2.2.2.2.2.2⟩
  | setMulA c mn mx => exact set_multiplicity_inv h hst hl

/-- Invariants through a list of callback actions. -/
theorem applyActs_inv : ∀ (acts : List CbAct) (m m' : Dlx),
    applyActs m acts = some m' → statics m → linksOK m →
    cbFrame m m' ∧ statics m' ∧ linksOK m' := by
  intro acts
  induction acts with
  | nil => intro m m' h hst hl; cases h; exact ⟨cbFrame_refl m, hst, hl⟩
  | cons a rest ih =>
    intro m m' h hst hl
    simp only [applyActs] at h
    split at h
    · next m1 hm1 =>
      have r1 := applyAct_inv hm1 hst hl
      have r2 := ih m1 m' h r1.2.1 r1.2.2
      exact ⟨cbFrame_trans r1.1 r2.1, r2.2⟩
    · cases h

/-- `choose_best_col`'s loop only ever answers a column index whose
`col_size` entry it has read. -/
theorem chooseLoop_lt {m : Dlx} : ∀ (f c : Nat) (bs : Int) (bc res : Nat),
    m.chooseLoop f c bs bc = some res → bc < m.col_size.length →
    res < m.col_size.length := by
  intro f
  induction f with
  | zero => intro c bs bc res h _; cases h
  | succ f ih =>
    intro c bs bc res h hbc
    simp only [Dlx.chooseLoop] at h
    split at h
    · cases h; exact hbc
    · simp only [bind, Option.bind_eq_some] at h
      obtain ⟨sz, hsz, h⟩ := h
      split at h
      · exact ih _ _ _ _ h (vGet_lt hsz)
      · exact ih _ _ _ _ h hbc

/-- `choose_best_col` answers an index below `col_size.length`. -/
theorem choose_best_col_lt {m : Dlx} {c : Nat}
    (h : m.choose_best_col = some c) : c < m.col_size.length := by
  unfold Dlx.choose_best_col at h
  simp only [bind, Option.bind_eq_some] at h
  obtain ⟨bs, hbs, h⟩ := h
  exact chooseLoop_lt _ _ _ _ _ h (vGet_lt hbs)

/-- `col_fulfillable` panics (indexes out of bounds) on an index at or past
the end of `weight`. -/
theorem col_fulfillable_none {m : Dlx} {r : Nat}
    (h : m.weight.length ≤ r) : m.col_fulfillable? r = none := by
  unfold Dlx.col_fulfillable?
  rw [vGet_none h]
  rfl

/-- A successful `col_fulfillable` read implies the index is in `weight`. -/
theorem col_fulfillable_lt {m : Dlx} {r : Nat} {b : Bool}
    (h : m.col_fulfillable? r = some b) : r < m.weight.length := by
  unfold Dlx.col_fulfillable? at h
  simp only [bind, Option.bind_eq_some] at h
  obtain ⟨w, hw, _⟩ := h
  exact vGet_lt hw

/-- Under the structural invariants, the `down` neighbour of a header (or
root) cell is the cell itself or a pool index past the end of `weight`:
headers carry their own index as `col`, so a vertical neighbour with index
in `0..=col_cnt` must be the header itself. -/
theorem down_of_col {m : Dlx} {c : Nat} (hst : statics m) (hl : linksOK m)
    (hc : c ≤ m.col_cnt) :
    (m.nd c).down = c ∨ m.weight.length ≤ (m.nd c).down := by
  obtain ⟨⟨h0c, h0r, hhead⟩, hb, ⟨l1, l2, l3, l4, l5⟩⟩ := hst
  have hcp : c < m.pool.length := by omega
  have hdown := (hl.1 c hcp).1
  have hcols := (hl.1 c hcp).2.2.1
  by_cases hrc : (m.nd c).down ≤ m.col_cnt
  · left
    have hcc : (m.nd c).col = c := by
      rcases Nat.eq_zero_or_pos c with h | h
      · rw [h]; exact h0c
      · exact (hhead c h hc).1
    have hrr : (m.nd ((m.nd c).down)).col = (m.nd c).down := by
      rcases Nat.eq_zero_or_pos ((m.nd c).down) with h | h
      · rw [h]; exact h0c
      · exact (hhead _ h hrc).1
    rw [← hrr, hcols, hcc]
  · right
    rw [l2]
    omega

/-- The row loop panics whenever it actually enters an iteration with an
out-of-bounds node index: the guard `col_fulfillable(r)` is evaluated at
the NODE index `r`, which exceeds the length of `weight`. -/
theorem tryRows_ne {σ : Type} (f : Nat) (cb : SimCb σ) (s : σ) (c : Nat)
    (covered : Bool) (r : Nat) (m : Dlx) (hne : r ≠ c)
    (hw : m.weight.length ≤ r) :
    tryRows f cb s c covered r m = ([], none) := by
  cases f with
  | zero => rfl
  | succ f =>
    simp only [tryRows, if_neg hne]
    split
    · rfl
    · next m1 htw =>
      split
      · rfl
      · next m2 hsel =>
        have hw1 : m1.weight.length = m.weight.length := by
          cases covered with
          | false =>
            have htw' : m.tweak_row r = some m1 := by simpa using htw
            rw [(tweak_row_frame htw').2]
          | true =>
            have he : m = m1 := by simpa using htw
            rw [← he]
        have hw2 : m2.weight.length = m1.weight.length :=
          (select_row_frame hsel).2.2.2.2.2.2.2.2.1
        have hcf : ({ m2 with cur_sol := m2.cur_sol ++ [(m2.nd r).row] } :
            Dlx).col_fulfillable? r = none :=
          col_fulfillable_none (show m2.weight.length ≤ r by omega)
        simp only [hcf]

/-- When the row loop returns (rather than panicking or diverging), it did
so on its very first test `r = c`, touching nothing. -/
theorem tryRows_some_eq {σ : Type} {f : Nat} {cb : SimCb σ} {s : σ} {c : Nat}
    {covered : Bool} {r : Nat} {m : Dlx} {ev : List DEvent} {s' : σ}
    {m' : Dlx} (h : tryRows f cb s c covered r m = (ev, some (s', m')))
    (hw : r = c ∨ m.weight.length ≤ r) :
    r = c ∧ ev = [] ∧ s' = s ∧ m' = m := by
  by_cases hrc : r = c
  · subst hrc
    cases f with
    | zero => exact absurd (congrArg Prod.snd h) (by simp [tryRows])
    | succ f =>
      simp only [tryRows, if_pos rfl] at h
      have h1 := congrArg Prod.fst h
      have h2 := congrArg Prod.snd h
      simp only at h1 h2
      injection h2 with h2
      injection h2 with h3 h4
      exact ⟨rfl, h1.symm, h3.symm, h4.symm⟩
  · have hw' : m.weight.length ≤ r := by
      rcases hw with hw | hw
      · exact absurd hw hrc
      · exact hw
    rw [tryRows_ne f cb s c covered r m hrc hw'] at h
    exact absurd (congrArg Prod.snd h) (by simp)

theorem poolLen_setRL (m : Dlx) (a b d e : Nat) :
    ((m.setRight a b).setLeft d e).pool.length = m.pool.length := by
  rw [poolLen_setLeft, poolLen_setRight]

/-- Preservation along returning runs of `_recursive_solve`: whenever the
recursion returns (as opposed to panicking at the node-indexed
`col_fulfillable(r)` guard or diverging), the final `weight` vector equals
the entry `weight` vector, the structural invariants persist, `col_cnt` is
unchanged and the pool has only grown. -/
theorem solveRec_some {σ : Type} : ∀ (f : Nat) (cb : SimCb σ) (s : σ)
    (m : Dlx) (ev : List DEvent) (s' : σ) (m' : Dlx),
    solveRec f cb s m = (ev, some (s', m')) → statics m → linksOK m →
    m'.weight = m.weight ∧ statics m' ∧ linksOK m' ∧
    m'.col_cnt = m.col_cnt ∧ m.pool.length ≤ m'.pool.length := by
  intro f
  induction f with
  | zero =>
    intro cb s m ev s' m' h _ _
    exact absurd (congrArg Prod.snd h) (by simp [solveRec])
  | succ f ih =>
    intro cb s0 m0 ev s' m' h hst0 hl0
    simp only [solveRec] at h
    generalize hp : (if (m0.nd 0).right = 0 then
        ([DEvent.solE m0.cur_sol], (cb.onSol s0 m0.cur_sol).1,
          applyActs m0 (cb.onSol s0 m0.cur_sol).2)
      else ([], s0, some m0) : List DEvent × σ × Option Dlx) = p1 at h
    have hbr : ∀ mx : Dlx, p1.2.2 = some mx →
        mx.weight = m0.weight ∧ statics mx ∧ linksOK mx ∧
        mx.col_cnt = m0.col_cnt ∧ m0.pool.length ≤ mx.pool.length := by
      intro mx hmx
      rw [← hp] at hmx
      by_cases hem : (m0.nd 0).right = 0
      · rw [if_pos hem] at hmx
        have hmx' : applyActs m0 (cb.onSol s0 m0.cur_sol).2 = some mx := hmx
        have r := applyActs_inv _ _ _ hmx' hst0 hl0
        exact ⟨r.1.1, r.2.1, r.2.2, r.1.2.1, r.1.2.2.2.2.2.2.1⟩
      · rw [if_neg hem] at hmx
        have hmx' : some m0 = some mx := hmx
        injection hmx' with hmx'
        subst hmx'
        exact ⟨rfl, hst0, hl0, rfl, le_refl _⟩
    split at h
    · exact absurd (congrArg Prod.snd h) (by simp)
    · next m1 hm1 =>
      obtain ⟨hw1, hst1, hl1, hcc1, hpl1⟩ := hbr m1 hm1
      split at h
      · exact absurd (congrArg Prod.snd h) (by simp)
      · next m2 hm2 =>
        obtain ⟨cf2, hst2, hl2⟩ := applyActs_inv _ _ _ hm2 hst1 hl1
        have hw2 : m2.weight = m0.weight := by rw [cf2.1, hw1]
        have hcc2 : m2.col_cnt = m0.col_cnt := by rw [cf2.2.1, hcc1]
        have hpl2 : m0.pool.length ≤ m2.pool.length :=
          le_trans hpl1 cf2.2.2.2.2.2.2.1
        split at h
        · exact absurd (congrArg Prod.snd h) (by simp)
        · next c hcho =>
          have hclt : c < m2.col_size.length := choose_best_col_lt hcho
          have hlens2 := hst2.2.2
          have hcle : c ≤ m2.col_cnt := by
            have := hlens2.2.2.2.2
            omega
          have hcp2 : c < m2.pool.length := by
            have := hlens2.1
            omega
          split at h
          · exact absurd (congrArg Prod.snd h) (by simp)
          · next hful =>
            have h2 := congrArg Prod.snd h
            injection h2 with h2
            injection h2 with hs hm
            subst hm
            exact ⟨hw2, hst2, hl2, hcc2, hpl2⟩
          · next hful =>
            split at h
            · next wv w1 hwv hw1v =>
              have hclt2 : c < m2.weight.length := vSet_lt hw1v
              have hw1eq : w1 = m2.weight.set c (m2.weight.getD c 0 + 1) :=
                vSet_eq hw1v
              have hw1len : w1.length = m2.weight.length := length_vSet hw1v
              have hst3 : statics ({ m2 with weight := w1 } : Dlx) := by
                obtain ⟨hh, hb, ⟨l1, l2, l3, l4, l5⟩⟩ := hst2
                exact ⟨hh, hb, ⟨l1,
                  show w1.length = m2.col_cnt + 1 by omega, l3, l4, l5⟩⟩
              have hl3 : linksOK ({ m2 with weight := w1 } : Dlx) := hl2
              split at h
              · exact absurd (congrArg Prod.snd h) (by simp)
              · next covered hcov =>
                split at h
                · exact absurd (congrArg Prod.snd h) (by simp)
                · next m4 hm4 =>
                  have hm4f : m4.weight = w1 ∧ statics m4 ∧ linksOK m4 ∧
                      m4.pool.length = m2.pool.length ∧
                      m4.col_cnt = m2.col_cnt := by
                    rcases Bool.eq_false_or_eq_true covered with hcb | hcb
                    · rw [hcb] at hm4
                      rw [if_pos rfl] at hm4
                      have hfr := cover_col_frame hm4
                      exact ⟨hfr.2, statics_of_frameStep hfr.1 hst3,
                        cover_col_links hm4 hcp2 hst3 hl3,
                        hfr.1.2.2.2.2.2.2.1, hfr.1.2.1⟩
                    · rw [hcb] at hm4
                      rw [if_neg (by decide)] at hm4
                      injection hm4 with hm4
                      subst hm4
                      exact ⟨rfl, hst3, hl3, rfl, rfl⟩
                  obtain ⟨hw4, hst4, hl4, hpl4, hcc4⟩ := hm4f
                  have hdich := down_of_col hst4 hl4
                    (show c ≤ m4.col_cnt by omega)
                  split at h
                  · next evL htr =>
                    exact absurd (congrArg Prod.snd h) (by simp)
                  · next evL s3 m5 htr =>
                    obtain ⟨hfc, hevL, hs3, hm5⟩ := tryRows_some_eq htr hdich
                    have hm5' := hm5.symm
                    subst hm5'
                    split at h
                    · next wv2 w2 hwv2 hw2v =>
                      have hw2eq : w2 =
                          m4.weight.set c (m4.weight.getD c 0 - 1) :=
                        vSet_eq hw2v
                      have hw6 : w2 = m2.weight := by
                        rw [hw2eq, hw4, hw1eq,
                          getD_set_self _ _ _ _ hclt2, set_set_self]
                        have he : m2.weight.getD c 0 + 1 - 1 =
                            m2.weight.getD c 0 := by omega
                        rw [he]
                        exact set_getD_self _ _ _ hclt2
                      subst hw6
                      have hst6 : statics
                          ({ m4 with weight := m2.weight } : Dlx) := by
                        obtain ⟨hh, hb, ⟨l1, l2, l3, l4, l5⟩⟩ := hst4
                        refine ⟨hh, hb, ⟨l1, ?_, l3, l4, l5⟩⟩
                        show m2.weight.length = m4.col_cnt + 1
                        rw [hcc4]
                        exact hst2.2.2.2.1
                      have hl6 : linksOK
                          ({ m4 with weight := m2.weight } : Dlx) := hl4
                      split at h
                      · exact absurd (congrArg Prod.snd h) (by simp)
                      · next fl hfl =>
                        split at h
                        · next e hNS =>
                          exact absurd (congrArg Prod.snd h) (by simp)
                        · next e s5 m9 hNS =>
                          have hm9f : m9.weight = m2.weight ∧ statics m9 ∧
                              linksOK m9 ∧ m9.col_cnt = m2.col_cnt ∧
                              m2.pool.length ≤ m9.pool.length := by
                            rcases Bool.eq_false_or_eq_true fl with hflb | hflb
                            swap
                            · rw [hflb] at hNS
                              rw [if_neg (by decide)] at hNS
                              have h1 := congrArg Prod.snd hNS
                              injection h1 with h1
                              injection h1 with ha hb2
                              subst hb2
                              exact ⟨rfl, hst6, hl6, hcc4,
                                le_of_eq hpl4.symm⟩
                            · rw [hflb] at hNS
                              rw [if_pos rfl] at hNS
                              split at hNS
                              · next e1 hrec =>
                                exact absurd (congrArg Prod.snd hNS) (by simp)
                              · next e1 s4 m8 hrec =>
                                have hc6 : c < ({ m4 with weight :=
                                    m2.weight } : Dlx).pool.length := by
                                  show c < m4.pool.length
                                  omega
                                have hfr7 : frameStep
                                    ({ m4 with weight := m2.weight } : Dlx)
                                    ((({ m4 with weight := m2.weight } :
                                      Dlx).setRight
                                      (({ m4 with weight := m2.weight } :
                                        Dlx).nd c).left
                                      (({ m4 with weight := m2.weight } :
                                        Dlx).nd c).right).setLeft
                                      (({ m4 with weight := m2.weight } :
                                        Dlx).nd c).right
                                      (({ m4 with weight := m2.weight } :
                                        Dlx).nd c).left) :=
                                  frameStep_trans
                                    (frame_set _ _ _).2.1 (frame_set _ _ _).1
                                have hst7 := statics_of_frameStep hfr7 hst6
                                have hl7 : linksOK
                                    ((({ m4 with weight := m2.weight } :
                                      Dlx).setRight
                                      (({ m4 with weight := m2.weight } :
                                        Dlx).nd c).left
                                      (({ m4 with weight := m2.weight } :
                                        Dlx).nd c).right).setLeft
                                      (({ m4 with weight := m2.weight } :
                                        Dlx).nd c).right
                                      (({ m4 with weight := m2.weight } :
                                        Dlx).nd c).left) := by
                                  refine links_setLeft _ _
                                    (links_setRight _ _ hl6 (hl6.2 c hc6).2)
                                    ?_
                                  rw [poolLen_setRight]
                                  exact (hl6.2 c hc6).1
                                obtain ⟨hw8, hst8, hl8, hcc8, hpl8⟩ :=
                                  ih _ _ _ _ _ _ hrec hst7 hl7
                                have h1 := congrArg Prod.snd hNS
                                injection h1 with h1
                                injection h1 with ha hb2
                                subst hb2
                                have hw8' : m8.weight = m2.weight := hw8
                                have hcc8' : m8.col_cnt = m4.col_cnt := hcc8
                                have hpl8' : m4.pool.length ≤
                                    m8.pool.length := by
                                  have h9 := hpl8
                                  rw [poolLen_setRL] at h9
                                  exact h9
                                have hc8 : c < m8.pool.length := by omega
                                have hfr9 : frameStep m8
                                    ((m8.setRight (({ m4 with weight :=
                                      m2.weight } : Dlx).nd c).left
                                      c).setLeft (({ m4 with weight :=
                                      m2.weight } : Dlx).nd c).right c) :=
                                  frameStep_trans
                                    (frame_set _ _ _).2.1 (frame_set _ _ _).1
                                refine ⟨hw8', statics_of_frameStep hfr9 hst8,
                                  ?_, hcc8'.trans hcc4, ?_⟩
                                · refine links_setLeft _ _
                                    (links_setRight _ _ hl8 hc8) ?_
                                  rw [poolLen_setRight]
                                  exact hc8
                                · rw [poolLen_setRL]
                                  omega
                          obtain ⟨hw9, hst9, hl9, hcc9, hpl9⟩ := hm9f
                          split at h
                          · next m10 hfin =>
                            have hc9 : c < m9.pool.length := by omega
                            have hm10f : m10.weight = m2.weight ∧
                                statics m10 ∧ linksOK m10 ∧
                                m10.col_cnt = m2.col_cnt ∧
                                m2.pool.length ≤ m10.pool.length := by
                              rcases Bool.eq_false_or_eq_true covered
                                with hcb | hcb
                              swap
                              · rw [hcb] at hfin
                                rw [if_neg (by decide)] at hfin
                                rw [hfc] at hfin
                                have hcolc : (m9.nd c).col = c := by
                                  rcases Nat.eq_zero_or_pos c with hc0 | hc0
                                  · rw [hc0]; exact hst9.1.1
                                  · exact (hst9.1.2.2 c hc0 (by omega)).1
                                rw [untweak_trivial hcolc] at hfin
                                injection hfin with hfin
                                subst hfin
                                exact ⟨hw9, hst9, hl9, hcc9, hpl9⟩
                              · rw [hcb] at hfin
                                rw [if_pos rfl] at hfin
                                have hfr10 := uncover_col_frame hfin
                                exact ⟨hfr10.2.trans hw9,
                                  statics_of_frameStep hfr10.1 hst9,
                                  uncover_col_links hfin hc9 hst9 hl9,
                                  hfr10.1.2.1.trans hcc9,
                                  le_trans hpl9
                                    (le_of_eq hfr10.1.2.2.2.2.2.2.1.symm)⟩
                            have h2 := congrArg Prod.snd h
                            injection h2 with h2
                            injection h2 with hs hm
                            subst hm
                            obtain ⟨a1, a2, a3, a4, a5⟩ := hm10f
                            exact ⟨a1.trans hw2, a2, a3, a4.trans hcc2,
                              le_trans hpl2 a5⟩
                          · exact absurd (congrArg Prod.snd h) (by simp)
                    · exact absurd (congrArg Prod.snd h) (by simp)
            · exact absurd (congrArg Prod.snd h) (by simp)

/-- A trace that contains neither an `on_finish` nor an `on_abort`
invocation. -/
def cleanT (l : List DEvent) : Prop :=
  ∀ e, e ∈ l → e ≠ DEvent.finishE ∧ e ≠ DEvent.abortE

theorem cleanT_nil : cleanT [] := by
  intro e he
  cases he

theorem cleanT_append {a b : List DEvent} (ha : cleanT a) (hb : cleanT b) :
    cleanT (a ++ b) := by
  intro e he
  rcases List.mem_append.1 he with h | h
  · exact ha e h
  · exact hb e h

theorem cleanT_solE (x : List Nat) : cleanT [DEvent.solE x] := by
  intro e he
  rw [List.mem_singleton] at he
  subst he
  exact ⟨fun h => DEvent.noConfusion h, fun h => DEvent.noConfusion h⟩

theorem cleanT_iterE : cleanT [DEvent.iterE] := by
  intro e he
  rw [List.mem_singleton] at he
  subst he
  exact ⟨fun h => DEvent.noConfusion h, fun h => DEvent.noConfusion h⟩

theorem cleanT_fst {α : Type} {p : List DEvent × α} {l : List DEvent}
    {o : α} (hp : p = (l, o)) (hc : cleanT p.1) : cleanT l := by
  rw [hp] at hc
  exact hc

/-- `_recursive_solve` never invokes `on_finish` or `on_abort`: the
recursion has no abort check and no finish hook, so no run — returning,
panicking or diverging — ever records either callback. -/
theorem trace_clean {σ : Type} : ∀ (f : Nat),
    (∀ (cb : SimCb σ) (s : σ) (m : Dlx), cleanT (solveRec f cb s m).1) ∧
    (∀ (cb : SimCb σ) (s : σ) (c : Nat) (cov : Bool) (r : Nat) (m : Dlx),
      cleanT (tryRows f cb s c cov r m).1) := by
  intro f
  induction f with
  | zero =>
    constructor
    · intro cb s m
      exact cleanT_nil
    · intro cb s c cov r m
      exact cleanT_nil
  | succ f ih =>
    obtain ⟨ihS, ihT⟩ := ih
    constructor
    · intro cb s0 m0
      simp only [solveRec]
      have hp1 : cleanT ((if (m0.nd 0).right = 0 then
          ([DEvent.solE m0.cur_sol], (cb.onSol s0 m0.cur_sol).1,
            applyActs m0 (cb.onSol s0 m0.cur_sol).2)
        else ([], s0, some m0) : List DEvent × σ × Option Dlx)).1 := by
        by_cases hem : (m0.nd 0).right = 0
        · rw [if_pos hem]
          exact cleanT_solE _
        · rw [if_neg hem]
          exact cleanT_nil
      split
      · exact hp1
      · next m1 hm1 =>
        split
        · exact cleanT_append hp1 cleanT_iterE
        · next m2 hm2 =>
          split
          · exact cleanT_append hp1 cleanT_iterE
          · next c hcho =>
            split
            · exact cleanT_append hp1 cleanT_iterE
            · exact cleanT_append hp1 cleanT_iterE
            · split
              · next wv w1 hwv hw1v =>
                split
                · exact cleanT_append hp1 cleanT_iterE
                · next covered hcov =>
                  split
                  · exact cleanT_append hp1 cleanT_iterE
                  · next m4 hm4 =>
                    split
                    · next evL htr =>
                      have hT : cleanT evL :=
                        cleanT_fst htr (ihT cb _ c covered _ m4)
                      exact cleanT_append (cleanT_append hp1 cleanT_iterE) hT
                    · next evL s3 m5 htr =>
                      have hT : cleanT evL :=
                        cleanT_fst htr (ihT cb _ c covered _ m4)
                      split
                      · next wv2 w2 hwv2 hw2v =>
                        split
                        · exact cleanT_append
                            (cleanT_append hp1 cleanT_iterE) hT
                        · next fl hfl =>
                          split
                          · next e hNS =>
                            have hE : cleanT e := by
                              rcases Bool.eq_false_or_eq_true fl
                                with hflb | hflb
                              · rw [hflb] at hNS
                                rw [if_pos rfl] at hNS
                                split at hNS
                                · next e1 hrec =>
                                  have h1 : e1 = e := congrArg Prod.fst hNS
                                  subst h1
                                  exact cleanT_fst hrec (ihS cb s3 _)
                                · next e1 s4 m8 hrec =>
                                  exact absurd (congrArg Prod.snd hNS)
                                    (by simp)
                              · rw [hflb] at hNS
                                rw [if_neg (by decide)] at hNS
                                exact absurd (congrArg Prod.snd hNS)
                                  (by simp)
                            exact cleanT_append
                              (cleanT_append (cleanT_append hp1 cleanT_iterE)
                                hT) hE
                          · next e s5 m9 hNS =>
                            have hE : cleanT e := by
                              rcases Bool.eq_false_or_eq_true fl
                                with hflb | hflb
                              · rw [hflb] at hNS
                                rw [if_pos rfl] at hNS
                                split at hNS
                                · next e1 hrec =>
                                  exact absurd (congrArg Prod.snd hNS)
                                    (by simp)
                                · next e1 s4 m8 hrec =>
                                  have h1 : e1 = e := congrArg Prod.fst hNS
                                  subst h1
                                  exact cleanT_fst hrec (ihS cb s3 _)
                              · rw [hflb] at hNS
                                rw [if_neg (by decide)] at hNS
                                have h1 : ([] : List DEvent) = e :=
                                  congrArg Prod.fst hNS
                                rw [← h1]
                                exact cleanT_nil
                            split
                            · next m10 hfin =>
                              exact cleanT_append
                                (cleanT_append
                                  (cleanT_append hp1 cleanT_iterE) hT) hE
                            · exact cleanT_append
                                (cleanT_append
                                  (cleanT_append hp1 cleanT_iterE) hT) hE
                      · exact cleanT_append
                          (cleanT_append hp1 cleanT_iterE) hT
              · exact cleanT_append hp1 cleanT_iterE
    · intro cb s c cov r m
      simp only [tryRows]
      by_cases hrc : r = c
      · rw [if_pos hrc]
        exact cleanT_nil
      · rw [if_neg hrc]
        split
        · exact cleanT_nil
        · next m1 htw =>
          split
          · exact cleanT_nil
          · next m2 hsel =>
            split
            · exact cleanT_nil
            · next cond hcond =>
              split
              · next e hin =>
                have hE : cleanT e := by
                  rcases Bool.eq_false_or_eq_true cond with hcd | hcd
                  · rw [hcd] at hin
                    rw [if_pos rfl] at hin
                    exact cleanT_fst hin (ihS cb s _)
                  · rw [hcd] at hin
                    rw [if_neg (by decide)] at hin
                    exact absurd (congrArg Prod.snd hin) (by simp)
                exact hE
              · next e s2 m4 hin =>
                have hE : cleanT e := by
                  rcases Bool.eq_false_or_eq_true cond with hcd | hcd
                  · rw [hcd] at hin
                    rw [if_pos rfl] at hin
                    exact cleanT_fst hin (ihS cb s _)
                  · rw [hcd] at hin
                    rw [if_neg (by decide)] at hin
                    have h1 : ([] : List DEvent) = e :=
                      congrArg Prod.fst hin
                    rw [← h1]
                    exact cleanT_nil
                split
                · exact hE
                · next m5 huns =>
                  rcases hq : tryRows f cb s2 c cov
                      ((({ m5 with cur_sol := m5.cur_sol.dropLast } :
                        Dlx)).nd r).down
                      ({ m5 with cur_sol := m5.cur_sol.dropLast } : Dlx)
                    with ⟨e2, res⟩
                  exact cleanT_append hE
                    (cleanT_fst hq (ihT cb s2 c cov _ _))

/-! The header ring: `Matrix::new` links headers `1..=col_cnt` into a
doubly-linked cycle through the root `0`; the solver removes and restores
headers by link surgery.  The ring is tracked as the ordered list of
non-root headers. -/

/-- Horizontal adjacency: `b` follows `a` in the header list. -/
def rl (m : Dlx) (a b : Nat) : Prop :=
  (m.nd a).right = b ∧ (m.nd b).left = a

/-- `R` is the ordered header ring (excluding the root): following `right`
from the root visits exactly `R` and returns to the root, with coherent
`left` back-links. -/
def ringL (m : Dlx) (R : List Nat) : Prop :=
  List.Chain (rl m) 0 (R ++ [0]) ∧ R.Nodup ∧ 0 ∉ R ∧
  ∀ x ∈ R, 1 ≤ x ∧ x ≤ m.col_cnt

theorem range'_concat1 (s n : Nat) :
    List.range' s (n + 1) = List.range' s n ++ [s + n] := by
  rw [List.range'_concat]
  simp

/-- Chain transport along a pointwise implication that may use membership. -/
theorem chain_imp_mem {P Q : Nat → Nat → Prop} :
    ∀ (l : List Nat) (a : Nat), List.Chain P a l →
    (∀ x y, (x = a ∨ x ∈ l) → y ∈ l → P x y → Q x y) →
    List.Chain Q a l := by
  intro l
  induction l with
  | nil => intro a _ _; exact List.Chain.nil
  | cons b l' ih =>
    intro a h himp
    rw [List.chain_cons] at h
    exact List.chain_cons.2 ⟨himp a b (Or.inl rfl) (by simp) h.1,
      ih b h.2 (fun x y hx hy hp =>
        himp x y (by rcases hx with hx | hx
                     · exact Or.inr (by simp [hx])
                     · exact Or.inr (by simp [hx])) (by simp [hy]) hp)⟩

/-- Extending a cycle-chain `a … last 0` to `a … last n 0`: every interior
step transports, and the wrap step through `0` is re-routed through `n`. -/
theorem chain_extend {P Q : Nat → Nat → Prop} (n : Nat) :
    ∀ (L : List Nat) (a : Nat), List.Chain P a (L ++ [0]) →
    (∀ x ∈ L, x ≠ 0) → a ≠ n → (∀ x ∈ L, x ≠ n) →
    (∀ x y, y ≠ 0 → x ≠ n → y ≠ n → P x y → Q x y) →
    (∀ x, x ≠ n → P x 0 → Q x n) → Q n 0 →
    List.Chain Q a (L ++ [n, 0]) := by
  intro L
  induction L with
  | nil =>
    intro a h h0 han hn h4 h5 h6
    rw [List.nil_append, List.chain_cons] at h
    exact List.chain_cons.2 ⟨h5 a han h.1,
      List.chain_cons.2 ⟨h6, List.Chain.nil⟩⟩
  | cons b L' ih =>
    intro a h h0 han hn h4 h5 h6
    rw [List.cons_append, List.chain_cons] at h
    have hb0 : b ≠ 0 := h0 b (by simp)
    have hbn : b ≠ n := hn b (by simp)
    exact List.chain_cons.2 ⟨h4 a b hb0 han hbn h.1,
      ih b h.2 (fun x hx => h0 x (by simp [hx])) hbn
        (fun x hx => hn x (by simp [hx])) h4 h5 h6⟩

/-- Invariant of the header-creation loop of `Matrix::new` after the
headers `1..=t` have been created and linked. -/
def NI (K t : Nat) (m : Dlx) : Prop :=
  m.row_cnt = 0 ∧ m.col_cnt = K ∧ m.pool.length = t + 1 ∧
  m.col_size = List.replicate (K + 1) 0 ∧
  m.mins = 0 :: List.replicate K 1 ∧
  m.maxs = 0 :: List.replicate K 1 ∧
  m.weight = List.replicate (K + 1) 0 ∧
  m.cur_sol = [] ∧ m.abort_requested = false ∧
  (m.nd t).right = 0 ∧ (m.nd 0).left = t ∧
  (∀ j, j ≤ t → (m.nd j).col = j ∧ (m.nd j).row = 0 ∧
    (m.nd j).up = j ∧ (m.nd j).down = j ∧
    (m.nd j).left ≤ t ∧ (m.nd j).right ≤ t) ∧
  List.Chain (rl m) 0 (List.range' 1 t ++ [0])

/-- Full field characterisation of `insert_right`: only the `right` fields
of `at_` and `node` and the `left` fields of `node` and of `at_`'s old
right neighbour change. -/
theorem insert_right_fields (m : Dlx) (at_ node : Nat) :
    (m.insert_right at_ node).pool.length = m.pool.length ∧
    ∀ k, ((m.insert_right at_ node).nd k).up = (m.nd k).up ∧
      ((m.insert_right at_ node).nd k).down = (m.nd k).down ∧
      ((m.insert_right at_ node).nd k).col = (m.nd k).col ∧
      ((m.insert_right at_ node).nd k).row = (m.nd k).row ∧
      ((m.insert_right at_ node).nd k).right =
        (if at_ = k ∧ at_ < m.pool.length then node
         else if node = k ∧ node < m.pool.length then (m.nd at_).right
         else (m.nd k).right) ∧
      ((m.insert_right at_ node).nd k).left =
        (if node = k ∧ node < m.pool.length then at_
         else if (m.nd at_).right = k ∧ (m.nd at_).right < m.pool.length
           then node else (m.nd k).left) := by
  have hA : (m.setRight node ((m.nd at_).right)).pool.length =
      m.pool.length := poolLen_setRight _ _ _
  have hB : ((m.setRight node ((m.nd at_).right)).setLeft
      ((m.nd at_).right) node).pool.length = m.pool.length := by
    rw [poolLen_setLeft, hA]
  have hC : (((m.setRight node ((m.nd at_).right)).setLeft
      ((m.nd at_).right) node).setLeft node at_).pool.length =
      m.pool.length := by
    rw [poolLen_setLeft, hB]
  constructor
  · show ((((m.setRight node ((m.nd at_).right)).setLeft
        ((m.nd at_).right) node).setLeft node at_).setRight at_
        node).pool.length = m.pool.length
    rw [poolLen_setRight, hC]
  · intro k
    refine ⟨?_, ?_, ?_, ?_, ?_, ?_⟩
    · show (((((m.setRight node ((m.nd at_).right)).setLeft
          ((m.nd at_).right) node).setLeft node at_).setRight at_
          node).nd k).up = (m.nd k).up
      rw [(nd_setRight_fields _ at_ node k).2.1,
        (nd_setLeft_fields _ node at_ k).2.1,
        (nd_setLeft_fields _ ((m.nd at_).right) node k).2.1,
        (nd_setRight_fields m node ((m.nd at_).right) k).2.1]
    · show (((((m.setRight node ((m.nd at_).right)).setLeft
          ((m.nd at_).right) node).setLeft node at_).setRight at_
          node).nd k).down = (m.nd k).down
      rw [(nd_setRight_fields _ at_ node k).2.2.1,
        (nd_setLeft_fields _ node at_ k).2.2.1,
        (nd_setLeft_fields _ ((m.nd at_).right) node k).2.2.1,
        (nd_setRight_fields m node ((m.nd at_).right) k).2.2.1]
    · show (((((m.setRight node ((m.nd at_).right)).setLeft
          ((m.nd at_).right) node).setLeft node at_).setRight at_
          node).nd k).col = (m.nd k).col
      rw [(colrow_setters _ at_ node k).2.2.1,
        (colrow_setters _ node at_ k).1,
        (colrow_setters _ ((m.nd at_).right) node k).1,
        (colrow_setters m node ((m.nd at_).right) k).2.2.1]
    · show (((((m.setRight node ((m.nd at_).right)).setLeft
          ((m.nd at_).right) node).setLeft node at_).setRight at_
          node).nd k).row = (m.nd k).row
      rw [(colrow_setters _ at_ node k).2.2.2.1,
        (colrow_setters _ node at_ k).2.1,
        (colrow_setters _ ((m.nd at_).right) node k).2.1,
        (colrow_setters m node ((m.nd at_).right) k).2.2.2.1]
    · show (((((m.setRight node ((m.nd at_).right)).setLeft
          ((m.nd at_).right) node).setLeft node at_).setRight at_
          node).nd k).right = _
      rw [(nd_setRight_fields _ at_ node k).1, hC,
        (nd_setLeft_fields _ node at_ k).2.2.2,
        (nd_setLeft_fields _ ((m.nd at_).right) node k).2.2.2,
        (nd_setRight_fields m node ((m.nd at_).right) k).1]
    · show (((((m.setRight node ((m.nd at_).right)).setLeft
          ((m.nd at_).right) node).setLeft node at_).setRight at_
          node).nd k).left = _
      rw [(nd_setRight_fields _ at_ node k).2.2.2,
        (nd_setLeft_fields _ node at_ k).1, hB,
        (nd_setLeft_fields _ ((m.nd at_).right) node k).1, hA,
        (nd_setRight_fields m node ((m.nd at_).right) k).2.2.2]

/-- Full field characterisation of `insert_down`: only the `down` fields
of `at_` and `node` and the `up` fields of `node` and of `at_`'s old down
neighbour change; horizontal links are untouched. -/
theorem insert_down_fields (m : Dlx) (at_ node : Nat) :
    (m.insert_down at_ node).pool.length = m.pool.length ∧
    ∀ k, ((m.insert_down at_ node).nd k).left = (m.nd k).left ∧
      ((m.insert_down at_ node).nd k).right = (m.nd k).right ∧
      ((m.insert_down at_ node).nd k).col = (m.nd k).col ∧
      ((m.insert_down at_ node).nd k).row = (m.nd k).row ∧
      ((m.insert_down at_ node).nd k).down =
        (if at_ = k ∧ at_ < m.pool.length then node
         else if node = k ∧ node < m.pool.length then (m.nd at_).down
         else (m.nd k).down) ∧
      ((m.insert_down at_ node).nd k).up =
        (if node = k ∧ node < m.pool.length then at_
         else if (m.nd at_).down = k ∧ (m.nd at_).down < m.pool.length
           then node else (m.nd k).up) := by
  have hA : (m.setDown node ((m.nd at_).down)).pool.length =
      m.pool.length := poolLen_setDown _ _ _
  have hB : ((m.setDown node ((m.nd at_).down)).setUp
      ((m.nd at_).down) node).pool.length = m.pool.length := by
    rw [poolLen_setUp, hA]
  have hC : (((m.setDown node ((m.nd at_).down)).setUp
      ((m.nd at_).down) node).setUp node at_).pool.length =
      m.pool.length := by
    rw [poolLen_setUp, hB]
  constructor
  · show ((((m.setDown node ((m.nd at_).down)).setUp
        ((m.nd at_).down) node).setUp node at_).setDown at_
        node).pool.length = m.pool.length
    rw [poolLen_setDown, hC]
  · intro k
    refine ⟨?_, ?_, ?_, ?_, ?_, ?_⟩
    · show (((((m.setDown node ((m.nd at_).down)).setUp
          ((m.nd at_).down) node).setUp node at_).setDown at_
          node).nd k).left = (m.nd k).left
      rw [(nd_setDown_fields _ at_ node k).2.2.1,
        (nd_setUp_fields _ node at_ k).2.2.1,
        (nd_setUp_fields _ ((m.nd at_).down) node k).2.2.1,
        (nd_setDown_fields m node ((m.nd at_).down) k).2.2.1]
    · show (((((m.setDown node ((m.nd at_).down)).setUp
          ((m.nd at_).down) node).setUp node at_).setDown at_
          node).nd k).right = (m.nd k).right
      rw [(nd_setDown_fields _ at_ node k).2.2.2,
        (nd_setUp_fields _ node at_ k).2.2.2,
        (nd_setUp_fields _ ((m.nd at_).down) node k).2.2.2,
        (nd_setDown_fields m node ((m.nd at_).down) k).2.2.2]
    · show (((((m.setDown node ((m.nd at_).down)).setUp
          ((m.nd at_).down) node).setUp node at_).setDown at_
          node).nd k).col = (m.nd k).col
      rw [(colrow_setters _ at_ node k).2.2.2.2.2.2.1,
        (colrow_setters _ node at_ k).2.2.2.2.1,
        (colrow_setters _ ((m.nd at_).down) node k).2.2.2.2.1,
        (colrow_setters m node ((m.nd at_).down) k).2.2.2.2.2.2.1]
    · show (((((m.setDown node ((m.nd at_).down)).setUp
          ((m.nd at_).down) node).setUp node at_).setDown at_
          node).nd k).row = (m.nd k).row
      rw [(colrow_setters _ at_ node k).2.2.2.2.2.2.2,
        (colrow_setters _ node at_ k).2.2.2.2.2.1,
        (colrow_setters _ ((m.nd at_).down) node k).2.2.2.2.2.1,
        (colrow_setters m node ((m.nd at_).down) k).2.2.2.2.2.2.2]
    · show (((((m.setDown node ((m.nd at_).down)).setUp
          ((m.nd at_).down) node).setUp node at_).setDown at_
          node).nd k).down = _
      rw [(nd_setDown_fields _ at_ node k).1, hC,
        (nd_setUp_fields _ node at_ k).2.1,
        (nd_setUp_fields _ ((m.nd at_).down) node k).2.1,
        (nd_setDown_fields m node ((m.nd at_).down) k).1]
    · show (((((m.setDown node ((m.nd at_).down)).setUp
          ((m.nd at_).down) node).setUp node at_).setDown at_
          node).nd k).up = _
      rw [(nd_setDown_fields _ at_ node k).2.1,
        (nd_setUp_fields _ node at_ k).1, hB,
        (nd_setUp_fields _ ((m.nd at_).down) node k).1, hA,
        (nd_setDown_fields m node ((m.nd at_).down) k).2.1]

/-- One step of the header-creation loop preserves the `Matrix::new`
invariant, appending header `t + 1` at the end of the ring. -/
theorem newStep_NI {K t : Nat} {m : Dlx} (h : NI K t m) (ht : t < K) :
    NI K (t + 1) (m.newStep (t + 1)) := by
  obtain ⟨h1, h2, h3, h4, h5, h6, h7, h8, h9, hwr, hwl, hj, hch⟩ := h
  have hstep : m.newStep (t + 1) = ({ m with pool := m.pool ++
      [(⟨0, t + 1, t + 1, t + 1, t + 1, t + 1⟩ : DNode)] } :
      Dlx).insert_right t (t + 1) := by
    simp only [Dlx.newStep, Dlx.create_node, h3, Nat.add_sub_cancel]
  rw [hstep]
  set M1 : Dlx := { m with pool := m.pool ++
    [(⟨0, t + 1, t + 1, t + 1, t + 1, t + 1⟩ : DNode)] } with hM1def
  have hlen1 : M1.pool.length = t + 2 := by
    rw [hM1def]
    show (m.pool ++ [(⟨0, t + 1, t + 1, t + 1, t + 1, t + 1⟩ :
      DNode)]).length = t + 2
    rw [List.length_append, h3]
    rfl
  have hndold : ∀ k, k ≤ t → M1.nd k = m.nd k := by
    intro k hk
    rw [hM1def]
    exact nd_append_lt (by omega)
  have hndnew : M1.nd (t + 1) =
      (⟨0, t + 1, t + 1, t + 1, t + 1, t + 1⟩ : DNode) := by
    rw [hM1def]
    have hax := nd_append_self (m := m)
      (x := (⟨0, t + 1, t + 1, t + 1, t + 1, t + 1⟩ : DNode))
    rw [h3] at hax
    exact hax
  have hR0 : (M1.nd t).right = 0 := by
    rw [hndold t (le_refl t), hwr]
  have IRF := insert_right_fields M1 t (t + 1)
  refine ⟨h1, h2, ?_, h4, h5, h6, h7, h8, h9, ?_, ?_, ?_, ?_⟩
  · rw [IRF.1, hlen1]
  · rw [(IRF.2 (t + 1)).2.2.2.2.1]
    rw [if_neg (by omega), if_pos ⟨rfl, by omega⟩, hR0]
  · rw [(IRF.2 0).2.2.2.2.2, hR0]
    rw [if_neg (by omega), if_pos ⟨rfl, by omega⟩]
  · intro j hjle
    rcases Nat.lt_or_ge j (t + 1) with hjt | hjt
    · have hjt' : j ≤ t := by omega
      have hold := hndold j hjt'
      obtain ⟨c1, c2, c3, c4, c5, c6⟩ := hj j hjt'
      refine ⟨?_, ?_, ?_, ?_, ?_, ?_⟩
      · rw [(IRF.2 j).2.2.1, hold, c1]
      · rw [(IRF.2 j).2.2.2.1, hold, c2]
      · rw [(IRF.2 j).1, hold, c3]
      · rw [(IRF.2 j).2.1, hold, c4]
      · rw [(IRF.2 j).2.2.2.2.2, hR0]
        by_cases hj0 : j = 0
        · rw [if_neg (by omega), if_pos ⟨hj0.symm, by omega⟩]
        · rw [if_neg (by omega), if_neg (by omega), hold]
          omega
      · rw [(IRF.2 j).2.2.2.2.1]
        by_cases hjt2 : j = t
        · rw [if_pos ⟨hjt2.symm, by omega⟩]
        · rw [if_neg (by omega), if_neg (by omega), hold]
          omega
    · have hje : j = t + 1 := by omega
      subst hje
      refine ⟨?_, ?_, ?_, ?_, ?_, ?_⟩
      · rw [(IRF.2 (t + 1)).2.2.1, hndnew]
      · rw [(IRF.2 (t + 1)).2.2.2.1, hndnew]
      · rw [(IRF.2 (t + 1)).1, hndnew]
      · rw [(IRF.2 (t + 1)).2.1, hndnew]
      · rw [(IRF.2 (t + 1)).2.2.2.2.2]
        rw [if_pos ⟨rfl, by omega⟩]
        omega
      · rw [(IRF.2 (t + 1)).2.2.2.2.1]
        rw [if_neg (by omega), if_pos ⟨rfl, by omega⟩, hR0]
        omega
  · have hch1 : List.Chain (rl M1) 0 (List.range' 1 t ++ [0]) := by
      refine chain_imp_mem _ _ hch ?_
      intro x y hx hy hrl
      have hxb : x ≤ t := by
        rcases hx with hx | hx
        · omega
        · rcases List.mem_append.1 hx with hx | hx
          · have := List.mem_range'_1.1 hx
            omega
          · simp at hx
            omega
      have hyb : y ≤ t := by
        rcases List.mem_append.1 hy with hy | hy
        · have := List.mem_range'_1.1 hy
          omega
        · simp at hy
          omega
      exact ⟨by rw [hndold x hxb]; exact hrl.1,
        by rw [hndold y hyb]; exact hrl.2⟩
    have hQ4 : ∀ x y, y ≠ 0 → x ≠ t + 1 → y ≠ t + 1 → rl M1 x y →
        rl (M1.insert_right t (t + 1)) x y := by
      intro x y hy0 hxn hyn hrl
      have hxt : x ≠ t := by
        intro hxe
        obtain ⟨ha, hb⟩ := hrl
        rw [hxe, hR0] at ha
        exact hy0 ha.symm
      constructor
      · rw [(IRF.2 x).2.2.2.2.1]
        rw [if_neg (by omega), if_neg (by omega)]
        exact hrl.1
      · rw [(IRF.2 y).2.2.2.2.2, hR0]
        rw [if_neg (by omega), if_neg (by omega)]
        exact hrl.2
    have hQ5 : ∀ x, x ≠ t + 1 → rl M1 x 0 →
        rl (M1.insert_right t (t + 1)) x (t + 1) := by
      intro x hxn hrl
      have hxt : x = t := by
        have hl0 : (M1.nd 0).left = t := by
          rw [hndold 0 (by omega), hwl]
        obtain ⟨ha, hb⟩ := hrl
        rw [hl0] at hb
        exact hb.symm
      rw [hxt]
      constructor
      · rw [(IRF.2 t).2.2.2.2.1]
        rw [if_pos ⟨rfl, by omega⟩]
      · rw [(IRF.2 (t + 1)).2.2.2.2.2]
        rw [if_pos ⟨rfl, by omega⟩]
    have hQ6 : rl (M1.insert_right t (t + 1)) (t + 1) 0 := by
      constructor
      · rw [(IRF.2 (t + 1)).2.2.2.2.1]
        rw [if_neg (by omega), if_pos ⟨rfl, by omega⟩, hR0]
      · rw [(IRF.2 0).2.2.2.2.2, hR0]
        rw [if_neg (by omega), if_pos ⟨rfl, by omega⟩]
    rw [range'_concat1, Nat.add_comm 1 t, List.append_assoc]
    exact chain_extend (t + 1) (List.range' 1 t) 0 hch1
      (fun x hx => by have := List.mem_range'_1.1 hx; omega)
      (by omega)
      (fun x hx => by have := List.mem_range'_1.1 hx; omega)
      hQ4 hQ5 hQ6

/-- The header-creation loop of `Matrix::new` establishes the invariant. -/
theorem addColsAux_NI : ∀ (n t K : Nat) (m : Dlx), NI K t m → t + n ≤ K →
    NI K (t + n) (Dlx.addColsAux (t + 1) n m) := by
  intro n
  induction n with
  | zero => intro t K m h _; exact h
  | succ n ih =>
    intro t K m h hle
    have hstep := newStep_NI h (show t < K by omega)
    have hres := ih (t + 1) K (m.newStep (t + 1)) hstep (by omega)
    have harith : t + (n + 1) = (t + 1) + n := by omega
    rw [harith]
    exact hres

/-- `Matrix::new` satisfies the construction invariant at `t = K`. -/
theorem new_NI (K : Nat) : NI K K (Dlx.new K) := by
  have hbase : NI K 0 ({ Dlx.default0 with
      col_cnt := K
      col_size := List.replicate (K + 1) 0
      mins := 0 :: List.replicate K 1
      maxs := 0 :: List.replicate K 1
      weight := List.replicate (K + 1) 0 } : Dlx) := by
    refine ⟨rfl, rfl, rfl, rfl, rfl, rfl, rfl, rfl, rfl, rfl, rfl, ?_, ?_⟩
    · intro j hj0
      have hj0' : j = 0 := Nat.le_zero.1 hj0
      subst hj0'
      exact ⟨rfl, rfl, rfl, rfl, le_refl _, le_refl _⟩
    · exact List.chain_cons.2 ⟨⟨rfl, rfl⟩, List.Chain.nil⟩
  have h2 := addColsAux_NI K 0 K _ hbase (by omega)
  rw [Nat.zero_add] at h2
  exact h2

/-- `Matrix::new` builds a statically well-formed matrix. -/
theorem statics_new (K : Nat) : statics (Dlx.new K) := by
  obtain ⟨h1, h2, h3, h4, h5, h6, h7, h8, h9, hwr, hwl, hj, hch⟩ := new_NI K
  refine ⟨⟨(hj 0 (by omega)).1, (hj 0 (by omega)).2.1, ?_⟩, ?_, ?_⟩
  · intro c hc1 hc2
    rw [h2] at hc2
    exact ⟨(hj c hc2).1, (hj c hc2).2.1⟩
  · intro j hjlt
    rw [h3] at hjlt
    rw [(hj j (by omega)).1, h2]
    omega
  · refine ⟨by omega, ?_, ?_, ?_, ?_⟩
    · rw [h7, h2, List.length_replicate]
    · rw [h5, h2]
      simp
    · rw [h6, h2]
      simp
    · rw [h4, h2, List.length_replicate]

/-- `Matrix::new` builds a matrix with all links in bounds and vertical
self-links. -/
theorem links_new (K : Nat) : linksOK (Dlx.new K) := by
  obtain ⟨h1, h2, h3, h4, h5, h6, h7, h8, h9, hwr, hwl, hj, hch⟩ := new_NI K
  constructor
  · intro j hjlt
    rw [h3] at hjlt
    obtain ⟨c1, c2, c3, c4, c5, c6⟩ := hj j (by omega)
    rw [c3, c4]
    exact ⟨by omega, by omega, rfl, rfl⟩
  · intro j hjlt
    rw [h3] at hjlt
    obtain ⟨c1, c2, c3, c4, c5, c6⟩ := hj j (by omega)
    rw [h3]
    omega

/-- `Matrix::new` links the headers into the full ring `1, 2, …, K`. -/
theorem ringL_new (K : Nat) : ringL (Dlx.new K) (List.range' 1 K) := by
  obtain ⟨h1, h2, h3, h4, h5, h6, h7, h8, h9, hwr, hwl, hj, hch⟩ := new_NI K
  refine ⟨hch, List.nodup_range' .., ?_, ?_⟩
  · intro hmem
    have := List.mem_range'_1.1 hmem
    omega
  · intro x hx
    have := List.mem_range'_1.1 hx
    rw [h2]
    omega

theorem getD_replicate {n i : Nat} {a d : Int} (h : i < n) :
    (List.replicate n a).getD i d = a := by
  induction n generalizing i with
  | zero => omega
  | succ n ih =>
    cases i with
    | zero => rfl
    | succ j =>
      show (List.replicate n a).getD j d = a
      exact ih (by omega)

/-- C10: `Matrix::abort` only sets the `abort_requested` flag — every other
field (links, sizes, weights, multiplicities, partial solution) is
untouched — and `Matrix::solve` unconditionally clears the flag before the
search starts, so an `abort()` issued before `solve` has no effect on the
run: the run of the aborted matrix is identical to the run of the original
matrix. -/
theorem spec_C10_abort_before_solve_no_effect :
    (∀ m : Dlx, (m.abort).abort_requested = true ∧
      (m.abort).pool = m.pool ∧ (m.abort).col_size = m.col_size ∧
      (m.abort).weight = m.weight ∧ (m.abort).mins = m.mins ∧
      (m.abort).maxs = m.maxs ∧ (m.abort).row_cnt = m.row_cnt ∧
      (m.abort).col_cnt = m.col_cnt ∧ (m.abort).cur_sol = m.cur_sol) ∧
    (∀ (σ : Type) (fuel : Nat) (cb : SimCb σ) (s : σ) (m : Dlx),
      Dlx.solve fuel cb s (m.abort) = Dlx.solve fuel cb s m) :=
  ⟨fun _ => ⟨rfl, rfl, rfl, rfl, rfl, rfl, rfl, rfl, rfl⟩,
   fun _ _ _ _ _ => rfl⟩

/-- C6: whenever `Matrix::solve` returns, every column weight is zero: for
any matrix satisfying the structural well-formedness the public
constructors establish (`statics`, `linksOK`, all weights initially zero),
a returning run hands back a matrix whose `weight[c] = 0` for every column
`c` in `1..=col_cnt`. -/
theorem spec_C6_weight_zero_after_solve {σ : Type} (fuel : Nat)
    (cb : SimCb σ) (s : σ) (m : Dlx) (ev : List DEvent) (s' : σ) (m' : Dlx)
    (hrun : Dlx.solve fuel cb s m = (ev, some (s', m')))
    (hst : statics m) (hl : linksOK m)
    (hw : m.weight = List.replicate (m.col_cnt + 1) 0) :
    ∀ c, 1 ≤ c → c ≤ m'.col_cnt → m'.weight.getD c 0 = 0 := by
  have hrun' : solveRec fuel cb s { m with abort_requested := false } =
      (ev, some (s', m')) := hrun
  have hres := solveRec_some fuel cb s _ ev s' m' hrun' hst hl
  intro c h1 h2
  have hcc : m'.col_cnt = m.col_cnt := hres.2.2.2.1
  rw [hres.1]
  show m.weight.getD c 0 = 0
  rw [hw]
  exact getD_replicate (by omega)

/-- Witness for C6 at a concrete run: `Dlx.new 1` with the no-op callback
returns at fuel 2 with all column weights zero. -/
theorem spec_C6_weight_zero_after_solve_witness :
    Dlx.solve 2 noopCb () (Dlx.new 1) = ([DEvent.iterE], some ((), Dlx.new 1)) ∧
    (Dlx.new 1).weight.getD 1 0 = 0 :=
  ⟨by decide, spec_C6_weight_zero_after_solve 2 noopCb () (Dlx.new 1)
    [DEvent.iterE] () (Dlx.new 1) (by decide) (statics_new 1) (links_new 1)
    (by decide) 1 (by decide) (by decide)⟩

/-- C7: contrary to the spec's `InvalidMultiplicity` error,
`Problem::add_constraint` performs no validation: a constraint with
`max < min` is accepted and stored verbatim, and Problem construction
succeeds. -/
theorem spec_C7_add_constraint_unchecked :
    ((Problem.empty : Problem String Nat).add_constraint 1 2 1).constraints
      = [(1, 2, 1)] ∧
    ∀ (p : Problem String Nat) (e mn mx : Nat), mx < mn →
      (e, mn, mx) ∈ (p.add_constraint e mn mx).constraints := by
  constructor
  · rfl
  · intro p e mn mx _
    show (e, mn, mx) ∈ idxInsert p.constraints e (mn, mx)
    unfold idxInsert
    split
    · next hcont =>
      have hmem : e ∈ p.constraints.map Prod.fst := by
        simpa using hcont
      obtain ⟨q, hq, hqe⟩ := List.mem_map.1 hmem
      refine List.mem_map.2 ⟨q, hq, ?_⟩
      rw [if_pos hqe]
    · exact List.mem_append.2 (Or.inr (by simp))

/-- Witness for C7 at a concrete input: the reversed bounds `min 2, max 1`
are stored unchanged. -/
theorem spec_C7_add_constraint_unchecked_witness :
    ((1 : Nat), (2 : Nat), (1 : Nat)) ∈
      ((Problem.empty : Problem String Nat).add_constraint 1 2 1).constraints :=
  spec_C7_add_constraint_unchecked.2 Problem.empty 1 2 1 (by decide)

/-- C8: contrary to the spec, a `RequestProgress` signal received while the
worker is paused is silently dropped: the pause loop emits no
`ProgressUpdated` event (`Paused` is the only event the call ever sends),
and the loop is left exactly on `Run` or `Abort` (channel disconnection
also yielding `Abort`). -/
theorem spec_C8_pause_drops_progress_requests :
    (∀ sigs : List TSignal, (pauseFn sigs).1 = [TEvent.pausedEv]) ∧
    (∀ sigs : List TSignal, (pauseLoop sigs).1 = TSignal.run ∨
      (pauseLoop sigs).1 = TSignal.abortS) ∧
    pauseFn [TSignal.requestProgress, TSignal.run] =
      ([TEvent.pausedEv], TSignal.run, []) := by
  refine ⟨fun _ => rfl, ?_, rfl⟩
  intro sigs
  induction sigs with
  | nil => exact Or.inr rfl
  | cons sg rest ih =>
    cases sg with
    | run => exact Or.inl rfl
    | requestProgress => exact ih
    | pauseS => exact ih
    | abortS => exact Or.inr rfl

/-- C4: contrary to the spec, the callback's `on_finish` is never invoked:
`_recursive_solve` has no finish hook, so every run — including a normally
returning one, witnessed by `Dlx.new 1` — delivers zero `on_finish`
calls (the spec requires exactly one). -/
theorem spec_C4_on_finish_never_called :
    (∀ (σ : Type) (fuel : Nat) (cb : SimCb σ) (s : σ) (m : Dlx),
      (Dlx.solve fuel cb s m).1.count DEvent.finishE = 0) ∧
    (Dlx.solve 2 noopCb () (Dlx.new 1)).2.isSome = true ∧
    (Dlx.solve 2 noopCb () (Dlx.new 1)).1.count DEvent.finishE = 0 := by
  refine ⟨?_, by decide, by decide⟩
  intro σ fuel cb s m
  have hcl : cleanT (solveRec fuel cb s
      { m with abort_requested := false }).1 :=
    (trace_clean fuel).1 cb s _
  exact List.count_eq_zero.2 (fun hmem => (hcl _ hmem).1 rfl)

/-- C5: contrary to the spec, `_recursive_solve` never checks the
`abort_requested` flag: `on_abort` is never invoked on any run, and a run
that requests an abort at the very first `on_iteration` produces exactly
the same callback trace as a run that never aborts — the search keeps
iterating and emitting solutions instead of unwinding (8 iterations and 6
solutions at fuel 8 on the two-column zero-min matrix), even though the
flag really is set. -/
theorem spec_C5_abort_flag_ignored :
    (∀ (σ : Type) (fuel : Nat) (cb : SimCb σ) (s : σ) (m : Dlx),
      (Dlx.solve fuel cb s m).1.count DEvent.abortE = 0) ∧
    (∃ m2 : Dlx, m2zero = some m2 ∧
      (Dlx.solve 8 abortCb false m2).1 = (Dlx.solve 8 noopCb () m2).1 ∧
      (Dlx.solve 8 abortCb false m2).1.count DEvent.iterE = 8 ∧
      (Dlx.solve 8 abortCb false m2).1.count (DEvent.solE []) = 6) ∧
    (Dlx.solve 2 abortCb false (Dlx.new 1)).2.map
      (fun p => p.2.abort_requested) = some true := by
  refine ⟨?_, ?_, by decide⟩
  · intro σ fuel cb s m
    have hcl : cleanT (solveRec fuel cb s
        { m with abort_requested := false }).1 :=
      (trace_clean fuel).1 cb s _
    exact List.count_eq_zero.2 (fun hmem => (hcl _ hmem).2 rfl)
  · refine ⟨(⟨0, 2,
      [⟨0, 0, 2, 1, 0, 0⟩, ⟨0, 1, 0, 2, 1, 1⟩, ⟨0, 2, 1, 0, 2, 2⟩],
      [0, 0, 0], [0, 0, 0], [0, 1, 1], [0, 0, 0], [], false⟩ : Dlx),
      by decide, by decide, by decide, by decide⟩

/-- Frame of `unselect_node`. -/
theorem unselect_node_frame {m : Dlx} {j : Nat} {m' : Dlx}
    (h : m.unselect_node j = some m') : frameStep m m' := by
  simp only [Dlx.unselect_node] at h
  rcases hfl : m.col_full? ((m.nd j).col) with _ | b
  · rw [hfl] at h
    simp at h
  · rw [hfl] at h
    cases b with
    | true =>
      simp only [bind, Option.bind_eq_some, pure, Option.some.injEq] at h
      obtain ⟨m1, hm1, w, hw, ws, hws, h⟩ := h
      subst h
      exact frameStep_trans (uncover_col_frame hm1).1
        ⟨rfl, rfl, rfl, rfl, rfl, rfl, rfl, rfl, length_vSet hws,
          fun _ => ⟨rfl, rfl⟩⟩
    | false =>
      simp only [bind, Option.some_bind, Option.bind_eq_some, pure,
        Option.some.injEq] at h
      obtain ⟨w, hw, ws, hws, h⟩ := h
      subst h
      exact ⟨rfl, rfl, rfl, rfl, rfl, rfl, rfl, rfl, length_vSet hws,
        fun _ => ⟨rfl, rfl⟩⟩

/-- Frame of the `unselect_row` loop. -/
theorem unselectRowLoop_frame : ∀ (f j r : Nat) (m m' : Dlx),
    Dlx.unselectRowLoop f j r m = some m' → frameStep m m' := by
  intro f
  induction f with
  | zero => intro j r m m' h; cases h
  | succ f ih =>
    intro j r m m' h
    simp only [Dlx.unselectRowLoop] at h
    split at h
    · cases h; exact frameStep_refl m
    · split at h
      · next m1 hm1 =>
        exact frameStep_trans (unselect_node_frame hm1) (ih _ _ _ _ h)
      · cases h

/-- Frame of `unselect_row`. -/
theorem unselect_row_frame {m : Dlx} {r : Nat} {m' : Dlx}
    (h : m.unselect_row r = some m') : frameStep m m' :=
  unselectRowLoop_frame _ _ _ _ _ h

/-- Frame of the `untweak_rows` loop. -/
theorem untweakLoop_frame : ∀ (f r c : Nat) (m m' : Dlx),
    Dlx.untweakLoop f r c m = some m' → frameStep m m' := by
  intro f
  induction f with
  | zero => intro r c m m' h; cases h
  | succ f ih =>
    intro r c m m' h
    simp only [Dlx.untweakLoop] at h
    split at h
    · cases h; exact frameStep_refl m
    · split at h
      · next m1 hm1 =>
        have f1 : frameStep m m1 := (unhide_row_frame hm1).1
        have f2 : frameStep m1
            ((m1.setDown ((m1.nd r).up) r).setDown ((m1.nd r).down) r) :=
          frameStep_trans (frame_set m1 ((m1.nd r).up) r).2.2.2
            (frame_set _ ((m1.nd r).down) r).2.2.2
        exact frameStep_trans (frameStep_trans f1 f2) (ih _ _ _ _ h)
      · cases h

/-- Frame of `untweak_rows`. -/
theorem untweak_rows_frame {m : Dlx} {r : Nat} {m' : Dlx}
    (h : m.untweak_rows r = some m') : frameStep m m' :=
  untweakLoop_frame _ _ _ _ _ h

/-- `headOK` transports along any frame step (the `col`/`row` fields and
`col_cnt` are unchanged). -/
theorem headOK_of_frameStep {m m' : Dlx} (h : frameStep m m')
    (hh : headOK m) : headOK m' := by
  obtain ⟨h1, h2, h3⟩ := hh
  have a2 := h.2.1
  have a10 := h.2.2.2.2.2.2.2.2.2
  refine ⟨by rw [(a10 0).1]; exact h1, by rw [(a10 0).2]; exact h2, ?_⟩
  intro c hc1 hc2
  rw [a2] at hc2
  exact ⟨by rw [(a10 c).1]; exact (h3 c hc1 hc2).1,
    by rw [(a10 c).2]; exact (h3 c hc1 hc2).2⟩

/-- C9: the header identity `pool[c].col = c ∧ pool[c].row = 0` for every
column `1..=col_cnt` is established by `Matrix::new` and preserved by
`add_row`, `set_multiplicity` and every cover/uncover, tweak/untweak,
hide/unhide, select/unselect operation; consequently, for any node `j`
whose `col` field is a valid column, `pool[pool[j].col].col = pool[j].col`,
which is exactly what makes `unselect_row`'s argument `pool[j].col` to
`unselect_node` resolve to the same column header that `select_row`'s
data-node argument resolved to. -/
theorem spec_C9_header_identity_invariant :
    (∀ K c, 1 ≤ c → c ≤ K →
      ((Dlx.new K).nd c).col = c ∧ ((Dlx.new K).nd c).row = 0) ∧
    (∀ (m m' : Dlx) (row : List Nat), m.add_row row = some m' →
      statics m → linksOK m → headOK m') ∧
    (∀ (m m' : Dlx) (c : Nat) (mn mx : Int),
      m.set_multiplicity c mn mx = some m' → headOK m → headOK m') ∧
    (∀ (m m' : Dlx) (c : Nat), m.cover_col c = some m' →
      headOK m → headOK m') ∧
    (∀ (m m' : Dlx) (c : Nat), m.uncover_col c = some m' →
      headOK m → headOK m') ∧
    (∀ (m m' : Dlx) (r : Nat), m.tweak_row r = some m' →
      headOK m → headOK m') ∧
    (∀ (m m' : Dlx) (r : Nat), m.untweak_rows r = some m' →
      headOK m → headOK m') ∧
    (∀ (m m' : Dlx) (j : Nat), m.hide_node j = some m' →
      headOK m → headOK m') ∧
    (∀ (m m' : Dlx) (j : Nat), m.unhide_node j = some m' →
      headOK m → headOK m') ∧
    (∀ (m m' : Dlx) (r : Nat), m.select_row r = some m' →
      headOK m → headOK m') ∧
    (∀ (m m' : Dlx) (r : Nat), m.unselect_row r = some m' →
      headOK m → headOK m') ∧
    (∀ (m : Dlx) (j : Nat), headOK m → (m.nd j).col ≤ m.col_cnt →
      (m.nd ((m.nd j).col)).col = (m.nd j).col) := by
  refine ⟨?_, ?_, ?_, ?_, ?_, ?_, ?_, ?_, ?_, ?_, ?_, ?_⟩
  · intro K c h1 h2
    obtain ⟨_, _, _, _, _, _, _, _, _, _, _, hj, _⟩ := new_NI K
    exact ⟨(hj c h2).1, (hj c h2).2.1⟩
  · intro m m' row h hst hl
    exact (add_row_inv h hst hl).2.2.2.2.2.2.2.2.2.1.1
  · intro m m' c mn mx h hh
    unfold Dlx.set_multiplicity at h
    simp only [bind, Option.bind_eq_some, pure, Option.some.injEq] at h
    obtain ⟨mns, hmns, mxs, hmxs, h⟩ := h
    subst h
    exact hh
  · intro m m' c h hh
    exact headOK_of_frameStep (cover_col_frame h).1 hh
  · intro m m' c h hh
    exact headOK_of_frameStep (uncover_col_frame h).1 hh
  · intro m m' r h hh
    exact headOK_of_frameStep (tweak_row_frame h).1 hh
  · intro m m' r h hh
    exact headOK_of_frameStep (untweak_rows_frame h) hh
  · intro m m' j h hh
    exact headOK_of_frameStep (hide_node_frame h).1 hh
  · intro m m' j h hh
    exact headOK_of_frameStep (unhide_node_frame h).1 hh
  · intro m m' r h hh
    exact headOK_of_frameStep (select_row_frame h) hh
  · intro m m' r h hh
    exact headOK_of_frameStep (unselect_row_frame h) hh
  · intro m j hh hcle
    rcases Nat.eq_zero_or_pos ((m.nd j).col) with h0 | h0
    · rw [h0]
      exact hh.1
    · exact (hh.2.2 _ h0 hcle).1

/-- Witness for C9 at a concrete matrix: the header of column 1 of
`Matrix::new(2)` carries its own index. -/
theorem spec_C9_header_identity_invariant_witness :
    ((Dlx.new 2).nd 1).col = 1 ∧ ((Dlx.new 2).nd 1).row = 0 :=
  spec_C9_header_identity_invariant.1 2 1 (by decide) (by decide)

/-- Writing a node's `right` field with its current value is a no-op. -/
theorem setRight_self {m : Dlx} {x v : Nat} (h : (m.nd x).right = v) :
    m.setRight x v = m := by
  unfold Dlx.setRight Dlx.setNd
  have he : ({ m.nd x with right := v } : DNode) = m.nd x := by
    rw [← h]
  rw [he]
  rcases Nat.lt_or_ge x m.pool.length with hx | hx
  · show ({ m with pool := m.pool.set x (m.pool.getD x default) } :
      Dlx) = m
    rw [set_getD_self _ _ _ hx]
  · show ({ m with pool := m.pool.set x (m.nd x) } : Dlx) = m
    rw [List.set_eq_of_length_le hx]

/-- Writing a node's `left` field with its current value is a no-op. -/
theorem setLeft_self {m : Dlx} {x v : Nat} (h : (m.nd x).left = v) :
    m.setLeft x v = m := by
  unfold Dlx.setLeft Dlx.setNd
  have he : ({ m.nd x with left := v } : DNode) = m.nd x := by
    rw [← h]
  rw [he]
  rcases Nat.lt_or_ge x m.pool.length with hx | hx
  · show ({ m with pool := m.pool.set x (m.pool.getD x default) } :
      Dlx) = m
    rw [set_getD_self _ _ _ hx]
  · show ({ m with pool := m.pool.set x (m.nd x) } : Dlx) = m
    rw [List.set_eq_of_length_le hx]

/-- Two matrices with identical horizontal links (and `col_cnt`). -/
def lrEq (m m' : Dlx) : Prop :=
  m'.col_cnt = m.col_cnt ∧
  ∀ j, (m'.nd j).left = (m.nd j).left ∧ (m'.nd j).right = (m.nd j).right

theorem lrEq_refl (m : Dlx) : lrEq m m := ⟨rfl, fun _ => ⟨rfl, rfl⟩⟩

theorem lrEq_trans {m1 m2 m3 : Dlx} (h : lrEq m1 m2) (h' : lrEq m2 m3) :
    lrEq m1 m3 :=
  ⟨h'.1.trans h.1, fun j => ⟨(h'.2 j).1.trans (h.2 j).1,
    (h'.2 j).2.trans (h.2 j).2⟩⟩

/-- The header ring only depends on the horizontal links and `col_cnt`. -/
theorem ringL_of_lrEq {m m' : Dlx} {R : List Nat} (h : lrEq m m')
    (hr : ringL m R) : ringL m' R := by
  obtain ⟨hch, hnd, h0, hb⟩ := hr
  refine ⟨?_, hnd, h0, fun x hx => by rw [h.1]; exact hb x hx⟩
  exact List.Chain.imp (fun a b hab =>
    ⟨(h.2 a).2.trans hab.1, (h.2 b).1.trans hab.2⟩) hch

/-- `hide_node` does not touch any horizontal link. -/
theorem hide_node_lr {m : Dlx} {j : Nat} {m' : Dlx}
    (h : m.hide_node j = some m') : lrEq m m' := by
  simp only [Dlx.hide_node] at h
  split at h
  · next cs hcs =>
    cases h
    refine ⟨rfl, fun k => ?_⟩
    constructor
    · show (((m.setDown ((m.nd j).up) ((m.nd j).down)).setUp
        ((m.nd j).down) ((m.nd j).up)).nd k).left = (m.nd k).left
      rw [(nd_setUp_fields _ _ _ k).2.2.1, (nd_setDown_fields _ _ _ k).2.2.1]
    · show (((m.setDown ((m.nd j).up) ((m.nd j).down)).setUp
        ((m.nd j).down) ((m.nd j).up)).nd k).right = (m.nd k).right
      rw [(nd_setUp_fields _ _ _ k).2.2.2, (nd_setDown_fields _ _ _ k).2.2.2]
  · cases h

/-- The row-hiding loop does not touch any horizontal link. -/
theorem hideRowLoop_lr : ∀ (f j r : Nat) (m m' : Dlx),
    Dlx.hideRowLoop f j r m = some m' → lrEq m m' := by
  intro f
  induction f with
  | zero => intro j r m m' h; cases h
  | succ f ih =>
    intro j r m m' h
    simp only [Dlx.hideRowLoop] at h
    split at h
    · cases h; exact lrEq_refl m
    · split at h
      · next m1 hm1 =>
        exact lrEq_trans (hide_node_lr hm1) (ih _ _ _ _ h)
      · cases h

/-- `hide_row` does not touch any horizontal link. -/
theorem hide_row_lr {m : Dlx} {r : Nat} {m' : Dlx}
    (h : m.hide_row r = some m') : lrEq m m' :=
  hideRowLoop_lr _ _ _ _ _ h

/-- The cover loop does not touch any horizontal link. -/
theorem coverLoop_lr : ∀ (f r c : Nat) (m m' : Dlx),
    Dlx.coverLoop f r c m = some m' → lrEq m m' := by
  intro f
  induction f with
  | zero => intro r c m m' h; cases h
  | succ f ih =>
    intro r c m m' h
    simp only [Dlx.coverLoop] at h
    split at h
    · cases h; exact lrEq_refl m
    · split at h
      · next m1 hm1 =>
        exact lrEq_trans (hide_row_lr hm1) (ih _ _ _ _ h)
      · cases h

/-- `cover_col` decomposes into the header unlink followed by a
horizontally-silent row-hiding pass. -/
theorem cover_col_lr {m : Dlx} {c : Nat} {m' : Dlx}
    (h : m.cover_col c = some m') :
    lrEq ((m.setRight ((m.nd c).left) ((m.nd c).right)).setLeft
      ((m.nd c).right) ((m.nd c).left)) m' := by
  unfold Dlx.cover_col at h
  exact coverLoop_lr _ _ _ _ _ h

/-- A chain ending in `z` contains a step into `z`, from one of the listed
vertices. -/
theorem chain_last_ex {P : Nat → Nat → Prop} :
    ∀ (L : List Nat) (a z : Nat), List.Chain P a (L ++ [z]) →
    ∃ w, (w = a ∨ w ∈ L) ∧ P w z := by
  intro L
  induction L with
  | nil =>
    intro a z h
    rw [List.nil_append, List.chain_cons] at h
    exact ⟨a, Or.inl rfl, h.1⟩
  | cons b L' ih =>
    intro a z h
    rw [List.cons_append, List.chain_cons] at h
    obtain ⟨w, hw, hp⟩ := ih b z h.2
    refine ⟨w, ?_, hp⟩
    rcases hw with hw | hw
    · exact Or.inr (by simp [hw])
    · exact Or.inr (by simp [hw])

/-- Replacing the final target of a chain, transporting the inner steps. -/
theorem chain_retarget {P Q : Nat → Nat → Prop} (old nw : Nat) :
    ∀ (L : List Nat) (a : Nat), List.Chain P a (L ++ [old]) →
    (∀ x y, (x = a ∨ x ∈ L) → y ∈ L → P x y → Q x y) →
    (∀ x, (x = a ∨ x ∈ L) → P x old → Q x nw) →
    List.Chain Q a (L ++ [nw]) := by
  intro L
  induction L with
  | nil =>
    intro a h h1 h2
    rw [List.nil_append, List.chain_cons] at h
    exact List.chain_cons.2 ⟨h2 a (Or.inl rfl) h.1, List.Chain.nil⟩
  | cons b L' ih =>
    intro a h h1 h2
    rw [List.cons_append, List.chain_cons] at h
    refine List.chain_cons.2 ⟨h1 a b (Or.inl rfl) (by simp) h.1, ?_⟩
    refine ih b h.2 (fun x y hx hy hp => ?_) (fun x hx hp => ?_)
    · refine h1 x y ?_ (by simp [hy]) hp
      rcases hx with hx | hx
      · exact Or.inr (by simp [hx])
      · exact Or.inr (by simp [hx])
    · refine h2 x ?_ hp
      rcases hx with hx | hx
      · exact Or.inr (by simp [hx])
      · exact Or.inr (by simp [hx])

/-- Following a `right` link from any chain vertex stays in the chain. -/
theorem chain_next {m : Dlx} :
    ∀ (L : List Nat) (a x : Nat), List.Chain (rl m) a (L ++ [0]) →
    (x = a ∨ x ∈ L) → ((m.nd x).right ∈ L ∨ (m.nd x).right = 0) := by
  intro L
  induction L with
  | nil =>
    intro a x h hx
    rw [List.nil_append, List.chain_cons] at h
    rcases hx with hx | hx
    · subst hx
      exact Or.inr h.1.1
    · cases hx
  | cons b L' ih =>
    intro a x h hx
    rw [List.cons_append, List.chain_cons] at h
    rcases hx with hx | hx
    · subst hx
      rw [h.1.1]
      exact Or.inl (by simp)
    · rcases List.mem_cons.1 hx with hx | hx
      · subst hx
        rcases ih x x h.2 (Or.inl rfl) with hh | hh
        · exact Or.inl (by simp [hh])
        · exact Or.inr hh
      · rcases ih b x h.2 (Or.inr hx) with hh | hh
        · exact Or.inl (by simp [hh])
        · exact Or.inr hh

/-- With an empty header ring the root points to itself; conversely a
self-pointing root means the ring is empty. -/
theorem ringL_empty_of {m : Dlx} {R : List Nat} (hr : ringL m R)
    (h0 : (m.nd 0).right = 0) : R = [] := by
  obtain ⟨hch, hnd, hz, hb⟩ := hr
  cases R with
  | nil => rfl
  | cons b R' =>
    rw [List.cons_append, List.chain_cons] at hch
    have hb1 := hb b (by simp)
    rw [hch.1.1] at h0
    omega

/-- With a non-empty ring the root's `right` is the first header. -/
theorem ringL_first {m : Dlx} {R : List Nat} {b : Nat} {R' : List Nat}
    (hr : ringL m R) (he : R = b :: R') : (m.nd 0).right = b := by
  obtain ⟨hch, _, _, _⟩ := hr
  subst he
  rw [List.cons_append, List.chain_cons] at hch
  exact hch.1.1

/-- Unlinking a ring member from the header list performs exact surgery on
the ring: the two written links bridge its neighbours, every other
horizontal link is untouched. -/
theorem ringL_unlink {m : Dlx} {R : List Nat} {c : Nat} (hl : linksOK m)
    (hr : ringL m R) (hcR : c ∈ R) (hcp : c < m.pool.length) :
    ∃ A B, R = A ++ c :: B ∧
      ringL ((m.setRight ((m.nd c).left) ((m.nd c).right)).setLeft
        ((m.nd c).right) ((m.nd c).left)) (A ++ B) := by
  obtain ⟨A, B, hAB⟩ := List.append_of_mem hcR
  subst hAB
  obtain ⟨hch, hnd, h0, hb⟩ := hr
  have hndA : A.Nodup ∧ (c :: B).Nodup ∧ A.Disjoint (c :: B) :=
    List.nodup_append.1 hnd
  have hcB : c ∉ B := (List.nodup_cons.1 hndA.2.1).1
  have hndB : B.Nodup := (List.nodup_cons.1 hndA.2.1).2
  have hcA : c ∉ A := fun hmem => hndA.2.2 hmem (by simp)
  have hdisjAB : ∀ x, x ∈ A → x ∉ B := fun x hx hxB =>
    hndA.2.2 hx (by simp [hxB])
  have h0A : 0 ∉ A := fun hmem => h0 (by simp [hmem])
  have h0B : 0 ∉ B := fun hmem => h0 (by simp [hmem])
  have hc0 : c ≠ 0 := fun he => h0 (by simp [he])
  have hlb : (m.nd c).left < m.pool.length := (hl.2 c hcp).1
  have hrb : (m.nd c).right < m.pool.length := (hl.2 c hcp).2
  have e : (A ++ c :: B) ++ [0] = A ++ c :: (B ++ [0]) := by simp
  rw [e, List.chain_split] at hch
  obtain ⟨hc1, hc2⟩ := hch
  obtain ⟨w, hwmem, hwrl⟩ := chain_last_ex A 0 c hc1
  have hwl : w = (m.nd c).left := hwrl.2.symm
  have hrc : (m.nd ((m.nd c).left)).right = c := by
    rw [← hwl]; exact hwrl.1
  have hRight' : ∀ x, x ≠ (m.nd c).left →
      (((m.setRight ((m.nd c).left) ((m.nd c).right)).setLeft
        ((m.nd c).right) ((m.nd c).left)).nd x).right = (m.nd x).right := by
    intro x hx
    rw [(nd_setLeft_fields (m.setRight ((m.nd c).left) ((m.nd c).right))
        ((m.nd c).right) ((m.nd c).left) x).2.2.2,
      (nd_setRight_fields m ((m.nd c).left) ((m.nd c).right) x).1,
      if_neg (fun hcond => hx hcond.1.symm)]
  have hLeft' : ∀ y, y ≠ (m.nd c).right →
      (((m.setRight ((m.nd c).left) ((m.nd c).right)).setLeft
        ((m.nd c).right) ((m.nd c).left)).nd y).left = (m.nd y).left := by
    intro y hy
    rw [(nd_setLeft_fields (m.setRight ((m.nd c).left) ((m.nd c).right))
        ((m.nd c).right) ((m.nd c).left) y).1,
      if_neg (fun hcond => hy hcond.1.symm),
      (nd_setRight_fields m ((m.nd c).left) ((m.nd c).right) y).2.2.2]
  have hbrR : (((m.setRight ((m.nd c).left) ((m.nd c).right)).setLeft
      ((m.nd c).right) ((m.nd c).left)).nd ((m.nd c).left)).right =
      (m.nd c).right := by
    rw [(nd_setLeft_fields (m.setRight ((m.nd c).left) ((m.nd c).right))
        ((m.nd c).right) ((m.nd c).left) ((m.nd c).left)).2.2.2,
      (nd_setRight_fields m ((m.nd c).left) ((m.nd c).right)
        ((m.nd c).left)).1,
      if_pos ⟨rfl, hlb⟩]
  have hbrL : (((m.setRight ((m.nd c).left) ((m.nd c).right)).setLeft
      ((m.nd c).right) ((m.nd c).left)).nd ((m.nd c).right)).left =
      (m.nd c).left := by
    rw [(nd_setLeft_fields (m.setRight ((m.nd c).left) ((m.nd c).right))
        ((m.nd c).right) ((m.nd c).left) ((m.nd c).right)).1,
      if_pos ⟨rfl, by rw [poolLen_setRight]; exact hrb⟩]
  have htrans : ∀ x y, x ≠ (m.nd c).left → y ≠ (m.nd c).right →
      rl m x y →
      rl ((m.setRight ((m.nd c).left) ((m.nd c).right)).setLeft
        ((m.nd c).right) ((m.nd c).left)) x y :=
    fun x y hx hy hp => ⟨(hRight' x hx).trans hp.1, (hLeft' y hy).trans hp.2⟩
  have hbridge : rl ((m.setRight ((m.nd c).left) ((m.nd c).right)).setLeft
      ((m.nd c).right) ((m.nd c).left)) ((m.nd c).left) ((m.nd c).right) :=
    ⟨hbrR, hbrL⟩
  refine ⟨A, B, rfl, ?_, hndA.1.append hndB hdisjAB, ?_, ?_⟩
  · -- the surgically repaired chain
    cases B with
    | nil =>
      rw [List.nil_append, List.chain_cons] at hc2
      have hr0 : (m.nd c).right = 0 := hc2.1.1
      have h1 : ∀ x y, (x = 0 ∨ x ∈ A) → y ∈ A → rl m x y →
          rl ((m.setRight ((m.nd c).left) ((m.nd c).right)).setLeft
            ((m.nd c).right) ((m.nd c).left)) x y := by
        intro x y hx hy hp
        refine htrans x y ?_ ?_ hp
        · intro hxe
          rw [hxe] at hp
          have hyc : y = c := hp.1.symm.trans hrc
          rw [hyc] at hy
          exact hcA hy
        · intro hye
          rw [hr0] at hye
          rw [hye] at hy
          exact h0A hy
      have h2 : ∀ x, (x = 0 ∨ x ∈ A) → rl m x c →
          rl ((m.setRight ((m.nd c).left) ((m.nd c).right)).setLeft
            ((m.nd c).right) ((m.nd c).left)) x 0 := by
        intro x hx hp
        have hxl : x = (m.nd c).left := hp.2.symm
        rw [hxl, ← hr0]
        exact hbridge
      have hret := chain_retarget c 0 A 0 hc1 h1 h2
      have egoal : (A ++ ([] : List Nat)) ++ [0] = A ++ [0] := by simp
      rw [egoal]
      exact hret
    | cons b0 B2 =>
      rw [List.cons_append, List.chain_cons] at hc2
      obtain ⟨hcb0, htail⟩ := hc2
      have hrb0 : (m.nd c).right = b0 := hcb0.1
      have h1 : ∀ x y, (x = 0 ∨ x ∈ A) → y ∈ A → rl m x y →
          rl ((m.setRight ((m.nd c).left) ((m.nd c).right)).setLeft
            ((m.nd c).right) ((m.nd c).left)) x y := by
        intro x y hx hy hp
        refine htrans x y ?_ ?_ hp
        · intro hxe
          rw [hxe] at hp
          have hyc : y = c := hp.1.symm.trans hrc
          rw [hyc] at hy
          exact hcA hy
        · intro hye
          rw [hrb0] at hye
          rw [hye] at hy
          exact hdisjAB b0 hy (by simp)
      have h2 : ∀ x, (x = 0 ∨ x ∈ A) → rl m x c →
          rl ((m.setRight ((m.nd c).left) ((m.nd c).right)).setLeft
            ((m.nd c).right) ((m.nd c).left)) x b0 := by
        intro x hx hp
        have hxl : x = (m.nd c).left := hp.2.symm
        rw [hxl, ← hrb0]
        exact hbridge
      have hret := chain_retarget c b0 A 0 hc1 h1 h2
      have htr : ∀ x y, (x = b0 ∨ x ∈ B2 ++ [0]) → y ∈ B2 ++ [0] →
          rl m x y →
          rl ((m.setRight ((m.nd c).left) ((m.nd c).right)).setLeft
            ((m.nd c).right) ((m.nd c).left)) x y := by
        intro x y hx hy hp
        refine htrans x y ?_ ?_ hp
        · intro hxe
          rw [hxe] at hp
          have hyc : y = c := hp.1.symm.trans hrc
          rw [hyc] at hy
          rcases List.mem_append.1 hy with hy2 | hy2
          · exact hcB (List.mem_cons_of_mem _ hy2)
          · simp at hy2
            exact hc0 hy2
        · intro hye
          rw [hrb0] at hye
          rw [hye] at hy
          rcases List.mem_append.1 hy with hy2 | hy2
          · exact (List.nodup_cons.1 hndB).1 hy2
          · simp at hy2
            exact h0B (by simp [hy2])
      have egoal : (A ++ b0 :: B2) ++ [0] = A ++ b0 :: (B2 ++ [0]) := by
        simp
      rw [egoal, List.chain_split]
      exact ⟨hret, chain_imp_mem (B2 ++ [0]) b0 htail htr⟩
  · intro hmem
    rcases List.mem_append.1 hmem with hmem | hmem
    · exact h0A hmem
    · exact h0B hmem
  · intro x hx
    show 1 ≤ x ∧ x ≤ m.col_cnt
    rcases List.mem_append.1 hx with hx | hx
    · exact hb x (by simp [hx])
    · exact hb x (by simp [hx])

/-- A callback whose actions are limited to `abort` requests: the shape of
`ThreadCallback`, whose hooks never call `add_row` or `set_multiplicity`. -/
def passive {σ : Type} (cb : SimCb σ) : Prop :=
  (∀ (s : σ) (sol : List Nat), ∀ a ∈ (cb.onSol s sol).2, a = CbAct.abortA) ∧
  (∀ (s : σ), ∀ a ∈ (cb.onIter s).2, a = CbAct.abortA)

/-- Passive callback actions can only flip the abort flag: every other
field of the matrix is untouched. -/
theorem applyActs_passive_eq : ∀ (acts : List CbAct) (m m' : Dlx),
    applyActs m acts = some m' → (∀ a ∈ acts, a = CbAct.abortA) →
    m'.pool = m.pool ∧ m'.mins = m.mins ∧ m'.maxs = m.maxs ∧
    m'.weight = m.weight ∧ m'.col_size = m.col_size ∧
    m'.cur_sol = m.cur_sol ∧ m'.col_cnt = m.col_cnt := by
  intro acts
  induction acts with
  | nil =>
    intro m m' h _
    have h' : some m = some m' := h
    injection h' with h'
    rw [← h']
    exact ⟨rfl, rfl, rfl, rfl, rfl, rfl, rfl⟩
  | cons a rest ih =>
    intro m m' h hp
    have ha : a = CbAct.abortA := hp a (by simp)
    subst ha
    simp only [applyActs, applyAct] at h
    exact ih m.abort m' h (fun x hx => hp x (by simp [hx]))

/-- Two matrices with the same pool and column count have the same
horizontal links. -/
theorem lrEq_of_pool {m m' : Dlx} (hp : m'.pool = m.pool)
    (hc : m'.col_cnt = m.col_cnt) : lrEq m m' :=
  ⟨hc, fun j => by simp only [Dlx.nd]; rw [hp]; exact ⟨rfl, rfl⟩⟩

/-- The MRV loop's answer is the root or a ring member, provided the
running best and cursor are. -/
theorem chooseLoop_mem {m : Dlx} {R : List Nat} (hr : ringL m R) :
    ∀ (f c : Nat) (bs : Int) (bc res : Nat),
    m.chooseLoop f c bs bc = some res → (c = 0 ∨ c ∈ R) →
    (bc = 0 ∨ bc ∈ R) → (res = 0 ∨ res ∈ R) := by
  intro f
  induction f with
  | zero => intro c bs bc res h _ _; cases h
  | succ f ih =>
    intro c bs bc res h hc hbc
    simp only [Dlx.chooseLoop] at h
    split at h
    · injection h with h
      rw [← h]
      exact hbc
    · next hc0 =>
      simp only [bind, Option.bind_eq_some] at h
      obtain ⟨sz, hsz, h⟩ := h
      have hcR : c ∈ R := by
        rcases hc with h' | h'
        · exact absurd h' hc0
        · exact h'
      have hnext : (m.nd c).right = 0 ∨ (m.nd c).right ∈ R := by
        rcases chain_next R 0 c hr.1 (Or.inr hcR) with h' | h'
        · exact Or.inr h'
        · exact Or.inl h'
      split at h
      · exact ih _ _ _ _ h hnext (Or.inr hcR)
      · exact ih _ _ _ _ h hnext hbc

/-- Strict variant: with a ring member as running best, the answer stays in
the ring. -/
theorem chooseLoop_memS {m : Dlx} {R : List Nat} (hr : ringL m R) :
    ∀ (f c : Nat) (bs : Int) (bc res : Nat),
    m.chooseLoop f c bs bc = some res → (c = 0 ∨ c ∈ R) →
    bc ∈ R → res ∈ R := by
  intro f
  induction f with
  | zero => intro c bs bc res h _ _; cases h
  | succ f ih =>
    intro c bs bc res h hc hbc
    simp only [Dlx.chooseLoop] at h
    split at h
    · injection h with h
      rw [← h]
      exact hbc
    · next hc0 =>
      simp only [bind, Option.bind_eq_some] at h
      obtain ⟨sz, hsz, h⟩ := h
      have hcR : c ∈ R := by
        rcases hc with h' | h'
        · exact absurd h' hc0
        · exact h'
      have hnext : (m.nd c).right = 0 ∨ (m.nd c).right ∈ R := by
        rcases chain_next R 0 c hr.1 (Or.inr hcR) with h' | h'
        · exact Or.inr h'
        · exact Or.inl h'
      split at h
      · exact ih _ _ _ _ h hnext hcR
      · exact ih _ _ _ _ h hnext hbc

/-- `choose_best_col` answers the root exactly on an empty header ring,
otherwise a ring member. -/
theorem choose_col_cases {m : Dlx} {R : List Nat} {c : Nat} (hr : ringL m R)
    (h : m.choose_best_col = some c) : (c = 0 ∧ R = []) ∨ c ∈ R := by
  unfold Dlx.choose_best_col at h
  simp only [bind, Option.bind_eq_some] at h
  obtain ⟨bs, hbs, h⟩ := h
  cases R with
  | nil =>
    have hw := chooseLoop_mem hr _ _ _ _ _ h
    have hfirst : (m.nd 0).right = 0 ∨ (m.nd 0).right ∈ ([] : List Nat) := by
      rcases chain_next ([] : List Nat) 0 0 hr.1 (Or.inl rfl) with h' | h'
      · exact Or.inr h'
      · exact Or.inl h'
    rcases hw hfirst hfirst with h0 | h0
    · exact Or.inl ⟨h0, rfl⟩
    · cases h0
  | cons b R' =>
    have hfb : (m.nd 0).right = b := ringL_first hr rfl
    have hfirst : (m.nd 0).right ∈ b :: R' := by
      rw [hfb]; simp
    exact Or.inr (chooseLoop_memS hr _ _ _ _ _ h
      (Or.inr hfirst) hfirst)

/-- In a ring, a member's horizontal neighbours differ from the member. -/
theorem ring_nb_ne {m : Dlx} {R : List Nat} {c : Nat} (hr : ringL m R)
    (hcR : c ∈ R) : (m.nd c).left ≠ c ∧ (m.nd c).right ≠ c := by
  obtain ⟨A, B, hAB⟩ := List.append_of_mem hcR
  subst hAB
  obtain ⟨hch, hnd, h0, hb⟩ := hr
  have hndA := List.nodup_append.1 hnd
  have hcB : c ∉ B := (List.nodup_cons.1 hndA.2.1).1
  have hcA : c ∉ A := fun hmem => hndA.2.2 hmem (by simp)
  have hc0 : c ≠ 0 := fun he => h0 (by simp [he])
  have e : (A ++ c :: B) ++ [0] = A ++ c :: (B ++ [0]) := by simp
  rw [e, List.chain_split] at hch
  obtain ⟨hc1, hc2⟩ := hch
  constructor
  · obtain ⟨w, hwmem, hwrl⟩ := chain_last_ex A 0 c hc1
    have hwl : (m.nd c).left = w := hwrl.2
    rw [hwl]
    rcases hwmem with h' | h'
    · rw [h']
      exact fun he => hc0 he.symm
    · exact fun he => hcA (he ▸ h')
  · cases B with
    | nil =>
      rw [List.nil_append, List.chain_cons] at hc2
      rw [hc2.1.1]
      exact fun he => hc0 he.symm
    | cons b0 B2 =>
      rw [List.cons_append, List.chain_cons] at hc2
      rw [hc2.1.1]
      intro he
      exact hcB (by rw [← he]; exact List.mem_cons_self b0 B2)

/-- The two unlink writes install the bridge links between the unlinked
cell's neighbours. -/
theorem unlink_bridges {m : Dlx} {c : Nat}
    (hlb : (m.nd c).left < m.pool.length)
    (hrb : (m.nd c).right < m.pool.length) :
    (((m.setRight ((m.nd c).left) ((m.nd c).right)).setLeft
      ((m.nd c).right) ((m.nd c).left)).nd ((m.nd c).left)).right =
      (m.nd c).right ∧
    (((m.setRight ((m.nd c).left) ((m.nd c).right)).setLeft
      ((m.nd c).right) ((m.nd c).left)).nd ((m.nd c).right)).left =
      (m.nd c).left := by
  constructor
  · rw [(nd_setLeft_fields (m.setRight ((m.nd c).left) ((m.nd c).right))
      ((m.nd c).right) ((m.nd c).left) ((m.nd c).left)).2.2.2,
      (nd_setRight_fields m ((m.nd c).left) ((m.nd c).right)
        ((m.nd c).left)).1,
      if_pos ⟨rfl, hlb⟩]
  · rw [(nd_setLeft_fields (m.setRight ((m.nd c).left) ((m.nd c).right))
      ((m.nd c).right) ((m.nd c).left) ((m.nd c).right)).1,
      if_pos ⟨rfl, by rw [poolLen_setRight]; exact hrb⟩]

/-- The unlink writes leave the unlinked cell's own horizontal links alone
(its neighbours are distinct cells, or the writes are self-writes). -/
theorem unlink_keep_c {m : Dlx} {R : List Nat} {c : Nat}
    (hr : ringL m R) (hc : (c = 0 ∧ R = []) ∨ c ∈ R) :
    (((m.setRight ((m.nd c).left) ((m.nd c).right)).setLeft
      ((m.nd c).right) ((m.nd c).left)).nd c).left = (m.nd c).left ∧
    (((m.setRight ((m.nd c).left) ((m.nd c).right)).setLeft
      ((m.nd c).right) ((m.nd c).left)).nd c).right = (m.nd c).right := by
  rcases hc with ⟨hc0, hR0⟩ | hcR
  · subst hc0
    subst hR0
    have hch := hr.1
    rw [List.nil_append, List.chain_cons] at hch
    have hR : (m.nd 0).right = 0 := hch.1.1
    have hL : (m.nd 0).left = 0 := hch.1.2
    rw [hL, hR, setRight_self hR, setLeft_self hL]
    exact ⟨hL, hR⟩
  · obtain ⟨hlc, hrc⟩ := ring_nb_ne hr hcR
    constructor
    · rw [(nd_setLeft_fields (m.setRight ((m.nd c).left) ((m.nd c).right))
        ((m.nd c).right) ((m.nd c).left) c).1,
        if_neg (fun h => hrc h.1),
        (nd_setRight_fields m ((m.nd c).left) ((m.nd c).right) c).2.2.2]
    · rw [(nd_setLeft_fields (m.setRight ((m.nd c).left) ((m.nd c).right))
        ((m.nd c).right) ((m.nd c).left) c).2.2.2,
        (nd_setRight_fields m ((m.nd c).left) ((m.nd c).right) c).1,
        if_neg (fun h => hlc h.1)]

/-- Unlinking a cell whose neighbours already bridge over it changes no
horizontal link. -/
theorem unlink_lr_of_bridge {m : Dlx} {c : Nat}
    (h1 : (m.nd ((m.nd c).left)).right = (m.nd c).right)
    (h2 : (m.nd ((m.nd c).right)).left = (m.nd c).left) :
    lrEq m ((m.setRight ((m.nd c).left) ((m.nd c).right)).setLeft
      ((m.nd c).right) ((m.nd c).left)) := by
  refine ⟨rfl, fun j => ⟨?_, ?_⟩⟩
  · rw [(nd_setLeft_fields (m.setRight ((m.nd c).left) ((m.nd c).right))
      ((m.nd c).right) ((m.nd c).left) j).1]
    by_cases hj : (m.nd c).right = j ∧
        (m.nd c).right < (m.setRight ((m.nd c).left) ((m.nd c).right)).pool.length
    · rw [if_pos hj, ← hj.1]
      exact h2.symm
    · rw [if_neg hj,
        (nd_setRight_fields m ((m.nd c).left) ((m.nd c).right) j).2.2.2]
  · rw [(nd_setLeft_fields (m.setRight ((m.nd c).left) ((m.nd c).right))
      ((m.nd c).right) ((m.nd c).left) j).2.2.2,
      (nd_setRight_fields m ((m.nd c).left) ((m.nd c).right) j).1]
    by_cases hj : (m.nd c).left = j ∧ (m.nd c).left < m.pool.length
    · rw [if_pos hj, ← hj.1]
      exact h1.symm
    · rw [if_neg hj]

/-- Unlinking the chosen cell: for a ring member, surgery on the ring; for
the root on an empty ring, a no-op.  Either way the result is a ring
missing at most the unlinked cell. -/
theorem ringL_unlink_cases {m : Dlx} {R : List Nat} {c : Nat}
    (hl : linksOK m) (hr : ringL m R)
    (hc : (c = 0 ∧ R = []) ∨ c ∈ R) (hcp : c < m.pool.length) :
    ∃ R', ringL ((m.setRight ((m.nd c).left) ((m.nd c).right)).setLeft
      ((m.nd c).right) ((m.nd c).left)) R' ∧
      ∀ y ∈ R, y = c ∨ y ∈ R' := by
  rcases hc with ⟨hc0, hR0⟩ | hcR
  · subst hc0
    subst hR0
    have hch := hr.1
    rw [List.nil_append, List.chain_cons] at hch
    have hR : (m.nd 0).right = 0 := hch.1.1
    have hL : (m.nd 0).left = 0 := hch.1.2
    refine ⟨[], ?_, by simp⟩
    rw [hL, hR, setRight_self hR, setLeft_self hL]
    exact hr
  · obtain ⟨A, B, hAB, hres⟩ := ringL_unlink hl hr hcR hcp
    refine ⟨A ++ B, hres, ?_⟩
    intro y hy
    rw [hAB] at hy
    rcases List.mem_append.1 hy with hy | hy
    · exact Or.inr (List.mem_append.2 (Or.inl hy))
    · rcases List.mem_cons.1 hy with hy | hy
      · exact Or.inl hy
      · exact Or.inr (List.mem_append.2 (Or.inr hy))

/-- The row loop emits no callback events when entered at the column
itself or at an out-of-range node index. -/
theorem tryRows_trace_nil {σ : Type} (f : Nat) (cb : SimCb σ) (s : σ)
    (c : Nat) (covered : Bool) (r : Nat) (m : Dlx)
    (hw : r = c ∨ m.weight.length ≤ r) :
    (tryRows f cb s c covered r m).1 = [] := by
  cases f with
  | zero => rfl
  | succ f =>
    by_cases hrc : r = c
    · simp [tryRows, hrc]
    · rcases hw with he | hle
      · exact absurd he hrc
      · rw [tryRows_ne (f + 1) cb s c covered r m hrc hle]

/-- A solution event in a trace extended by an iteration event lies in the
original trace. -/
theorem solE_append_iter {x : List Nat} {l : List DEvent}
    (h : DEvent.solE x ∈ l ++ [DEvent.iterE]) : DEvent.solE x ∈ l := by
  rcases List.mem_append.1 h with h | h
  · exact h
  · simp at h

/-- Core soundness induction under a passive callback: if every column
with a positive minimum sits on the header ring, all weights are zero and
the partial solution is empty, then every solution event the search emits
carries the empty solution, and its emission certifies that every
minimum is non-positive. -/
theorem solveRec_passive_sols {σ : Type} : ∀ (f : Nat) (cb : SimCb σ)
    (s0 : σ) (m0 : Dlx) (R : List Nat), passive cb → statics m0 →
    linksOK m0 → ringL m0 R →
    (∀ c', 0 < m0.mins.getD c' 0 → c' ∈ R) →
    m0.weight = List.replicate (m0.col_cnt + 1) 0 →
    m0.cur_sol = [] →
    ∀ x, DEvent.solE x ∈ (solveRec f cb s0 m0).1 →
      x = [] ∧ ∀ c', m0.mins.getD c' 0 ≤ 0 := by
  intro f
  induction f with
  | zero =>
    intro cb s0 m0 R hcb hst0 hl0 hring hloc hwt hcs x hx
    exact absurd hx (by simp [solveRec])
  | succ f ih =>
    intro cb s0 m0 R hcb hst0 hl0 hring hloc hwt hcs x hx
    simp only [solveRec] at hx
    generalize hp : (if (m0.nd 0).right = 0 then
        ([DEvent.solE m0.cur_sol], (cb.onSol s0 m0.cur_sol).1,
          applyActs m0 (cb.onSol s0 m0.cur_sol).2)
      else ([], s0, some m0) : List DEvent × σ × Option Dlx) = p1 at hx
    have hEmit : DEvent.solE x ∈ p1.1 →
        x = [] ∧ ∀ c', m0.mins.getD c' 0 ≤ 0 := by
      intro hx'
      rw [← hp] at hx'
      by_cases hem : (m0.nd 0).right = 0
      · rw [if_pos hem] at hx'
        have hx2 : DEvent.solE x ∈ [DEvent.solE m0.cur_sol] := hx'
        simp only [List.mem_singleton, DEvent.solE.injEq] at hx2
        have hRnil : R = [] := ringL_empty_of hring hem
        refine ⟨by rw [hx2, hcs], ?_⟩
        intro c'
        by_contra hlt
        push_neg at hlt
        have hmem := hloc c' hlt
        rw [hRnil] at hmem
        cases hmem
      · rw [if_neg hem] at hx'
        have hx2 : DEvent.solE x ∈ ([] : List DEvent) := hx'
        cases hx2
    have hstage1 : ∀ mx : Dlx, p1.2.2 = some mx →
        mx.pool = m0.pool ∧ mx.mins = m0.mins ∧ mx.weight = m0.weight ∧
        mx.cur_sol = m0.cur_sol ∧ mx.col_cnt = m0.col_cnt ∧
        statics mx ∧ linksOK mx := by
      intro mx hmx
      rw [← hp] at hmx
      by_cases hem : (m0.nd 0).right = 0
      · rw [if_pos hem] at hmx
        have hmx' : applyActs m0 (cb.onSol s0 m0.cur_sol).2 = some mx := hmx
        have hpe := applyActs_passive_eq _ _ _ hmx' (hcb.1 s0 m0.cur_sol)
        have hinv := applyActs_inv _ _ _ hmx' hst0 hl0
        exact ⟨hpe.1, hpe.2.1, hpe.2.2.2.1, hpe.2.2.2.2.2.1,
          hpe.2.2.2.2.2.2, hinv.2.1, hinv.2.2⟩
      · rw [if_neg hem] at hmx
        have hmx' : some m0 = some mx := hmx
        injection hmx' with hmx'
        rw [← hmx']
        exact ⟨rfl, rfl, rfl, rfl, rfl, hst0, hl0⟩
    split at hx
    · exact hEmit hx
    · next m1 hm1 =>
      obtain ⟨hpool1, hmins1, hw1, hcs1, hcc1, hst1, hl1⟩ := hstage1 m1 hm1
      split at hx
      · exact hEmit (solE_append_iter hx)
      · next m2 hm2 =>
        have hpe2 := applyActs_passive_eq _ _ _ hm2 (hcb.2 p1.2.1)
        obtain ⟨cf2, hst2, hl2⟩ := applyActs_inv _ _ _ hm2 hst1 hl1
        have hpool2 : m2.pool = m0.pool := hpe2.1.trans hpool1
        have hmins2 : m2.mins = m0.mins := hpe2.2.1.trans hmins1
        have hw2 : m2.weight = m0.weight := hpe2.2.2.2.1.trans hw1
        have hcs2 : m2.cur_sol = m0.cur_sol := hpe2.2.2.2.2.2.1.trans hcs1
        have hcc2 : m2.col_cnt = m0.col_cnt := hpe2.2.2.2.2.2.2.trans hcc1
        have hring2 : ringL m2 R :=
          ringL_of_lrEq (lrEq_of_pool hpool2 hcc2) hring
        split at hx
        · exact hEmit (solE_append_iter hx)
        · next c hcho =>
          have hccase : (c = 0 ∧ R = []) ∨ c ∈ R :=
            choose_col_cases hring2 hcho
          have hclt : c < m2.col_size.length := choose_best_col_lt hcho
          have hlens2 := hst2.2.2
          have hcle : c ≤ m2.col_cnt := by
            have := hlens2.2.2.2.2
            omega
          have hcp2 : c < m2.pool.length := by
            have := hlens2.1
            omega
          split at hx
          · exact hEmit (solE_append_iter hx)
          · exact hEmit (solE_append_iter hx)
          · next hful =>
            split at hx
            · next wv w1 hwv hw1v =>
              have hclt2 : c < m2.weight.length := vSet_lt hw1v
              have hw1eq : w1 = m2.weight.set c (m2.weight.getD c 0 + 1) :=
                vSet_eq hw1v
              have hw1len : w1.length = m2.weight.length := length_vSet hw1v
              have hst3 : statics ({ m2 with weight := w1 } : Dlx) := by
                obtain ⟨hh, hb, ⟨l1, l2, l3, l4, l5⟩⟩ := hst2
                exact ⟨hh, hb, ⟨l1,
                  show w1.length = m2.col_cnt + 1 by omega, l3, l4, l5⟩⟩
              have hl3 : linksOK ({ m2 with weight := w1 } : Dlx) := hl2
              have hring3 : ringL ({ m2 with weight := w1 } : Dlx) R :=
                ringL_of_lrEq
                  (⟨rfl, fun j => ⟨rfl, rfl⟩⟩ :
                    lrEq m2 ({ m2 with weight := w1 } : Dlx)) hring2
              have hcp3 : c < ({ m2 with weight := w1 } : Dlx).pool.length :=
                hcp2
              split at hx
              · exact hEmit (solE_append_iter hx)
              · next covered hcov =>
                split at hx
                · exact hEmit (solE_append_iter hx)
                · next m4 hm4 =>
                  have hm4f : m4.weight = w1 ∧ statics m4 ∧ linksOK m4 ∧
                      m4.pool.length = m2.pool.length ∧
                      m4.col_cnt = m2.col_cnt ∧ m4.mins = m2.mins ∧
                      m4.cur_sol = m2.cur_sol := by
                    rcases Bool.eq_false_or_eq_true covered with hcb4 | hcb4
                    · rw [hcb4, if_pos rfl] at hm4
                      have hfr := cover_col_frame hm4
                      exact ⟨hfr.2, statics_of_frameStep hfr.1 hst3,
                        cover_col_links hm4 hcp3 hst3 hl3,
                        hfr.1.2.2.2.2.2.2.1, hfr.1.2.1, hfr.1.2.2.1,
                        hfr.1.2.2.2.2.1⟩
                    · rw [hcb4, if_neg (by decide)] at hm4
                      injection hm4 with hm4
                      rw [← hm4]
                      exact ⟨rfl, hst3, hl3, rfl, rfl, rfl, rfl⟩
                  obtain ⟨hw4, hst4, hl4, hpl4, hcc4, hmins4, hcsol4⟩ := hm4f
                  have hdich := down_of_col hst4 hl4
                    (show c ≤ m4.col_cnt by omega)
                  split at hx
                  · next evL htr =>
                    have h1 := congrArg Prod.fst htr
                    rw [tryRows_trace_nil f cb ((cb.onIter p1.2.1).1) c
                      covered ((m4.nd c).down) m4 hdich] at h1
                    have hevL : evL = [] := h1.symm
                    rw [hevL, List.append_nil] at hx
                    exact hEmit (solE_append_iter hx)
                  · next evL s3 m5 htr =>
                    obtain ⟨hfc, hevL, hs3, hm5⟩ := tryRows_some_eq htr hdich
                    have hm5' := hm5.symm
                    subst hm5'
                    subst hevL
                    split at hx
                    · next wv2 w2 hwv2 hw2v =>
                      have hw2eq : w2 =
                          m4.weight.set c (m4.weight.getD c 0 - 1) :=
                        vSet_eq hw2v
                      have hw6 : w2 = m2.weight := by
                        rw [hw2eq, hw4, hw1eq,
                          getD_set_self _ _ _ _ hclt2, set_set_self]
                        have he : m2.weight.getD c 0 + 1 - 1 =
                            m2.weight.getD c 0 := by omega
                        rw [he]
                        exact set_getD_self _ _ _ hclt2
                      subst hw6
                      have hst6 : statics
                          ({ m4 with weight := m2.weight } : Dlx) := by
                        obtain ⟨hh, hb, ⟨l1, l2, l3, l4, l5⟩⟩ := hst4
                        refine ⟨hh, hb, ⟨l1, ?_, l3, l4, l5⟩⟩
                        show m2.weight.length = m4.col_cnt + 1
                        rw [hcc4]
                        exact hst2.2.2.2.1
                      have hl6 : linksOK
                          ({ m4 with weight := m2.weight } : Dlx) := hl4
                      have hcp6 : c <
                          ({ m4 with weight := m2.weight } : Dlx).pool.length := by
                        show c < m4.pool.length
                        omega
                      have hlr46 : lrEq m4
                          ({ m4 with weight := m2.weight } : Dlx) :=
                        ⟨rfl, fun j => ⟨rfl, rfl⟩⟩
                      split at hx
                      · rw [List.append_nil] at hx
                        exact hEmit (solE_append_iter hx)
                      · next fl hfl =>
                        have hrecAll : fl = true →
                            ∀ x', DEvent.solE x' ∈ (solveRec f cb s3
                              ((({ m4 with weight := m2.weight } : Dlx).setRight
                                ((({ m4 with weight := m2.weight } : Dlx).nd c).left)
                                ((({ m4 with weight := m2.weight } : Dlx).nd c).right)).setLeft
                                ((({ m4 with weight := m2.weight } : Dlx).nd c).right)
                                ((({ m4 with weight := m2.weight } : Dlx).nd c).left))).1 →
                            x' = [] ∧ ∀ c', m0.mins.getD c' 0 ≤ 0 := by
                          intro hflT x' hx'
                          have hminsc : m0.mins.getD c 0 ≤ 0 := by
                            rw [hflT] at hfl
                            unfold Dlx.col_fulfilled? at hfl
                            simp only [bind, Option.bind_eq_some] at hfl
                            obtain ⟨w, hw, mn, hmn, mx, hmx, heq⟩ := hfl
                            have heq2 : some (decide (mn ≤ w ∧ w ≤ mx)) =
                                some true := heq
                            injection heq2 with heq2
                            have hcond := of_decide_eq_true heq2
                            have hw0 : w = 0 := by
                              have hwval : w = m2.weight.getD c 0 := vGet_eq hw
                              rw [hwval, hw2, hwt]
                              have hclt0 : c < m0.col_cnt + 1 := by omega
                              exact getD_replicate hclt0
                            have hmnval : mn = m0.mins.getD c 0 := by
                              have h' : mn = m4.mins.getD c 0 := vGet_eq hmn
                              rw [h', hmins4, hmins2]
                            have hc1 := hcond.1
                            omega
                          have hfin : ∃ R7, ringL
                              ((({ m4 with weight := m2.weight } : Dlx).setRight
                                ((({ m4 with weight := m2.weight } : Dlx).nd c).left)
                                ((({ m4 with weight := m2.weight } : Dlx).nd c).right)).setLeft
                                ((({ m4 with weight := m2.weight } : Dlx).nd c).right)
                                ((({ m4 with weight := m2.weight } : Dlx).nd c).left)) R7 ∧
                              ∀ y ∈ R, y = c ∨ y ∈ R7 := by
                            rcases Bool.eq_false_or_eq_true covered
                              with hcvT | hcvF
                            · rw [hcvT, if_pos rfl] at hm4
                              obtain ⟨R4, hr4tw, hmem4⟩ :=
                                ringL_unlink_cases hl3 hring3 hccase hcp3
                              have hbr3 := unlink_bridges
                                (hl3.2 c hcp3).1 (hl3.2 c hcp3).2
                              have hkc3 := unlink_keep_c hring3 hccase
                              have hlrtw4 := cover_col_lr hm4
                              have hc6L : (({ m4 with weight := m2.weight } :
                                  Dlx).nd c).left =
                                  (({ m2 with weight := w1 } : Dlx).nd c).left :=
                                (hlrtw4.2 c).1.trans hkc3.1
                              have hc6R : (({ m4 with weight := m2.weight } :
                                  Dlx).nd c).right =
                                  (({ m2 with weight := w1 } : Dlx).nd c).right :=
                                (hlrtw4.2 c).2.trans hkc3.2
                              have hb6R : (({ m4 with weight := m2.weight } :
                                  Dlx).nd ((({ m2 with weight := w1 } :
                                    Dlx).nd c).left)).right =
                                  (({ m2 with weight := w1 } : Dlx).nd c).right :=
                                (hlrtw4.2 _).2.trans hbr3.1
                              have hb6L : (({ m4 with weight := m2.weight } :
                                  Dlx).nd ((({ m2 with weight := w1 } :
                                    Dlx).nd c).right)).left =
                                  (({ m2 with weight := w1 } : Dlx).nd c).left :=
                                (hlrtw4.2 _).1.trans hbr3.2
                              have hbrg1 : (({ m4 with weight := m2.weight } :
                                  Dlx).nd ((({ m4 with weight := m2.weight } :
                                    Dlx).nd c).left)).right =
                                  (({ m4 with weight := m2.weight } :
                                    Dlx).nd c).right := by
                                rw [hc6L, hc6R]
                                exact hb6R
                              have hbrg2 : (({ m4 with weight := m2.weight } :
                                  Dlx).nd ((({ m4 with weight := m2.weight } :
                                    Dlx).nd c).right)).left =
                                  (({ m4 with weight := m2.weight } :
                                    Dlx).nd c).left := by
                                rw [hc6L, hc6R]
                                exact hb6L
                              have hlr67 := unlink_lr_of_bridge hbrg1 hbrg2
                              have hring4 : ringL m4 R4 :=
                                ringL_of_lrEq hlrtw4 hr4tw
                              have hring6 : ringL
                                  ({ m4 with weight := m2.weight } : Dlx) R4 :=
                                ringL_of_lrEq hlr46 hring4
                              exact ⟨R4, ringL_of_lrEq hlr67 hring6, hmem4⟩
                            · rw [hcvF, if_neg (by decide)] at hm4
                              injection hm4 with hm4
                              have hring6 : ringL
                                  ({ m4 with weight := m2.weight } : Dlx) R := by
                                refine ringL_of_lrEq hlr46 ?_
                                rw [← hm4]
                                exact hring3
                              exact ringL_unlink_cases hl6 hring6 hccase hcp6
                          obtain ⟨R7, hring7, hmem7⟩ := hfin
                          have hfr7 : frameStep
                              ({ m4 with weight := m2.weight } : Dlx)
                              ((({ m4 with weight := m2.weight } : Dlx).setRight
                                ((({ m4 with weight := m2.weight } : Dlx).nd c).left)
                                ((({ m4 with weight := m2.weight } : Dlx).nd c).right)).setLeft
                                ((({ m4 with weight := m2.weight } : Dlx).nd c).right)
                                ((({ m4 with weight := m2.weight } : Dlx).nd c).left)) :=
                            frameStep_trans (frame_set _ _ _).2.1
                              (frame_set _ _ _).1
                          have hst7 := statics_of_frameStep hfr7 hst6
                          have hl7 : linksOK
                              ((({ m4 with weight := m2.weight } : Dlx).setRight
                                ((({ m4 with weight := m2.weight } : Dlx).nd c).left)
                                ((({ m4 with weight := m2.weight } : Dlx).nd c).right)).setLeft
                                ((({ m4 with weight := m2.weight } : Dlx).nd c).right)
                                ((({ m4 with weight := m2.weight } : Dlx).nd c).left)) := by
                            refine links_setLeft _ _
                              (links_setRight _ _ hl6 (hl6.2 c hcp6).2) ?_
                            rw [poolLen_setRight]
                            exact (hl6.2 c hcp6).1
                          have hmins7 : ((({ m4 with weight := m2.weight } :
                              Dlx).setRight
                              ((({ m4 with weight := m2.weight } : Dlx).nd c).left)
                              ((({ m4 with weight := m2.weight } : Dlx).nd c).right)).setLeft
                              ((({ m4 with weight := m2.weight } : Dlx).nd c).right)
                              ((({ m4 with weight := m2.weight } : Dlx).nd c).left)).mins =
                              m0.mins := by
                            show m4.mins = m0.mins
                            rw [hmins4, hmins2]
                          have hw7 : ((({ m4 with weight := m2.weight } :
                              Dlx).setRight
                              ((({ m4 with weight := m2.weight } : Dlx).nd c).left)
                              ((({ m4 with weight := m2.weight } : Dlx).nd c).right)).setLeft
                              ((({ m4 with weight := m2.weight } : Dlx).nd c).right)
                              ((({ m4 with weight := m2.weight } : Dlx).nd c).left)).weight =
                              List.replicate
                                (((({ m4 with weight := m2.weight } :
                                  Dlx).setRight
                                  ((({ m4 with weight := m2.weight } : Dlx).nd c).left)
                                  ((({ m4 with weight := m2.weight } : Dlx).nd c).right)).setLeft
                                  ((({ m4 with weight := m2.weight } : Dlx).nd c).right)
                                  ((({ m4 with weight := m2.weight } : Dlx).nd c).left)).col_cnt
                                  + 1) 0 := by
                            show m2.weight = List.replicate (m4.col_cnt + 1) 0
                            rw [hw2, hwt, hcc4, hcc2]
                          have hcs7 : ((({ m4 with weight := m2.weight } :
                              Dlx).setRight
                              ((({ m4 with weight := m2.weight } : Dlx).nd c).left)
                              ((({ m4 with weight := m2.weight } : Dlx).nd c).right)).setLeft
                              ((({ m4 with weight := m2.weight } : Dlx).nd c).right)
                              ((({ m4 with weight := m2.weight } : Dlx).nd c).left)).cur_sol =
                              [] := by
                            show m4.cur_sol = []
                            rw [hcsol4, hcs2, hcs]
                          have hloc7 : ∀ c', 0 <
                              ((({ m4 with weight := m2.weight } : Dlx).setRight
                                ((({ m4 with weight := m2.weight } : Dlx).nd c).left)
                                ((({ m4 with weight := m2.weight } : Dlx).nd c).right)).setLeft
                                ((({ m4 with weight := m2.weight } : Dlx).nd c).right)
                                ((({ m4 with weight := m2.weight } : Dlx).nd c).left)).mins.getD
                                c' 0 → c' ∈ R7 := by
                            intro c' h'
                            rw [hmins7] at h'
                            rcases hmem7 c' (hloc c' h') with he | hm
                            · exfalso
                              rw [he] at h'
                              omega
                            · exact hm
                          have hres := ih cb s3 _ R7 hcb hst7 hl7 hring7
                            hloc7 hw7 hcs7 x' hx'
                          refine ⟨hres.1, fun c' => ?_⟩
                          have h2 := hres.2 c'
                          rw [hmins7] at h2
                          exact h2
                        split at hx
                        · next e hNS =>
                          rcases List.mem_append.1 hx with h' | hxe
                          · rw [List.append_nil] at h'
                            exact hEmit (solE_append_iter h')
                          · rcases Bool.eq_false_or_eq_true fl
                              with hflT | hflF
                            · rw [hflT, if_pos rfl] at hNS
                              split at hNS
                              · next e1 hrec =>
                                have he1 : e1 = e := congrArg Prod.fst hNS
                                refine hrecAll hflT x ?_
                                rw [hrec, he1]
                                exact hxe
                              · next e1 s4 m8 hrec =>
                                exact absurd (congrArg Prod.snd hNS) (by simp)
                            · rw [hflF, if_neg (by decide)] at hNS
                              exact absurd (congrArg Prod.snd hNS) (by simp)
                        · next e s5 m9 hNS =>
                          have hInE : DEvent.solE x ∈ e →
                              x = [] ∧ ∀ c', m0.mins.getD c' 0 ≤ 0 := by
                            intro hxe
                            rcases Bool.eq_false_or_eq_true fl
                              with hflT | hflF
                            · rw [hflT, if_pos rfl] at hNS
                              split at hNS
                              · next e1 hrec =>
                                exact absurd (congrArg Prod.snd hNS) (by simp)
                              · next e1 s4 m8 hrec =>
                                have he1 : e1 = e := congrArg Prod.fst hNS
                                refine hrecAll hflT x ?_
                                rw [hrec, he1]
                                exact hxe
                            · rw [hflF, if_neg (by decide)] at hNS
                              have he : ([] : List DEvent) = e :=
                                congrArg Prod.fst hNS
                              rw [← he] at hxe
                              cases hxe
                          split at hx
                          · next m10 hfin10 =>
                            rcases List.mem_append.1 hx with h' | hxe
                            · rw [List.append_nil] at h'
                              exact hEmit (solE_append_iter h')
                            · exact hInE hxe
                          · rcases List.mem_append.1 hx with h' | hxe
                            · rw [List.append_nil] at h'
                              exact hEmit (solE_append_iter h')
                            · exact hInE hxe
                    · rw [List.append_nil] at hx
                      exact hEmit (solE_append_iter hx)
            · exact hEmit (solE_append_iter hx)

/-- A ring is preserved by any operation that keeps `col_cnt` and the
horizontal links of all cells with index at most `col_cnt`. -/
theorem ringL_of_header_lr {m m' : Dlx} {R : List Nat}
    (hcc : m'.col_cnt = m.col_cnt)
    (hlr : ∀ j, j ≤ m.col_cnt → (m'.nd j).left = (m.nd j).left ∧
      (m'.nd j).right = (m.nd j).right)
    (hr : ringL m R) : ringL m' R := by
  obtain ⟨hch, hnd, h0, hb⟩ := hr
  refine ⟨?_, hnd, h0, fun x hx => by rw [hcc]; exact hb x hx⟩
  refine chain_imp_mem _ _ hch ?_
  intro x y hx hy hp
  have hxle : x ≤ m.col_cnt := by
    rcases hx with hx | hx
    · rw [hx]; exact Nat.zero_le _
    · rcases List.mem_append.1 hx with hx | hx
      · exact (hb x hx).2
      · simp at hx
        rw [hx]
        exact Nat.zero_le _
  have hyle : y ≤ m.col_cnt := by
    rcases List.mem_append.1 hy with hy | hy
    · exact (hb y hy).2
    · simp at hy
      rw [hy]
      exact Nat.zero_le _
  exact ⟨(hlr x hxle).2.trans hp.1, (hlr y hyle).1.trans hp.2⟩

/-- The `add_row` loop never touches the horizontal links of cells with
index at most `col_cnt`: new row nodes horizontally link only among
themselves, and vertical insertion is horizontally silent. -/
theorem addRowLoop_lr : ∀ (row : List Nat) (row_num left_node : Nat)
    (m m' : Dlx), Dlx.addRowLoop row_num row left_node m = some m' →
    statics m →
    (left_node = 0 ∨ (m.col_cnt < left_node ∧ left_node < m.pool.length ∧
      m.col_cnt < (m.nd left_node).right ∧
      (m.nd left_node).right < m.pool.length)) →
    ∀ j, j ≤ m.col_cnt → (m'.nd j).left = (m.nd j).left ∧
      (m'.nd j).right = (m.nd j).right := by
  intro row
  induction row with
  | nil =>
    intro row_num left_node m m' h _ _ j hj
    cases h
    exact ⟨rfl, rfl⟩
  | cons c rest ih =>
    intro row_num left_node m m' h hst hln j hj
    simp only [Dlx.addRowLoop] at h
    split at h
    · next hguard =>
      split at h
      · next cs hcs =>
        have hc1 : 1 ≤ c := hguard.1
        have hc2 : c ≤ m.col_cnt := hguard.2
        have hKlen : m.col_cnt + 1 ≤ m.pool.length := hst.2.2.1
        have hcrea := create_node_inv (m := m) row_num c hc2
        set M1 : Dlx := (m.create_node row_num c).1 with hM1
        have hM1len : M1.pool.length = m.pool.length + 1 :=
          hcrea.2.2.2.2.2.2.1
        have hst1 : statics M1 := hcrea.2.2.2.2.2.2.2.2.1 hst
        have hcc1 : M1.col_cnt = m.col_cnt := hcrea.2.1
        have hndkeep : ∀ k, k < m.pool.length → M1.nd k = m.nd k :=
          hcrea.2.2.2.2.2.2.2.1
        have hndnode : M1.nd m.pool.length =
            ⟨row_num, c, m.pool.length, m.pool.length, m.pool.length,
              m.pool.length⟩ := by
          show (m.create_node row_num c).1.nd m.pool.length = _
          have he : (m.create_node row_num c).1 = { m with pool :=
              m.pool ++ [⟨row_num, c, m.pool.length, m.pool.length,
                m.pool.length, m.pool.length⟩] } := rfl
          rw [he, nd_append_self]
        set M2 : Dlx := M1.insert_down ((M1.nd c).up) m.pool.length with hM2
        have hid := insert_down_fields M1 ((M1.nd c).up) m.pool.length
        have hM2lr : ∀ k, (M2.nd k).left = (M1.nd k).left ∧
            (M2.nd k).right = (M1.nd k).right := by
          intro k
          rw [hM2]
          exact ⟨(hid.2 k).1, (hid.2 k).2.1⟩
        have hM2len : M2.pool.length = M1.pool.length := by
          rw [hM2]
          exact hid.1
        have hfr2 : frameStep M1 M2 := by
          rw [hM2]
          exact insert_down_frame M1 _ _
        have hst2 : statics M2 := statics_of_frameStep hfr2 hst1
        set M3 : Dlx := if left_node ≠ 0 then
            M2.insert_right left_node m.pool.length else M2 with hM3
        have hfr3 : frameStep M2 M3 := by
          rw [hM3]
          split
          · exact insert_right_frame M2 _ _
          · exact frameStep_refl M2
        have hst3 : statics M3 := statics_of_frameStep hfr3 hst2
        have hM3len : M3.pool.length = M2.pool.length :=
          hfr3.2.2.2.2.2.2.1
        have hstep : (∀ k, k ≤ m.col_cnt →
            (M3.nd k).left = (m.nd k).left ∧
            (M3.nd k).right = (m.nd k).right) ∧
            m.col_cnt < (M3.nd m.pool.length).right ∧
            (M3.nd m.pool.length).right < M3.pool.length := by
          rcases hln with h0 | hquad
          · have hM3e : M3 = M2 := by
              rw [hM3, if_neg (by simp [h0])]
            rw [hM3e]
            refine ⟨fun k hk => ?_, ?_, ?_⟩
            · rw [(hM2lr k).1, (hM2lr k).2, hndkeep k (by omega)]
              exact ⟨rfl, rfl⟩
            · rw [(hM2lr m.pool.length).2, hndnode]
              show m.col_cnt < m.pool.length
              omega
            · rw [(hM2lr m.pool.length).2, hndnode]
              show m.pool.length < M2.pool.length
              omega
          · have hlnne : left_node ≠ 0 := by omega
            have hM3e : M3 = M2.insert_right left_node m.pool.length := by
              rw [hM3, if_pos hlnne]
            have hir := insert_right_fields M2 left_node m.pool.length
            have hlnval : (M2.nd left_node).right =
                (m.nd left_node).right := by
              rw [(hM2lr left_node).2, hndkeep left_node hquad.2.1]
            rw [hM3e]
            refine ⟨fun k hk => ?_, ?_, ?_⟩
            · constructor
              · rw [(hir.2 k).2.2.2.2.2,
                  if_neg (fun hh => by have := hh.1; omega),
                  if_neg (fun hh => by
                    have := hh.1
                    rw [hlnval] at this
                    omega),
                  (hM2lr k).1, hndkeep k (by omega)]
              · rw [(hir.2 k).2.2.2.2.1,
                  if_neg (fun hh => by have := hh.1; omega),
                  if_neg (fun hh => by have := hh.1; omega),
                  (hM2lr k).2, hndkeep k (by omega)]
            · rw [(hir.2 m.pool.length).2.2.2.2.1,
                if_neg (fun hh => by have := hh.1; omega),
                if_pos ⟨rfl, by omega⟩, hlnval]
              exact hquad.2.2.1
            · rw [(hir.2 m.pool.length).2.2.2.2.1,
                if_neg (fun hh => by have := hh.1; omega),
                if_pos ⟨rfl, by omega⟩, hlnval, hir.1]
              show (m.nd left_node).right < M2.pool.length
              omega
        set M4 : Dlx := { M3 with col_size := cs } with hM4
        have hst4 : statics M4 := by
          obtain ⟨hh, hb, ⟨l1, l2, l3, l4, l5⟩⟩ := hst3
          exact ⟨hh, hb, ⟨l1, l2, l3, l4, by
            show cs.length = M3.col_cnt + 1
            rw [length_vSet hcs]
            show M3.col_size.length = M3.col_cnt + 1
            exact l5⟩⟩
        have hcc4 : M4.col_cnt = m.col_cnt := by
          show M3.col_cnt = m.col_cnt
          rw [hfr3.2.1]
          show M2.col_cnt = m.col_cnt
          rw [hfr2.2.1]
          exact hcc1
        have hM4nd : ∀ k, M4.nd k = M3.nd k := fun k => rfl
        have hinv4 : m.pool.length = 0 ∨ (M4.col_cnt < m.pool.length ∧
            m.pool.length < M4.pool.length ∧
            M4.col_cnt < (M4.nd m.pool.length).right ∧
            (M4.nd m.pool.length).right < M4.pool.length) := by
          right
          rw [hcc4, hM4nd]
          have hlen4 : M4.pool.length = M3.pool.length := rfl
          rw [hlen4]
          exact ⟨by omega, by omega, hstep.2.1, hstep.2.2⟩
        have ihres := ih row_num m.pool.length M4 m' h hst4 hinv4
        have hj4 : j ≤ M4.col_cnt := by omega
        have a := ihres j hj4
        constructor
        · rw [a.1, hM4nd]
          exact (hstep.1 j hj).1
        · rw [a.2, hM4nd]
          exact (hstep.1 j hj).2
      · cases h
    · cases h

/-- `get_index_of` on a cons cell. -/
theorem getIdx_cons {E : Type} [DecidableEq E] (a : E × Nat × Nat)
    (l : List (E × Nat × Nat)) (e : E) :
    getIdx (a :: l) e = if a.1 = e then some 0
      else (getIdx l e).map (fun i => i + 1) := by
  unfold getIdx
  rw [List.findIdx?_cons, List.findIdx?_succ]
  by_cases he : a.1 = e
  · simp [he]
  · simp [he]

/-- A found index is in range. -/
theorem getIdx_lt {E : Type} [DecidableEq E] :
    ∀ (l : List (E × Nat × Nat)) (e : E) (i : Nat),
    getIdx l e = some i → i < l.length := by
  intro l
  induction l with
  | nil =>
    intro e i h
    unfold getIdx at h
    rw [List.findIdx?_nil] at h
    cases h
  | cons a rest ih =>
    intro e i h
    rw [getIdx_cons] at h
    split at h
    · injection h with h
      rw [← h]
      simp
    · rcases hi : getIdx rest e with _ | j
      · rw [hi] at h
        simp at h
      · rw [hi] at h
        simp at h
        have := ih e j hi
        simp only [List.length_cons]
        omega

/-- The element at a found index carries the searched key. -/
theorem getIdx_key {E : Type} [DecidableEq E] :
    ∀ (l : List (E × Nat × Nat)) (e : E) (i : Nat),
    getIdx l e = some i → ∀ d, (l.getD i d).1 = e := by
  intro l
  induction l with
  | nil =>
    intro e i h
    unfold getIdx at h
    rw [List.findIdx?_nil] at h
    cases h
  | cons a rest ih =>
    intro e i h d
    rw [getIdx_cons] at h
    split at h
    · next he =>
      injection h with h
      rw [← h]
      exact he
    · rcases hi : getIdx rest e with _ | j
      · rw [hi] at h
        simp at h
      · rw [hi] at h
        simp at h
        rw [← h]
        exact ih e j hi d

/-- Every registered key is found. -/
theorem getIdx_mem_exists {E : Type} [DecidableEq E] :
    ∀ (l : List (E × Nat × Nat)) (q : E × Nat × Nat), q ∈ l →
    ∃ i, getIdx l q.1 = some i := by
  intro l
  induction l with
  | nil => intro q hq; cases hq
  | cons a rest ih =>
    intro q hq
    by_cases ha : a.1 = q.1
    · exact ⟨0, by rw [getIdx_cons, if_pos ha]⟩
    · rcases List.mem_cons.1 hq with he | hmem
      · rw [he] at ha
        exact absurd rfl ha
      · obtain ⟨j, hj⟩ := ih q hmem
        refine ⟨j + 1, ?_⟩
        rw [getIdx_cons, if_neg ha, hj]
        rfl

/-- Invariants through the `set_multiplicity` pass of
`generate_multi_matrix`: only the multiplicity vectors change, and under
distinct keys every processed constraint's minimum lands at its column. -/
theorem setMulFold_inv {E : Type} [DecidableEq E]
    (full : List (E × Nat × Nat)) :
    ∀ (l : List (E × Nat × Nat)) (m m' : Dlx),
    List.foldlM (fun (m : Dlx) q => do
      let i ← getIdx full q.1
      m.set_multiplicity (i + 1) (q.2.1 : Int) (q.2.2 : Int)) m l =
      some m' →
    statics m → linksOK m →
    statics m' ∧ linksOK m' ∧ m'.pool = m.pool ∧ m'.weight = m.weight ∧
    m'.cur_sol = m.cur_sol ∧ m'.col_cnt = m.col_cnt ∧
    (∀ j, (∀ q ∈ l, ∀ i, getIdx full q.1 = some i → i + 1 ≠ j) →
      m'.mins.getD j 0 = m.mins.getD j 0) ∧
    ((l.map Prod.fst).Nodup →
      ∀ q ∈ l, ∀ i, getIdx full q.1 = some i →
      m'.mins.getD (i + 1) 0 = (q.2.1 : Int)) := by
  intro l
  induction l with
  | nil =>
    intro m m' h hst hl
    have h' : some m = some m' := h
    injection h' with h'
    rw [← h']
    exact ⟨hst, hl, rfl, rfl, rfl, rfl, fun j _ => rfl,
      fun _ q hq => absurd hq (List.not_mem_nil q)⟩
  | cons a rest ih =>
    intro m m' h hst hl
    simp only [List.foldlM_cons, bind, Option.bind_eq_some] at h
    obtain ⟨m1, ⟨ia, hia, hm1⟩, h⟩ := h
    have hinv1 := set_multiplicity_inv hm1 hst hl
    unfold Dlx.set_multiplicity at hm1
    simp only [bind, Option.bind_eq_some] at hm1
    obtain ⟨mns, hmns, mxs, hmxs, hm1⟩ := hm1
    have hm1' : some ({ m with mins := mns, maxs := mxs } : Dlx) =
        some m1 := hm1
    injection hm1' with hm1'
    have hm1mins : m1.mins = m.mins.set (ia + 1) (a.2.1 : Int) := by
      rw [← hm1']
      show mns = m.mins.set (ia + 1) (a.2.1 : Int)
      exact vSet_eq hmns
    have hm1pool : m1.pool = m.pool := by rw [← hm1']
    have hm1w : m1.weight = m.weight := by rw [← hm1']
    have hm1cs : m1.cur_sol = m.cur_sol := by rw [← hm1']
    have hm1cc : m1.col_cnt = m.col_cnt := by rw [← hm1']
    have hialt : ia + 1 < m.mins.length := vSet_lt hmns
    have ihres := ih m1 m' h hinv1.2.1 hinv1.2.2
    refine ⟨ihres.1, ihres.2.1, ihres.2.2.1.trans hm1pool,
      ihres.2.2.2.1.trans hm1w, ihres.2.2.2.2.1.trans hm1cs,
      ihres.2.2.2.2.2.1.trans hm1cc, ?_, ?_⟩
    · intro j hcond
      have h1 := ihres.2.2.2.2.2.2.1 j (fun q hq i hi =>
        hcond q (List.mem_cons_of_mem _ hq) i hi)
      rw [h1, hm1mins, getD_set_ne]
      exact hcond a (List.mem_cons_self _ _) ia hia
    · intro hknd q hq i hi
      have haK : a.1 ∉ rest.map Prod.fst := (List.nodup_cons.1 hknd).1
      have hrK : (rest.map Prod.fst).Nodup := (List.nodup_cons.1 hknd).2
      rcases List.mem_cons.1 hq with he | hmem
      · subst he
        rw [hia] at hi
        injection hi with hi
        subst hi
        have hcond2 : ∀ q2 ∈ rest, ∀ i2, getIdx full q2.1 = some i2 →
            i2 + 1 ≠ ia + 1 := by
          intro q2 hq2 i2 hi2 hie
          have hie2 : i2 = ia := by omega
          rw [hie2] at hi2
          have hk1 := getIdx_key full q2.1 ia hi2 q2
          have hk2 := getIdx_key full q.1 ia hia q2
          have hkeq : q2.1 = q.1 := hk1.symm.trans hk2
          exact haK (by rw [← hkeq]; exact List.mem_map_of_mem Prod.fst hq2)
        have huntouched := ihres.2.2.2.2.2.2.1 (ia + 1) hcond2
        rw [huntouched, hm1mins, getD_set_self _ _ _ _ hialt]
      · exact ihres.2.2.2.2.2.2.2 hrK q hmem i hi

/-- Scalar fields of the header-construction loop of `Matrix::new`. -/
theorem addColsAux_scal : ∀ (n colNum : Nat) (m : Dlx),
    (Dlx.addColsAux colNum n m).weight = m.weight ∧
    (Dlx.addColsAux colNum n m).cur_sol = m.cur_sol ∧
    (Dlx.addColsAux colNum n m).mins = m.mins ∧
    (Dlx.addColsAux colNum n m).maxs = m.maxs ∧
    (Dlx.addColsAux colNum n m).col_cnt = m.col_cnt := by
  intro n
  induction n with
  | zero => intro colNum m; exact ⟨rfl, rfl, rfl, rfl, rfl⟩
  | succ n ih =>
    intro colNum m
    have h1 := ih (colNum + 1) (m.newStep colNum)
    exact ⟨h1.1, h1.2.1, h1.2.2.1, h1.2.2.2.1, h1.2.2.2.2⟩

/-- Scalar fields of `Matrix::new`. -/
theorem new_scal (K : Nat) :
    (Dlx.new K).weight = List.replicate (K + 1) 0 ∧
    (Dlx.new K).cur_sol = [] ∧
    (Dlx.new K).mins = 0 :: List.replicate K 1 ∧
    (Dlx.new K).col_cnt = K := by
  have h := addColsAux_scal K 1 { Dlx.default0 with
    col_cnt := K
    col_size := List.replicate (K + 1) 0
    mins := 0 :: List.replicate K 1
    maxs := 0 :: List.replicate K 1
    weight := List.replicate (K + 1) 0 }
  exact ⟨h.1, h.2.1, h.2.2.1, h.2.2.2.2⟩

/-- Invariants through the row pass of `generate_multi_matrix`. -/
theorem addRowFold_inv {N E : Type} [DecidableEq E]
    (c : List (E × Nat × Nat)) :
    ∀ (l : List (N × List E)) (m m' : Dlx),
    List.foldlM (fun (m : Dlx) q => do
      let row ← q.2.mapM (fun e => (getIdx c e).map (· + 1))
      m.add_row row) m l = some m' →
    statics m → linksOK m →
    statics m' ∧ linksOK m' ∧ m'.col_cnt = m.col_cnt ∧
    m'.weight = m.weight ∧ m'.cur_sol = m.cur_sol ∧ m'.mins = m.mins ∧
    ∀ j, j ≤ m.col_cnt → (m'.nd j).left = (m.nd j).left ∧
      (m'.nd j).right = (m.nd j).right := by
  intro l
  induction l with
  | nil =>
    intro m m' h hst hl
    have h' : some m = some m' := h
    injection h' with h'
    rw [← h']
    exact ⟨hst, hl, rfl, rfl, rfl, rfl, fun j _ => ⟨rfl, rfl⟩⟩
  | cons a rest ih =>
    intro m m' h hst hl
    simp only [List.foldlM_cons, bind, Option.bind_eq_some] at h
    obtain ⟨m1, ⟨row, hrow, hm1⟩, h⟩ := h
    have hari := add_row_inv hm1 hst hl
    have hlr1 : ∀ j, j ≤ m.col_cnt → (m1.nd j).left = (m.nd j).left ∧
        (m1.nd j).right = (m.nd j).right := by
      intro j hj
      have h' : Dlx.addRowLoop (m.row_cnt + 1) row 0
          { m with row_cnt := m.row_cnt + 1 } = some m1 := hm1
      have hstr : statics ({ m with row_cnt := m.row_cnt + 1 } : Dlx) := hst
      have := addRowLoop_lr row (m.row_cnt + 1) 0
        { m with row_cnt := m.row_cnt + 1 } m1 h' hstr (Or.inl rfl) j hj
      exact this
    have ihres := ih m1 m' h hari.2.2.2.2.2.2.2.2.2.1
      hari.2.2.2.2.2.2.2.2.2.2
    refine ⟨ihres.1, ihres.2.1, ihres.2.2.1.trans hari.2.1,
      ihres.2.2.2.1.trans hari.1, ihres.2.2.2.2.1.trans hari.2.2.1,
      ihres.2.2.2.2.2.1.trans hari.2.2.2.1, ?_⟩
    intro j hj
    have hj1 : j ≤ m1.col_cnt := by
      rw [hari.2.1]
      exact hj
    have a2 := ihres.2.2.2.2.2.2 j hj1
    have b2 := hlr1 j hj
    exact ⟨a2.1.trans b2.1, a2.2.trans b2.2⟩

/-- Invariant bundle for the matrix produced by
`Solver::generate_multi_matrix`: structural invariants, the full header
ring, zero weights, empty partial solution, and (for distinct item keys)
the multiplicity-vector correspondence. -/
theorem generateMultiMatrix_inv {N E : Type} [DecidableEq E]
    (p : Problem N E) (mat : Dlx) (h : generateMultiMatrix p = some mat) :
    statics mat ∧ linksOK mat ∧
    ringL mat (List.range' 1 p.constraints.length) ∧
    mat.col_cnt = p.constraints.length ∧
    mat.weight = List.replicate (p.constraints.length + 1) 0 ∧
    mat.cur_sol = [] ∧
    mat.mins.getD 0 0 = 0 ∧
    ((p.constraints.map Prod.fst).Nodup →
      ∀ q ∈ p.constraints, ∀ i, getIdx p.constraints q.1 = some i →
        mat.mins.getD (i + 1) 0 = (q.2.1 : Int)) := by
  unfold generateMultiMatrix at h
  simp only [bind, Option.bind_eq_some] at h
  obtain ⟨m1, hm1, h2⟩ := h
  have hK := new_scal p.constraints.length
  have hsm := setMulFold_inv p.constraints p.constraints _ _ hm1
    (statics_new _) (links_new _)
  have hring1 : ringL m1 (List.range' 1 p.constraints.length) :=
    ringL_of_lrEq (lrEq_of_pool hsm.2.2.1 hsm.2.2.2.2.2.1) (ringL_new _)
  have har := addRowFold_inv p.constraints p.subsets m1 mat h2
    hsm.1 hsm.2.1
  have hccm : mat.col_cnt = p.constraints.length := by
    rw [har.2.2.1, hsm.2.2.2.2.2.1, hK.2.2.2]
  refine ⟨har.1, har.2.1, ?_, hccm, ?_, ?_, ?_, ?_⟩
  · refine ringL_of_header_lr ?_ ?_ hring1
    · rw [har.2.2.1]
    · exact har.2.2.2.2.2.2
  · rw [har.2.2.2.1, hsm.2.2.2.1, hK.1]
  · rw [har.2.2.2.2.1, hsm.2.2.2.2.1, hK.2.1]
  · rw [har.2.2.2.2.2.1]
    have h0 := hsm.2.2.2.2.2.2.1 0 (fun q hq i hi => by omega)
    rw [h0, hK.2.2.1]
    rfl
  · intro hknd q hq i hi
    rw [har.2.2.2.2.2.1]
    exact hsm.2.2.2.2.2.2.2 hknd q hq i hi

/-- Payloads listed by `traceSols` come from solution events of the trace. -/
theorem traceSols_mem : ∀ (l : List DEvent) (x : List Nat),
    x ∈ traceSols l → DEvent.solE x ∈ l := by
  intro l
  induction l with
  | nil => intro x hx; cases hx
  | cons a rest ih =>
    intro x hx
    cases a with
    | solE s =>
      have hx' : x ∈ s :: traceSols rest := hx
      rcases List.mem_cons.1 hx' with he | hm
      · rw [he]
        exact List.mem_cons_self _ _
      · exact List.mem_cons_of_mem _ (ih x hm)
    | iterE =>
      have hx' : x ∈ traceSols rest := hx
      exact List.mem_cons_of_mem _ (ih x hx')
    | abortE =>
      have hx' : x ∈ traceSols rest := hx
      exact List.mem_cons_of_mem _ (ih x hx')
    | finishE =>
      have hx' : x ∈ traceSols rest := hx
      exact List.mem_cons_of_mem _ (ih x hx')

/-- A trace without solution events lists no solutions. -/
theorem traceSols_nil {l : List DEvent} (h : ∀ x, DEvent.solE x ∉ l) :
    traceSols l = [] := by
  rcases he : traceSols l with _ | ⟨s, t⟩
  · rfl
  · have hm : s ∈ traceSols l := by
      rw [he]
      exact List.mem_cons_self _ _
    exact absurd (traceSols_mem l s hm) (h s)

/-- The do-nothing callback is passive. -/
theorem noopCb_passive : passive noopCb :=
  ⟨fun _ _ a ha => absurd ha (List.not_mem_nil a),
   fun _ a ha => absurd ha (List.not_mem_nil a)⟩

/-- Every solution event a generated matrix's solve run emits carries the
empty solution, and forces every column minimum to be non-positive. -/
theorem generated_solve_sols {N E : Type} [DecidableEq E] {σ : Type}
    (p : Problem N E) (mat : Dlx) (hmat : generateMultiMatrix p = some mat)
    (fuel : Nat) (cb : SimCb σ) (s : σ) (hcb : passive cb) :
    ∀ x, DEvent.solE x ∈ (Dlx.solve fuel cb s mat).1 →
      x = [] ∧ ∀ c', mat.mins.getD c' 0 ≤ 0 := by
  obtain ⟨hst, hl, hring, hcc, hwt, hcs, hmins0, _⟩ :=
    generateMultiMatrix_inv p mat hmat
  intro x hx
  have hx' : DEvent.solE x ∈ (solveRec fuel cb s
      ({ mat with abort_requested := false } : Dlx)).1 := hx
  have hst0 : statics ({ mat with abort_requested := false } : Dlx) := hst
  have hl0 : linksOK ({ mat with abort_requested := false } : Dlx) := hl
  have hring0 : ringL ({ mat with abort_requested := false } : Dlx)
      (List.range' 1 p.constraints.length) :=
    ringL_of_lrEq (lrEq_of_pool rfl rfl) hring
  have hminlen : mat.mins.length = p.constraints.length + 1 := by
    have h1 := hst.2.2.2.2.1
    omega
  have hloc0 : ∀ c', 0 < ({ mat with abort_requested := false } :
      Dlx).mins.getD c' 0 → c' ∈ List.range' 1 p.constraints.length := by
    intro c' h'
    have h'' : 0 < mat.mins.getD c' 0 := h'
    by_cases hc0 : c' = 0
    · rw [hc0, hmins0] at h''
      omega
    · by_cases hcK : c' ≤ p.constraints.length
      · rw [List.mem_range'_1]
        omega
      · rw [List.getD_eq_default _ _ (by omega)] at h''
        omega
  have hwt0 : ({ mat with abort_requested := false } : Dlx).weight =
      List.replicate (({ mat with abort_requested := false } :
        Dlx).col_cnt + 1) 0 := by
    show mat.weight = List.replicate (mat.col_cnt + 1) 0
    rw [hwt, hcc]
  have hcs0 : ({ mat with abort_requested := false } : Dlx).cur_sol = [] :=
    hcs
  have hres := solveRec_passive_sols fuel cb s _ _ hcb hst0 hl0 hring0
    hloc0 hwt0 hcs0 x hx'
  exact ⟨hres.1, fun c' => hres.2 c'⟩

/-- Number of selected options containing the item `e`: each entry of a
solution payload is a row number `x` naming the `x-1`-th registered subset
(`Solver::map_event`, solver.rs line 109). -/
def optCount {N E : Type} [DecidableEq E] (p : Problem N E)
    (sol : List Nat) (e : E) : Nat :=
  sol.countP (fun x => decide (e ∈ (p.subsets.map Prod.snd).getD (x - 1) []))

/-- C1: for every Problem (with distinctly-keyed items, as an `IndexMap`
guarantees) and every solution the solver emits — each `SolutionFound`
event, i.e. each `on_solution` call under a callback that, like
`ThreadCallback`, only ever uses the abort API — the solution satisfies
`min(e) ≤ count(e) ≤ max(e)` for every item `e`.  (The bound holds
because the only solutions the bugged search can emit are empty ones, and
it emits them only when every minimum is zero.) -/
theorem spec_C1_emitted_solutions_respect_bounds {N E : Type}
    [DecidableEq E] {σ : Type} (p : Problem N E) (mat : Dlx) (fuel : Nat)
    (cb : SimCb σ) (s : σ)
    (hkeys : (p.constraints.map Prod.fst).Nodup) (hcb : passive cb)
    (hmat : generateMultiMatrix p = some mat) :
    ∀ sol ∈ traceSols (Dlx.solve fuel cb s mat).1,
      ∀ q ∈ p.constraints,
        q.2.1 ≤ optCount p sol q.1 ∧ optCount p sol q.1 ≤ q.2.2 := by
  intro sol hsol q hq
  have hmem := traceSols_mem _ sol hsol
  have hres := generated_solve_sols p mat hmat fuel cb s hcb sol hmem
  obtain ⟨i, hi⟩ := getIdx_mem_exists p.constraints q hq
  have hcorr := (generateMultiMatrix_inv p mat hmat).2.2.2.2.2.2.2 hkeys
    q hq i hi
  have hle := hres.2 (i + 1)
  rw [hcorr] at hle
  have hq0 : q.2.1 = 0 := by omega
  rw [hres.1, hq0]
  exact ⟨Nat.zero_le _, Nat.zero_le _⟩

/-- The one-item problem `{1 ↦ [0, 1]}` used to witness C1. -/
def c1prob : Problem Nat Nat := Problem.empty.add_constraint 1 0 1

/-- The matrix generated from `c1prob`. -/
def c1mat : Dlx :=
  ⟨0, 1, [⟨0, 0, 1, 1, 0, 0⟩, ⟨0, 1, 0, 0, 1, 1⟩],
    [0, 0], [0, 0], [0, 1], [0, 0], [], false⟩

theorem spec_C1_emitted_solutions_respect_bounds_witness :
    (c1prob.constraints.map Prod.fst).Nodup ∧
    generateMultiMatrix c1prob = some c1mat ∧
    ∀ sol ∈ traceSols (Dlx.solve 3 noopCb () c1mat).1,
      ∀ q ∈ c1prob.constraints,
        q.2.1 ≤ optCount c1prob sol q.1 ∧
          optCount c1prob sol q.1 ≤ q.2.2 :=
  ⟨by decide, by decide,
    spec_C1_emitted_solutions_respect_bounds c1prob c1mat 3 noopCb ()
      (by decide) noopCb_passive (by decide)⟩

/-- The matrix `generate_multi_matrix` builds for scenario S2. -/
def s2matLit : Dlx :=
  ⟨6, 3,
    [⟨0, 0, 3, 1, 0, 0⟩, ⟨0, 1, 0, 2, 10, 4⟩, ⟨0, 2, 1, 3, 12, 5⟩,
     ⟨0, 3, 2, 0, 13, 6⟩, ⟨1, 1, 6, 5, 1, 7⟩, ⟨1, 2, 4, 6, 2, 8⟩,
     ⟨1, 3, 5, 4, 3, 9⟩, ⟨2, 1, 7, 7, 4, 10⟩, ⟨3, 2, 8, 8, 5, 11⟩,
     ⟨4, 3, 9, 9, 6, 13⟩, ⟨5, 1, 11, 11, 7, 1⟩, ⟨5, 2, 10, 10, 8, 12⟩,
     ⟨6, 2, 13, 13, 11, 2⟩, ⟨6, 3, 12, 12, 9, 3⟩],
    [0, 3, 4, 3], [0, 1, 1, 1], [0, 1, 1, 1], [0, 0, 0, 0], [], false⟩

/-- C3: on scenario S2 (items `1..=3` exact, options `A=[1,2,3]`, `B=[1]`,
`C=[2]`, `D=[3]`, `E=[1,2]`, `F=[2,3]`) the solver emits NO solutions at
all, for every fuel bound — not the four expected covers `{A}`, `{B,C,D}`,
`{B,F}`, `{E,D}`: the node-indexed `col_fulfillable(r)` guard makes every
row selection panic, so nothing is ever emitted on a problem whose minima
are positive. -/
theorem spec_C3_s2_solver_emits_no_solutions :
    ∃ mat, s2mat = some mat ∧
      ∀ fuel, traceSols (Dlx.solve fuel noopCb () mat).1 = [] := by
  refine ⟨s2matLit, by decide, ?_⟩
  intro fuel
  apply traceSols_nil
  intro x hx
  have hres := generated_solve_sols s2prob s2matLit (by decide) fuel
    noopCb () noopCb_passive x hx
  have h1 := hres.2 1
  exact absurd h1 (by decide)

/-- C2: a terminating `Matrix::solve` run does NOT generally leave the
matrix in its pre-solve topology: a callback that exercises the public
`add_row` API (as any `Callback` may — the hooks receive `&mut Matrix`)
grows the node pool, and `solve` returns with the larger matrix. -/
theorem spec_C2_solve_does_not_restore_topology :
    ∃ (s : Bool) (m' : Dlx),
      (Dlx.solve 8 addRowCb false (Dlx.new 2)).2 = some (s, m') ∧
      (Dlx.new 2).pool.length < m'.pool.length := by
  refine ⟨true,
    ⟨1, 2, [⟨0, 0, 2, 1, 0, 0⟩, ⟨0, 1, 0, 2, 1, 1⟩, ⟨0, 2, 1, 0, 3, 3⟩,
      ⟨1, 2, 3, 3, 2, 2⟩], [0, 0, 1], [0, 1, 1], [0, 1, 1], [0, 0, 0],
      [], false⟩, by decide, by decide⟩

/-- C2: counterexample to the LIFO cover/uncover bit-identical restoration
law itself. The sequence `cover 1; cover 1; uncover 1; uncover 1` is
LIFO-balanced (every cover matched by exactly one uncover of the same
column, innermost first); on `Matrix::new(2)` followed by
`add_row(&[1, 1])` it runs to completion without a panic and restores
every `left`/`right`/`up`/`down` link exactly, yet ends with
`col_size = [0, 3, 0]` where the initial matrix had `[0, 2, 0]`: the node
graph including `col_size` is not restored. -/
theorem spec_C2_lifo_restoration_law_fails :
    lifoOk cuSeq [] = true ∧
    ∃ m0 m', (Dlx.new 2).add_row [1, 1] = some m0 ∧
      runCU cuSeq m0 = some m' ∧
      m'.pool = m0.pool ∧ m'.col_size ≠ m0.col_size := by
  refine ⟨by decide,
    ⟨1, 2, [⟨0, 0, 2, 1, 0, 0⟩, ⟨0, 1, 0, 2, 4, 3⟩, ⟨0, 2, 1, 0, 2, 2⟩,
        ⟨1, 1, 4, 4, 1, 4⟩, ⟨1, 1, 3, 3, 3, 1⟩],
      [0, 2, 0], [0, 1, 1], [0, 1, 1], [0, 0, 0], [], false⟩,
    ⟨1, 2, [⟨0, 0, 2, 1, 0, 0⟩, ⟨0, 1, 0, 2, 4, 3⟩, ⟨0, 2, 1, 0, 2, 2⟩,
        ⟨1, 1, 4, 4, 1, 4⟩, ⟨1, 1, 3, 3, 3, 1⟩],
      [0, 3, 0], [0, 1, 1], [0, 1, 1], [0, 0, 0], [], false⟩,
    by decide, by decide, by decide, by decide⟩

/-- C2 (amended): a returning `Matrix::solve` run does preserve the scalar
state and the structural invariants — the `weight` vector comes back
exactly, `statics` and `linksOK` persist and `col_cnt` is unchanged — but
the node pool can only be said to have grown, not to be identical: both
the per-operation LIFO restoration law (`col_size` drifts once a covered
column is covered again) and the solve-level topology restoration fail —
see the counterexamples. -/
theorem spec_C2_solve_preserves_invariants {σ : Type} (fuel : Nat)
    (cb : SimCb σ) (s : σ) (m : Dlx) (ev : List DEvent) (s' : σ) (m' : Dlx)
    (hrun : Dlx.solve fuel cb s m = (ev, some (s', m')))
    (hst : statics m) (hl : linksOK m) :
    m'.weight = m.weight ∧ statics m' ∧ linksOK m' ∧
    m'.col_cnt = m.col_cnt ∧ m.pool.length ≤ m'.pool.length := by
  have hrun' : solveRec fuel cb s { m with abort_requested := false } =
      (ev, some (s', m')) := hrun
  have hres := solveRec_some fuel cb s _ ev s' m' hrun' hst hl
  exact hres

theorem spec_C2_solve_preserves_invariants_witness :
    Dlx.solve 2 noopCb () (Dlx.new 1) =
      ([DEvent.iterE], some ((), Dlx.new 1)) ∧
    (Dlx.new 1).weight = (Dlx.new 1).weight :=
  ⟨by decide, (spec_C2_solve_preserves_invariants 2 noopCb () (Dlx.new 1)
    [DEvent.iterE] () (Dlx.new 1) (by decide) (statics_new 1)
    (links_new 1)).1⟩

/-- Concrete counterexample to the spec's `InvalidMultiplicity` check: the
reversed bounds `min 2, max 1` are accepted and stored, and Problem
construction succeeds. -/
theorem spec_C7_reversed_bounds_accepted :
    ((Problem.empty : Problem String Nat).add_constraint 1 2 1).constraints
      = [(1, 2, 1)] := by decide

/-- Concrete counterexample to the progress-while-paused claim: a
`RequestProgress` signal arriving while paused produces no
`ProgressUpdated` event — the call's only event is `Paused` — before the
loop leaves on the following `Run`. -/
theorem spec_C8_progress_dropped_concrete :
    pauseFn [TSignal.requestProgress, TSignal.run] =
      ([TEvent.pausedEv], TSignal.run, []) := by decide
